import Mathlib

/-!
Higra: region adjacency graph contraction and accumulators.

A shallow embedding of `include/higra/algo/rag.hpp` and
`include/higra/accumulator/accumulator.hpp`, followed by theorems about them.

Arrays (`array_1d`) are lists, written with `List.set` and read with
`List.getD _ _ 0`; `std::size_t` indices are natural numbers; the `std::map`
`canonical_edge` is an association list read with `List.lookup`; the closure
`explore_component` mutates captured variables, which become the fields of
`rag_state`.
-/

namespace hg

/-! ## The graph collaborator (`graph.hpp`) -/

/-- Modelled from the spec: the constant `invalid_index` of `graph.hpp` (the
"unassigned" / "no mapping" mark), the largest value of `std::size_t`. -/
def invalid_index : Nat := 18446744073709551615

/-- Modelled from the spec: the undirected graph `ugraph` of `graph.hpp`: vertices
`0 .. vertex_count - 1` and a list of edges, each with two endpoints and its
position in the list as stable integer identity. -/
structure ugraph where
  vertex_count : Nat
  edge_list : List (Nat × Nat)
deriving DecidableEq

/-- Modelled from the spec: `num_vertices(graph)`, the vertex count. -/
def num_vertices (g : ugraph) : Nat := g.vertex_count

/-- Modelled from the spec: `num_edges(graph)`, the edge count. -/
def num_edges (g : ugraph) : Nat := g.edge_list.length

/-- Modelled from the spec: `edge(ei, graph)`, the edge of index `ei`. -/
def edge (ei : Nat) (g : ugraph) : Nat × Nat := g.edge_list.getD ei (0, 0)

/-- Modelled from the spec: `source(e, graph)`. -/
def source (e : Nat × Nat) : Nat := e.1

/-- Modelled from the spec: `target(e, graph)`. -/
def target (e : Nat × Nat) : Nat := e.2

/-- Modelled from the spec: `other_vertex(e, v, graph)`, the "other endpoint"
of `e` given the known endpoint `v`. -/
def other_vertex (e : Nat × Nat) (v : Nat) : Nat :=
  if source e = v then target e else source e

/-- Modelled from the spec: `out_edge_index_iterator(v, graph)`, the indices of
the edges incident to `v`, in ascending order (the order of insertion, as in
the out-lists of `test_graph.cpp`). -/
def out_edge_index_iterator (v : Nat) (g : ugraph) : List Nat :=
  (List.range (num_edges g)).filter
    (fun ei => decide (source (edge ei g) = v) || decide (target (edge ei g) = v))

/-- Modelled from the spec: `vertex_iterator(graph)`, the vertices in
ascending id order. -/
def vertex_iterator (g : ugraph) : List Nat := List.range (num_vertices g)

/-- Modelled from the spec: `add_vertex(rag)`, one more vertex. -/
def add_vertex (g : ugraph) : ugraph :=
  { g with vertex_count := g.vertex_count + 1 }

/-- Modelled from the spec: `add_edge(u, v, rag)`, a new edge of index
`num_edges(rag)` with endpoints `u` and `v`. -/
def add_edge (u v : Nat) (g : ugraph) : ugraph :=
  { g with edge_list := g.edge_list ++ [(u, v)] }

/-! ## `make_region_adjacency_graph` (`algo/rag.hpp`) -/

/-- The result type `region_adjacency_graph`. -/
structure region_adjacency_graph where
  rag : ugraph
  vertex_map : List Nat
  edge_map : List Nat
deriving DecidableEq

/-- The variables `explore_component` captures by reference, and its local
stack `s` (top of the stack first), which every call starts afresh. -/
structure rag_state where
  rag : ugraph
  vertex_map : List Nat
  edge_map : List Nat
  num_regions : Nat
  num_edges : Nat
  canonical_edge : List ((Nat × Nat) × Nat)
  s : List Nat
deriving DecidableEq

/-- The body of the `for (auto ei: out_edge_index_iterator(v, graph))` loop of
`explore_component` (rag.hpp, lines 63-83). -/
def explore_edge (graph : ugraph) (vertex_labels : List Int) (label_region : Int)
    (v : Nat) (st : rag_state) (ei : Nat) : rag_state :=
  let e := edge ei graph
  let adjv := other_vertex e v
  if vertex_labels.getD adjv 0 = label_region then
    if st.vertex_map.getD adjv 0 = invalid_index then
      { st with vertex_map := st.vertex_map.set adjv st.num_regions, s := adjv :: st.s }
    else st
  else
    if st.vertex_map.getD adjv 0 ≠ invalid_index then
      let num_region_adjacent := st.vertex_map.getD adjv 0
      let new_edge := (num_region_adjacent, st.num_regions)
      match st.canonical_edge.lookup new_edge with
      | none =>
        { st with
          rag := add_edge num_region_adjacent st.num_regions st.rag
          edge_map := st.edge_map.set ei st.num_edges
          canonical_edge := (new_edge, st.num_edges) :: st.canonical_edge
          num_edges := st.num_edges + 1 }
      | some k => { st with edge_map := st.edge_map.set ei k }
    else st

/-- The `while (!s.empty())` loop of `explore_component` (rag.hpp, lines
58-85): at most `fuel` iterations. -/
def explore_loop (graph : ugraph) (vertex_labels : List Int) (label_region : Int) :
    Nat → rag_state → rag_state
  | 0, st => st
  | fuel + 1, st =>
    match st.s with
    | [] => st
    | v :: rest =>
      explore_loop graph vertex_labels label_region fuel
        ((out_edge_index_iterator v graph).foldl
          (explore_edge graph vertex_labels label_region v) { st with s := rest })

/-- The closure `explore_component` (rag.hpp, lines 48-87). The loop is given
`num_vertices(graph)` iterations, which it never exhausts
(`explore_component_stack_empty`). -/
def explore_component (graph : ugraph) (vertex_labels : List Int) (st : rag_state)
    (start_vertex : Nat) : rag_state :=
  let label_region := vertex_labels.getD start_vertex 0
  let st1 : rag_state :=
    { st with
      s := [start_vertex]
      vertex_map := st.vertex_map.set start_vertex st.num_regions
      rag := add_vertex st.rag }
  let st2 := explore_loop graph vertex_labels label_region (num_vertices graph) st1
  { st2 with num_regions := st2.num_regions + 1 }

/-- The body of the `for (auto v: vertex_iterator(graph))` loop (rag.hpp,
lines 90-95). -/
def visit_vertex (graph : ugraph) (vertex_labels : List Int) (st : rag_state)
    (v : Nat) : rag_state :=
  if st.vertex_map.getD v 0 ≠ invalid_index then st
  else explore_component graph vertex_labels st v

/-- The state before the vertex loop (rag.hpp, lines 38-46). -/
def initial_state (graph : ugraph) : rag_state :=
  { rag := ⟨0, []⟩
    vertex_map := List.replicate (num_vertices graph) invalid_index
    edge_map := List.replicate (num_edges graph) invalid_index
    num_regions := 0
    num_edges := 0
    canonical_edge := []
    s := [] }

/-- The state after the vertex loop has visited the vertices `vs`. -/
def run_vertices (graph : ugraph) (vertex_labels : List Int) (vs : List Nat) : rag_state :=
  vs.foldl (visit_vertex graph vertex_labels) (initial_state graph)

/-- The function `make_region_adjacency_graph` (rag.hpp, lines 27-98); the
failed `hg_assert` on the number of labels is the error result (the labels
are a one-dimensional list, so the assertion on their dimension holds). -/
def make_region_adjacency_graph (graph : ugraph) (vertex_labels : List Int) :
    Except String region_adjacency_graph :=
  if vertex_labels.length ≠ num_vertices graph then
    Except.error "Vertex labels size does not match graph number of vertices."
  else
    let st := run_vertices graph vertex_labels (vertex_iterator graph)
    Except.ok { rag := st.rag, vertex_map := st.vertex_map, edge_map := st.edge_map }


/-! ## Specification vocabulary for the contraction -/

/-- The input graph is well formed: every edge joins two vertices of the
graph, and the vertex and edge counts are representable below the
`invalid_index` mark. -/
def valid_graph (g : ugraph) : Prop :=
  (∀ e ∈ g.edge_list, e.1 < num_vertices g ∧ e.2 < num_vertices g) ∧
    num_vertices g ≤ invalid_index ∧ num_edges g ≤ invalid_index

instance (g : ugraph) : Decidable (valid_graph g) := by
  unfold valid_graph; infer_instance

/-- Some edge of `g` joins `u` and `v` (in either orientation). -/
def adjacent (g : ugraph) (u v : Nat) : Prop :=
  ∃ ei, ei < num_edges g ∧ (edge ei g = (u, v) ∨ edge ei g = (v, u))

/-- There is a path from `u` to `v` in `g` all of whose vertices carry the
same label: the vertices `u :: p` are consecutively adjacent, the last one is
`v`, and each has the label of `u`. -/
def same_label_path (g : ugraph) (vertex_labels : List Int) (u v : Nat) : Prop :=
  ∃ p : List Nat, List.Chain (adjacent g) u p ∧ (u :: p).getLast? = some v ∧
    ∀ x ∈ u :: p, vertex_labels.getD x 0 = vertex_labels.getD u 0

/-- One step of a same-label path: adjacent vertices with equal labels. -/
def same_label_step (g : ugraph) (vertex_labels : List Int) (u v : Nat) : Prop :=
  adjacent g u v ∧ vertex_labels.getD u 0 = vertex_labels.getD v 0

/-! ## Invariants of the contraction -/

/-- What holds while `explore_component` explores the region of label `L`
started at `s0`; `pend` lists the vertices of the region whose out-edges
are not all handled yet (the stack, and the vertex being handled). -/
structure Core (g : ugraph) (labels : List Int) (L : Int) (s0 : Nat) (pend : List Nat)
    (st : rag_state) : Prop where
  vm_len : st.vertex_map.length = num_vertices g
  em_len : st.edge_map.length = num_edges g
  k_lt : st.num_regions < num_vertices g
  vm_le : ∀ v, v < num_vertices g → st.vertex_map.getD v 0 ≠ invalid_index →
    st.vertex_map.getD v 0 ≤ st.num_regions
  cur_label : ∀ v, v < num_vertices g → st.vertex_map.getD v 0 = st.num_regions →
    labels.getD v 0 = L
  cur_path : ∀ v, v < num_vertices g → st.vertex_map.getD v 0 = st.num_regions →
    Relation.ReflTransGen (same_label_step g labels) s0 v
  old_sound : ∀ u v, u < num_vertices g → v < num_vertices g →
    st.vertex_map.getD u 0 < st.num_regions →
    st.vertex_map.getD u 0 = st.vertex_map.getD v 0 →
    Relation.ReflTransGen (same_label_step g labels) u v
  old_closed : ∀ u w, st.vertex_map.getD u 0 < st.num_regions →
    same_label_step g labels u w → st.vertex_map.getD w 0 = st.vertex_map.getD u 0
  cur_closed : ∀ u w, st.vertex_map.getD u 0 = st.num_regions → u ∉ pend →
    same_label_step g labels u w → st.vertex_map.getD w 0 = st.num_regions
  stack_ok : ∀ v, v ∈ st.s → v < num_vertices g ∧ st.vertex_map.getD v 0 = st.num_regions
  old_onto : ∀ r, r < st.num_regions →
    ∃ v, v < num_vertices g ∧ st.vertex_map.getD v 0 = r
  start_ok : s0 < num_vertices g ∧ st.vertex_map.getD s0 0 = st.num_regions
  rag_nv : st.rag.vertex_count = st.num_regions + 1
  rag_ne : st.rag.edge_list.length = st.num_edges
  canon : ∀ (a b id : Nat), st.canonical_edge.lookup (a, b) = some id ↔
    st.rag.edge_list[id]? = some (a, b)
  rag_lt : ∀ (id a b : Nat), st.rag.edge_list[id]? = some (a, b) → a < b ∧ b ≤ st.num_regions
  em_sound : ∀ e, e < num_edges g → st.edge_map.getD e 0 ≠ invalid_index →
    st.vertex_map.getD (edge e g).1 0 ≠ invalid_index ∧
    st.vertex_map.getD (edge e g).2 0 ≠ invalid_index ∧
    st.vertex_map.getD (edge e g).1 0 ≠ st.vertex_map.getD (edge e g).2 0 ∧
    st.rag.edge_list[st.edge_map.getD e 0]? =
      some (min (st.vertex_map.getD (edge e g).1 0) (st.vertex_map.getD (edge e g).2 0),
            max (st.vertex_map.getD (edge e g).1 0) (st.vertex_map.getD (edge e g).2 0))
  em_complete : ∀ e, e < num_edges g →
    st.vertex_map.getD (edge e g).1 0 ≠ invalid_index →
    st.vertex_map.getD (edge e g).2 0 ≠ invalid_index →
    (edge e g).1 ∉ pend → (edge e g).2 ∉ pend →
    labels.getD (edge e g).1 0 ≠ labels.getD (edge e g).2 0 →
    st.edge_map.getD e 0 ≠ invalid_index
  em_onto : ∀ id, id < st.num_edges → ∃ e, e < num_edges g ∧ st.edge_map.getD e 0 = id

/-- The number of vertices not yet assigned to a region. -/
def unassigned (st : rag_state) : Nat := st.vertex_map.count invalid_index

/-- What holds at the head of the `while` loop of `explore_component`, with
at most `budget` iterations still needed. -/
structure Inner (g : ugraph) (labels : List Int) (L : Int) (s0 : Nat) (budget : Nat)
    (st : rag_state) : Prop where
  core : Core g labels L s0 st.s st
  fuel_ok : unassigned st + st.s.length ≤ budget

/-- What holds inside the `for` loop over the out-edges of the popped vertex
`v`, after the edges `done`. -/
structure Mid (g : ugraph) (labels : List Int) (L : Int) (s0 : Nat) (budget : Nat)
    (v : Nat) (done : List Nat) (st : rag_state) : Prop where
  core : Core g labels L s0 (v :: st.s) st
  fuel_ok : unassigned st + st.s.length ≤ budget
  v_ok : v < num_vertices g ∧ st.vertex_map.getD v 0 = st.num_regions
  done_same : ∀ ei, ei ∈ done →
    labels.getD (other_vertex (edge ei g) v) 0 = L →
    st.vertex_map.getD (other_vertex (edge ei g) v) 0 = st.num_regions
  done_cross : ∀ ei, ei ∈ done →
    labels.getD (other_vertex (edge ei g) v) 0 ≠ L →
    st.vertex_map.getD (other_vertex (edge ei g) v) 0 ≠ invalid_index →
    st.edge_map.getD ei 0 ≠ invalid_index

/-- What holds at the head of the vertex loop of `make_region_adjacency_graph`
when the vertices below `i` have been visited. -/
structure Outer (g : ugraph) (labels : List Int) (i : Nat) (st : rag_state) : Prop where
  vm_len : st.vertex_map.length = num_vertices g
  em_len : st.edge_map.length = num_edges g
  k_le : st.num_regions ≤ i
  stack_nil : st.s = []
  vm_lt : ∀ v, v < num_vertices g → st.vertex_map.getD v 0 ≠ invalid_index →
    st.vertex_map.getD v 0 < st.num_regions
  visited : ∀ v, v < i → v < num_vertices g → st.vertex_map.getD v 0 ≠ invalid_index
  sound : ∀ u v, u < num_vertices g → v < num_vertices g →
    st.vertex_map.getD u 0 ≠ invalid_index →
    st.vertex_map.getD u 0 = st.vertex_map.getD v 0 →
    Relation.ReflTransGen (same_label_step g labels) u v
  closed : ∀ u w, st.vertex_map.getD u 0 ≠ invalid_index →
    same_label_step g labels u w → st.vertex_map.getD w 0 = st.vertex_map.getD u 0
  onto : ∀ r, r < st.num_regions →
    ∃ v, v < num_vertices g ∧ st.vertex_map.getD v 0 = r
  rag_nv : st.rag.vertex_count = st.num_regions
  rag_ne : st.rag.edge_list.length = st.num_edges
  canon : ∀ (a b id : Nat), st.canonical_edge.lookup (a, b) = some id ↔
    st.rag.edge_list[id]? = some (a, b)
  rag_lt : ∀ (id a b : Nat), st.rag.edge_list[id]? = some (a, b) → a < b ∧ b < st.num_regions
  em_sound : ∀ e, e < num_edges g → st.edge_map.getD e 0 ≠ invalid_index →
    st.vertex_map.getD (edge e g).1 0 ≠ invalid_index ∧
    st.vertex_map.getD (edge e g).2 0 ≠ invalid_index ∧
    st.vertex_map.getD (edge e g).1 0 ≠ st.vertex_map.getD (edge e g).2 0 ∧
    st.rag.edge_list[st.edge_map.getD e 0]? =
      some (min (st.vertex_map.getD (edge e g).1 0) (st.vertex_map.getD (edge e g).2 0),
            max (st.vertex_map.getD (edge e g).1 0) (st.vertex_map.getD (edge e g).2 0))
  em_complete : ∀ e, e < num_edges g →
    st.vertex_map.getD (edge e g).1 0 ≠ invalid_index →
    st.vertex_map.getD (edge e g).2 0 ≠ invalid_index →
    labels.getD (edge e g).1 0 ≠ labels.getD (edge e g).2 0 →
    st.edge_map.getD e 0 ≠ invalid_index
  em_onto : ∀ id, id < st.num_edges → ∃ e, e < num_edges g ∧ st.edge_map.getD e 0 = id

/-- The same-label component of the vertex `u`: the vertices a same-label
path joins to `u`. -/
def component (g : ugraph) (vertex_labels : List Int) (u : Nat) : Set Nat :=
  {v | v < num_vertices g ∧ same_label_path g vertex_labels u v}

/-- The maximal connected same-label components of `g`. -/
def components (g : ugraph) (vertex_labels : List Int) : Set (Set Nat) :=
  {c | ∃ u, u < num_vertices g ∧ c = component g vertex_labels u}

/-- Modelled from the spec: `get_4_adjacency_graph` of `image/graph_image.hpp`,
the 4-connected grid graph of an image of `h` rows and `w` columns: the
pixels in raster order, each joined to its right and to its lower neighbour
(the out-lists of `test_graph_image.cpp`). -/
def get_4_adjacency_graph (h w : Nat) : ugraph :=
  { vertex_count := h * w
    edge_list := (List.range (h * w)).foldr
      (fun v acc =>
        (if v % w + 1 < w then [(v, v + 1)] else []) ++
          ((if v / w + 1 < h then [(v, v + w)] else []) ++ acc)) [] }

/-- The graph of `test_graph.cpp`: the triangle `0 - 1 - 2 - 0` and the
isolated vertex `3`. -/
def triangle_graph : ugraph := ⟨4, [(0, 1), (1, 2), (0, 2)]⟩

/-- A graph with a self-loop and two parallel edges. -/
def loop_graph : ugraph := ⟨4, [(0, 1), (1, 2), (0, 2), (2, 3), (3, 3), (1, 2)]⟩

/-- The labels of the 4x4 grid in which each of the two label values induces
two disconnected 2x2 blocks. -/
def block_labels : List Int := [1, 1, 2, 2, 1, 1, 2, 2, 2, 2, 1, 1, 2, 2, 1, 1]

/-! ## Accumulators (`accumulator/accumulator.hpp`)

An accumulator points into a storage range through the iterators
`m_storage_begin`, `m_storage_end`; here each method receives the content of
the bound range as a list and returns its new content, and a value passed by
its iterator `value_begin` is the list of the cells from that iterator on.
The template parameter `vectorial` is the field `is_vectorial`. A result
`none` marks undefined behaviour that the code does not check: reading or
writing a cell past the end of a range, dividing by a zero counter. -/

/-- The call `std::min(a, b)` of the standard library. -/
def std_min {α : Type} [LT α] [DecidableRel (fun (a b : α) => a < b)] (a b : α) : α :=
  if b < a then b else a

/-- The call `std::max(a, b)` of the standard library. -/
def std_max {α : Type} [LT α] [DecidableRel (fun (a b : α) => a < b)] (a b : α) : α :=
  if a < b then b else a

/-- The division `x /= m_counter` of a cell of the storage `value_type` by the
`std::size_t` counter of `acc_mean_impl`: `div x n` is what a counter
`n ≠ 0` leaves in the cell, and `div_zero x` what a zero counter leaves. The
code never compares the counter with zero, so `div_zero` is what the language
gives: nothing defined (`none`) where a division by zero is undefined
behaviour, as with integer cells, and a value where it is defined, as with
floating cells. -/
class counter_div (α : Type) where
  div : α → Nat → α
  div_zero : α → Option α

/-- In exact arithmetic the counter is converted to the `value_type` and the
cell is divided by it; a division by zero has no value. -/
instance (α : Type) [DivisionRing α] : counter_div α :=
  ⟨fun x n => x / (n : α), fun _ => none⟩

/-- Cells that hold natural numbers of any size: the integer division. They
stand for unsigned integer cells of `w` bits only as long as every sum stays
below `2^w`; cells that wrap are `uint32`. -/
instance : counter_div Nat := ⟨fun x n => x / n, fun _ => none⟩

namespace accumulator_detail

/-- The write `*m_storage_begin = x`. -/
def store_begin {α : Type} (storage : List α) (x : α) : Option (List α) :=
  match storage with
  | [] => none
  | _ :: rest => some (x :: rest)

/-- The loop `for (; s != m_storage_end; s++, value_begin++) *s = f(*value_begin, *s)`
over the storage range, reading the value range in step (accumulator.hpp,
lines 70-73, 182-185, 297-300, 349-352). -/
def storage_loop {α : Type} (f : α → α → α) : List α → List α → Option (List α)
  | _, [] => some []
  | [], _ :: _ => none
  | v :: value, s :: storage => (storage_loop f value storage).map (fun r => f v s :: r)

/-- The struct `acc_marginal_impl<S, vectorial>` (accumulator.hpp, lines
39-145). -/
structure acc_marginal_impl (α : Type) where
  is_vectorial : Bool
  m_init_value : α
  m_reducer : α → α → α

/-- The method `acc_marginal_impl::initialize` (lines 61-65 and 115-119). -/
def acc_marginal_impl.initialize {α : Type} (acc : acc_marginal_impl α)
    (storage : List α) : Option (List α) :=
  if acc.is_vectorial then some (storage.map (fun _ => acc.m_init_value))
  else store_begin storage acc.m_init_value

/-- The method `acc_marginal_impl::accumulate` (lines 67-74 and 121-125). -/
def acc_marginal_impl.accumulate {α : Type} (acc : acc_marginal_impl α)
    (value_begin : List α) (storage : List α) : Option (List α) :=
  if acc.is_vectorial then storage_loop acc.m_reducer value_begin storage
  else
    match value_begin, storage with
    | v :: _, s :: rest => some (acc.m_reducer v s :: rest)
    | _, _ => none

/-- The method `acc_marginal_impl::finalize` (lines 76-77 and 127-128). -/
def acc_marginal_impl.finalize {α : Type} (_acc : acc_marginal_impl α)
    (storage : List α) : Option (List α) :=
  some storage

/-- The calls `accumulate(v1)`, ..., `accumulate(vn)` in sequence. -/
def acc_marginal_impl.accumulate_all {α : Type} (acc : acc_marginal_impl α) :
    List (List α) → List α → Option (List α)
  | [], storage => some storage
  | v :: values, storage =>
    (acc.accumulate v storage).bind (acc_marginal_impl.accumulate_all acc values)

/-- One cycle `initialize`, `accumulate(v1)`, ..., `accumulate(vn)`,
`finalize` on the bound storage. -/
def acc_marginal_impl.cycle {α : Type} (acc : acc_marginal_impl α)
    (values : List (List α)) (storage : List α) : Option (List α) :=
  Option.bind (Option.bind ( acc_marginal_impl.initialize acc storage) (acc.accumulate_all values))
    acc.finalize

/-- The struct `acc_mean_impl<S, vectorial>` (accumulator.hpp, lines
153-224). -/
structure acc_mean_impl where
  is_vectorial : Bool
  m_counter : Nat
deriving DecidableEq

/-- The constructor of `acc_mean_impl` (lines 160-164). -/
def acc_mean_impl.mk_bound (vectorial : Bool) : acc_mean_impl :=
  { is_vectorial := vectorial, m_counter := 0 }

/-- The method `acc_mean_impl::initialize` (lines 166-176). -/
def acc_mean_impl.initialize {α : Type} [Zero α] (acc : acc_mean_impl)
    (storage : List α) : Option (acc_mean_impl × List α) :=
  if acc.is_vectorial then some (acc, storage.map (fun _ => (0 : α)))
  else (store_begin storage (0 : α)).map (fun r => (acc, r))

/-- The method `acc_mean_impl::accumulate` (lines 178-193). -/
def acc_mean_impl.accumulate {α : Type} [Add α] (acc : acc_mean_impl)
    (value_begin : List α) (storage : List α) : Option (acc_mean_impl × List α) :=
  let acc1 := { acc with m_counter := acc.m_counter + 1 }
  if acc.is_vectorial then
    (storage_loop (fun v s => s + v) value_begin storage).map (fun r => (acc1, r))
  else
    match value_begin, storage with
    | v :: _, s :: rest => some (acc1, (s + v) :: rest)
    | _, _ => none

/-- The statement `*s /= m_counter` on one cell (lines 199 and 206); with a
zero counter it is a division by zero, which nothing checks. -/
def div_cell {α : Type} [counter_div α] (s : α) (m_counter : Nat) : Option α :=
  if m_counter = 0 then counter_div.div_zero s else some (counter_div.div s m_counter)

/-- The loop `for (auto s = m_storage_begin; s != m_storage_end; s++) *s /= m_counter`
(lines 198-200). -/
def finalize_loop {α : Type} [counter_div α] (m_counter : Nat) : List α → Option (List α)
  | [] => some []
  | s :: storage =>
    (div_cell s m_counter).bind
      (fun q => (finalize_loop m_counter storage).map (fun r => q :: r))

/-- The method `acc_mean_impl::finalize` (lines 195-207). -/
def acc_mean_impl.finalize {α : Type} [counter_div α] (acc : acc_mean_impl)
    (storage : List α) : Option (List α) :=
  if acc.is_vectorial then finalize_loop acc.m_counter storage
  else
    match storage with
    | [] => none
    | s :: rest => (div_cell s acc.m_counter).map (fun q => q :: rest)

/-- The calls `accumulate(v1)`, ..., `accumulate(vn)` in sequence. -/
def acc_mean_impl.accumulate_all {α : Type} [Add α] :
    List (List α) → acc_mean_impl × List α → Option (acc_mean_impl × List α)
  | [], st => some st
  | v :: values, st =>
    (st.1.accumulate v st.2).bind (acc_mean_impl.accumulate_all values)

/-- One cycle `initialize`, `accumulate(v1)`, ..., `accumulate(vn)`,
`finalize` on the bound storage. -/
def acc_mean_impl.cycle {α : Type} [Zero α] [Add α] [counter_div α] (acc : acc_mean_impl)
    (values : List (List α)) (storage : List α) : Option (List α) :=
  Option.bind
    (Option.bind ( acc_mean_impl.initialize acc storage) (acc_mean_impl.accumulate_all values))
    (fun st => st.1.finalize st.2)

end accumulator_detail

/-- The method `accumulator_sum::make_accumulator` (lines 385-394). -/
def accumulator_sum.make_accumulator {α : Type} [Zero α] [Add α] (vectorial : Bool) :
    accumulator_detail.acc_marginal_impl α :=
  { is_vectorial := vectorial, m_init_value := 0, m_reducer := fun v1 v2 => v1 + v2 }

/-- The method `accumulator_min::make_accumulator` (lines 405-414), with
`std::numeric_limits<value_type>::max()` the top of the type. -/
def accumulator_min.make_accumulator {α : Type} [LT α]
    [DecidableRel (fun (a b : α) => a < b)] [Top α] (vectorial : Bool) :
    accumulator_detail.acc_marginal_impl α :=
  { is_vectorial := vectorial, m_init_value := ⊤, m_reducer := fun v1 v2 => std_min v1 v2 }

/-- The method `accumulator_max::make_accumulator` (lines 425-434), with
`std::numeric_limits<value_type>::lowest()` the bottom of the type. -/
def accumulator_max.make_accumulator {α : Type} [LT α]
    [DecidableRel (fun (a b : α) => a < b)] [Bot α] (vectorial : Bool) :
    accumulator_detail.acc_marginal_impl α :=
  { is_vectorial := vectorial, m_init_value := ⊥, m_reducer := fun v1 v2 => std_max v1 v2 }

/-- The method `accumulator_prod::make_accumulator` (lines 445-454). -/
def accumulator_prod.make_accumulator {α : Type} [One α] [Mul α] (vectorial : Bool) :
    accumulator_detail.acc_marginal_impl α :=
  { is_vectorial := vectorial, m_init_value := 1, m_reducer := fun v1 v2 => v1 * v2 }

/-- The method `accumulator_mean::make_accumulator` (lines 465-470). -/
def accumulator_mean.make_accumulator (vectorial : Bool) :
    accumulator_detail.acc_mean_impl :=
  accumulator_detail.acc_mean_impl.mk_bound vectorial

/-- A sequence of scalar values, each passed to `accumulate` by an iterator
to its single cell. -/
def scalar_values {α : Type} (vs : List α) : List (List α) := vs.map (fun v => [v])

namespace accumulator_detail

/-- The accumulator and the storage content after one cycle `initialize`,
`accumulate(v1)`, ..., `accumulate(vn)`, `finalize` of a mean accumulator
(`finalize` is `const`: the accumulator is as the last `accumulate` left
it). -/
def acc_mean_impl.cycle_state {α : Type} [Zero α] [Add α] [counter_div α]
    (acc : acc_mean_impl) (values : List (List α)) (storage : List α) :
    Option (acc_mean_impl × List α) :=
  Option.bind
    (Option.bind ( acc_mean_impl.initialize acc storage) (acc_mean_impl.accumulate_all values))
    (fun st => (st.1.finalize st.2).map (fun r => (st.1, r)))

/-- The struct `acc_counter_impl<S, vectorial>` (accumulator.hpp, lines
231-270). -/
structure acc_counter_impl where
  is_vectorial : Bool
deriving DecidableEq

/-- The method `acc_counter_impl::initialize` (lines 242-245). -/
def acc_counter_impl.initialize {α : Type} [Zero α] (_acc : acc_counter_impl)
    (storage : List α) : Option (List α) :=
  store_begin storage (0 : α)

/-- The method `acc_counter_impl::accumulate` (lines 247-250): the value is
taken by reference and never read. -/
def acc_counter_impl.accumulate {α β : Type} [One α] [Add α] (_acc : acc_counter_impl)
    (_value : β) (storage : List α) : Option (List α) :=
  match storage with
  | [] => none
  | s :: rest => some ((s + 1) :: rest)

/-- The method `acc_counter_impl::finalize` (lines 252-253). -/
def acc_counter_impl.finalize {α : Type} (_acc : acc_counter_impl)
    (storage : List α) : Option (List α) :=
  some storage

/-- The calls `accumulate(v1)`, ..., `accumulate(vn)` in sequence. -/
def acc_counter_impl.accumulate_all {α β : Type} [One α] [Add α] (acc : acc_counter_impl) :
    List β → List α → Option (List α)
  | [], storage => some storage
  | v :: values, storage =>
    (acc.accumulate v storage).bind (acc_counter_impl.accumulate_all acc values)

/-- One cycle `initialize`, `accumulate(v1)`, ..., `accumulate(vn)`,
`finalize` on the bound storage. -/
def acc_counter_impl.cycle {α β : Type} [Zero α] [One α] [Add α] (acc : acc_counter_impl)
    (values : List β) (storage : List α) : Option (List α) :=
  Option.bind (Option.bind ( acc_counter_impl.initialize acc storage) (acc.accumulate_all values))
    acc.finalize

/-- The struct `acc_first_impl<S, vectorial>` (accumulator.hpp, lines
277-323). -/
structure acc_first_impl where
  is_vectorial : Bool
  m_first : Bool
deriving DecidableEq

/-- The method `acc_first_impl::initialize` (lines 288-291). -/
def acc_first_impl.initialize {α : Type} (acc : acc_first_impl) (storage : List α) :
    Option (acc_first_impl × List α) :=
  some ({ acc with m_first := true }, storage)

/-- The method `acc_first_impl::accumulate` (lines 293-302), the same loop in
both modes. -/
def acc_first_impl.accumulate {α : Type} (acc : acc_first_impl) (value_begin : List α)
    (storage : List α) : Option (acc_first_impl × List α) :=
  if acc.m_first then
    (storage_loop (fun v _ => v) value_begin storage).map
      (fun r => ({ acc with m_first := false }, r))
  else some (acc, storage)

/-- The method `acc_first_impl::finalize` (lines 304-305). -/
def acc_first_impl.finalize {α : Type} (_acc : acc_first_impl) (storage : List α) :
    Option (List α) :=
  some storage

/-- The calls `accumulate(v1)`, ..., `accumulate(vn)` in sequence. -/
def acc_first_impl.accumulate_all {α : Type} :
    List (List α) → acc_first_impl × List α → Option (acc_first_impl × List α)
  | [], st => some st
  | v :: values, st =>
    (st.1.accumulate v st.2).bind (acc_first_impl.accumulate_all values)

/-- The accumulator and the storage content after one cycle `initialize`,
`accumulate(v1)`, ..., `accumulate(vn)`, `finalize`. -/
def acc_first_impl.cycle_state {α : Type} (acc : acc_first_impl) (values : List (List α))
    (storage : List α) : Option (acc_first_impl × List α) :=
  Option.bind
    (Option.bind ( acc_first_impl.initialize acc storage) (acc_first_impl.accumulate_all values))
    (fun st => (st.1.finalize st.2).map (fun r => (st.1, r)))

/-- The storage content after one cycle. -/
def acc_first_impl.cycle {α : Type} (acc : acc_first_impl) (values : List (List α))
    (storage : List α) : Option (List α) :=
  (acc.cycle_state values storage).map (fun st => st.2)

/-- The struct `acc_last_impl<S, vectorial>` (accumulator.hpp, lines
330-379). -/
structure acc_last_impl where
  is_vectorial : Bool
deriving DecidableEq

/-- The method `acc_last_impl::initialize` (lines 341-344), which does
nothing. -/
def acc_last_impl.initialize {α : Type} (_acc : acc_last_impl) (storage : List α) :
    Option (List α) :=
  some storage

/-- The method `acc_last_impl::accumulate` (lines 346-359). -/
def acc_last_impl.accumulate {α : Type} (acc : acc_last_impl) (value_begin : List α)
    (storage : List α) : Option (List α) :=
  if acc.is_vectorial then storage_loop (fun v _ => v) value_begin storage
  else
    match value_begin, storage with
    | v :: _, _ :: rest => some (v :: rest)
    | _, _ => none

/-- The method `acc_last_impl::finalize` (lines 361-362). -/
def acc_last_impl.finalize {α : Type} (_acc : acc_last_impl) (storage : List α) :
    Option (List α) :=
  some storage

/-- The calls `accumulate(v1)`, ..., `accumulate(vn)` in sequence. -/
def acc_last_impl.accumulate_all {α : Type} (acc : acc_last_impl) :
    List (List α) → List α → Option (List α)
  | [], storage => some storage
  | v :: values, storage =>
    (acc.accumulate v storage).bind (acc_last_impl.accumulate_all acc values)

/-- One cycle `initialize`, `accumulate(v1)`, ..., `accumulate(vn)`,
`finalize` on the bound storage. -/
def acc_last_impl.cycle {α : Type} (acc : acc_last_impl) (values : List (List α))
    (storage : List α) : Option (List α) :=
  Option.bind (Option.bind ( acc_last_impl.initialize acc storage) (acc.accumulate_all values))
    acc.finalize

end accumulator_detail

/-- The method `accumulator_counter::make_accumulator` (lines 481-486). -/
def accumulator_counter.make_accumulator (vectorial : Bool) :
    accumulator_detail.acc_counter_impl :=
  { is_vectorial := vectorial }

/-- The method `accumulator_first::make_accumulator` (lines 497-504); the
constructor leaves the member `m_first` without a value, here the argument
`m_first`. -/
def accumulator_first.make_accumulator (vectorial : Bool) (m_first : Bool) :
    accumulator_detail.acc_first_impl :=
  { is_vectorial := vectorial, m_first := m_first }

/-- The method `accumulator_last::make_accumulator` (lines 515-522). -/
def accumulator_last.make_accumulator (vectorial : Bool) :
    accumulator_detail.acc_last_impl :=
  { is_vectorial := vectorial }

/-- The method `accumulator_sum::get_output_shape` (lines 396-400). -/
def accumulator_sum.get_output_shape {shape_t : Type} (input_shape : shape_t) : shape_t :=
  input_shape

/-- The method `accumulator_min::get_output_shape` (lines 416-420). -/
def accumulator_min.get_output_shape {shape_t : Type} (input_shape : shape_t) : shape_t :=
  input_shape

/-- The method `accumulator_max::get_output_shape` (lines 436-440). -/
def accumulator_max.get_output_shape {shape_t : Type} (input_shape : shape_t) : shape_t :=
  input_shape

/-- The method `accumulator_prod::get_output_shape` (lines 456-460). -/
def accumulator_prod.get_output_shape {shape_t : Type} (input_shape : shape_t) : shape_t :=
  input_shape

/-- The method `accumulator_mean::get_output_shape` (lines 472-476). -/
def accumulator_mean.get_output_shape {shape_t : Type} (input_shape : shape_t) : shape_t :=
  input_shape

/-- The method `accumulator_counter::get_output_shape` (lines 488-492): an
empty `std::vector<std::size_t>`. -/
def accumulator_counter.get_output_shape {shape_t : Type} (_input_shape : shape_t) :
    List Nat :=
  []

/-- The method `accumulator_first::get_output_shape` (lines 506-510). -/
def accumulator_first.get_output_shape {shape_t : Type} (input_shape : shape_t) : shape_t :=
  input_shape

/-- The method `accumulator_last::get_output_shape` (lines 524-528). -/
def accumulator_last.get_output_shape {shape_t : Type} (input_shape : shape_t) : shape_t :=
  input_shape

/-- The cell of position `i` of a range, as a range of one cell. -/
def cell {α : Type} (i : Nat) (l : List α) : List α := (l.drop i).take 1

/-! ## Accumulators bound to a storage in memory -/

namespace accumulator_detail

end accumulator_detail

/-- Modelled from the spec: an `xt::xexpression` of integral values, with the
shape of the array and its cells. -/
structure xexpression where
  shape : List Nat
  data : List Int
deriving DecidableEq

/-- Modelled from the spec: the call `dimension()`, the number of axes. -/
def xexpression.dimension (x : xexpression) : Nat := x.shape.length

/-- Modelled from the spec: the call `size()`, the number of cells. -/
def xexpression.size (x : xexpression) : Nat := x.data.length

/-- The function `make_region_adjacency_graph` (rag.hpp, lines 27-98) on an
expression of any dimension: the assertion on the dimension (line 32), and
then the function on the cells, which starts with the assertion on their
number (lines 33-34). -/
def make_region_adjacency_graph_xexpression (graph : ugraph) (xvertex_labels : xexpression) :
    Except String region_adjacency_graph :=
  if xvertex_labels.dimension ≠ 1 then
    Except.error "Vertex labels must be scalar numbers."
  else make_region_adjacency_graph graph xvertex_labels.data

/-! ## The work stack of `explore_component`, observed -/

/-- The variables of the contraction together with a record of the stack
operations made so far: the vertices given to `s.push`, and the vertices
taken by `s.top(); s.pop()`, each in the order of the calls. -/
structure traced_state where
  st : rag_state
  pushed : List Nat
  popped : List Nat
deriving DecidableEq

/-- The body of the edge loop (`explore_edge`, rag.hpp lines 63-83) with the
record of its call `s.push(adjv)` (line 68). -/
def explore_edge_traced (graph : ugraph) (vertex_labels : List Int) (label_region : Int)
    (v : Nat) (t : traced_state) (ei : Nat) : traced_state :=
  let e := edge ei graph
  let adjv := other_vertex e v
  { st := explore_edge graph vertex_labels label_region v t.st ei
    pushed :=
      if vertex_labels.getD adjv 0 = label_region then
        if t.st.vertex_map.getD adjv 0 = invalid_index then t.pushed ++ [adjv]
        else t.pushed
      else t.pushed
    popped := t.popped }

/-- The `while (!s.empty())` loop (`explore_loop`, rag.hpp lines 58-85) with
the record of its `s.top(); s.pop()` (lines 59-60). -/
def explore_loop_traced (graph : ugraph) (vertex_labels : List Int) (label_region : Int) :
    Nat → traced_state → traced_state
  | 0, t => t
  | fuel + 1, t =>
    match t.st.s with
    | [] => t
    | v :: rest =>
      explore_loop_traced graph vertex_labels label_region fuel
        ((out_edge_index_iterator v graph).foldl
          (explore_edge_traced graph vertex_labels label_region v)
          { st := { t.st with s := rest }, pushed := t.pushed, popped := t.popped ++ [v] })

/-- The closure `explore_component` (rag.hpp, lines 48-87) with the record of
its call `s.push(start_vertex)` (line 54). -/
def explore_component_traced (graph : ugraph) (vertex_labels : List Int) (t : traced_state)
    (start_vertex : Nat) : traced_state :=
  let label_region := vertex_labels.getD start_vertex 0
  let t1 : traced_state :=
    { st :=
        { t.st with
          s := [start_vertex]
          vertex_map := t.st.vertex_map.set start_vertex t.st.num_regions
          rag := add_vertex t.st.rag }
      pushed := t.pushed ++ [start_vertex]
      popped := t.popped }
  let t2 := explore_loop_traced graph vertex_labels label_region (num_vertices graph) t1
  { t2 with st := { t2.st with num_regions := t2.st.num_regions + 1 } }

/-- The body of the vertex loop (`visit_vertex`, rag.hpp lines 90-95) on a
traced state. -/
def visit_vertex_traced (graph : ugraph) (vertex_labels : List Int) (t : traced_state)
    (v : Nat) : traced_state :=
  if t.st.vertex_map.getD v 0 ≠ invalid_index then t
  else explore_component_traced graph vertex_labels t v

/-- The traced state after the vertex loop has visited the vertices `vs`,
from the initial state and an empty record. -/
def run_vertices_traced (graph : ugraph) (vertex_labels : List Int) (vs : List Nat) :
    traced_state :=
  vs.foldl (visit_vertex_traced graph vertex_labels)
    { st := initial_state graph, pushed := [], popped := [] }

/-- The record of a traced state is coherent: no vertex was pushed twice, the
pushed vertices are the assigned ones, and the pushed vertices are the popped
ones and those still on the stack. -/
structure stack_log (t : traced_state) : Prop where
  nodup : t.pushed.Nodup
  mem_iff : ∀ x, x ∈ t.pushed ↔
    x < t.st.vertex_map.length ∧ t.st.vertex_map.getD x 0 ≠ invalid_index
  perm : t.pushed.Perm (t.popped ++ t.st.s)

/-! ## Signed 32-bit storage for the mean accumulator -/

/-- A cell of `value_type` `int` (32 bits, two's complement): the integer
`val`, kept in the range `-2^31 .. 2^31 - 1`. -/
structure int32 where
  val : Int
deriving DecidableEq

/-- The conversion of an integer to `int`: the value modulo `2^32` in the
range `-2^31 .. 2^31 - 1`. -/
def int32.wrap (z : Int) : int32 := ⟨(z + 2147483648) % 4294967296 - 2147483648⟩

instance : Zero int32 := ⟨⟨0⟩⟩

/-- The statement `*s += *value_begin` on `int` cells (a sum out of range is
reduced modulo `2^32`). -/
instance : Add int32 := ⟨fun a b => int32.wrap (a.val + b.val)⟩

/-- The statement `*s /= m_counter` with `*s` of type `int` and `m_counter`
of type `std::size_t` (accumulator.hpp, lines 199, 206, 221): by the usual
arithmetic conversions the cell is converted to the unsigned 64-bit type of
the counter (its value modulo `2^64`), the division is the unsigned one, and
the quotient is converted back to `int`. -/
instance : counter_div int32 :=
  ⟨fun x n =>
      int32.wrap ((x.val % 18446744073709551616) / ((n % 18446744073709551616 : Nat) : Int)),
    fun _ => none⟩

/-! ## Unsigned 32-bit storage for the mean accumulator -/

/-- A cell of `value_type` `unsigned int` (32 bits): the natural number
`val`, kept below `2^32`. -/
structure uint32 where
  val : Nat
deriving DecidableEq

/-- The conversion of a natural number to `unsigned int`: its value modulo
`2^32`. -/
def uint32.wrap (n : Nat) : uint32 := ⟨n % 4294967296⟩

instance : Zero uint32 := ⟨⟨0⟩⟩

/-- The statement `*s += *value_begin` on `unsigned int` cells: the sum modulo
`2^32`. -/
instance : Add uint32 := ⟨fun a b => uint32.wrap (a.val + b.val)⟩

/-- The statement `*s /= m_counter` with `*s` of type `unsigned int` and
`m_counter` of type `std::size_t`: the cell is converted to the unsigned
64-bit type of the counter, which keeps its value, the division is the
integer division, and the quotient is converted back to `unsigned int`. A
division by zero is undefined behaviour. -/
instance : counter_div uint32 :=
  ⟨fun x n => uint32.wrap (x.val / (n % 18446744073709551616)), fun _ => none⟩

/-! ## Floating storage for the mean accumulator -/

/-- A cell of a floating `value_type` (`double`), as far as the division by
the counter is concerned: a finite value, an infinity, or NaN. The finite
values are rationals: rounding, overflow and the sign of zero are left
out. -/
inductive float_cell where
  | finite (q : ℚ)
  | pos_inf
  | neg_inf
  | nan
deriving DecidableEq

instance : Zero float_cell := ⟨float_cell.finite 0⟩

/-- The statement `*s += *value_begin` on floating cells. -/
def float_cell.add : float_cell → float_cell → float_cell
  | float_cell.finite a, float_cell.finite b => float_cell.finite (a + b)
  | float_cell.nan, _ => float_cell.nan
  | _, float_cell.nan => float_cell.nan
  | float_cell.pos_inf, float_cell.neg_inf => float_cell.nan
  | float_cell.neg_inf, float_cell.pos_inf => float_cell.nan
  | float_cell.pos_inf, _ => float_cell.pos_inf
  | float_cell.neg_inf, _ => float_cell.neg_inf
  | _, float_cell.pos_inf => float_cell.pos_inf
  | _, float_cell.neg_inf => float_cell.neg_inf

instance : Add float_cell := ⟨float_cell.add⟩

/-- The statement `*s /= m_counter` on a floating cell with a counter that is
not zero: the counter is converted to the floating type and divides the
cell. -/
def float_cell.div (x : float_cell) (n : Nat) : float_cell :=
  match x with
  | float_cell.finite q => float_cell.finite (q / (n : ℚ))
  | y => y

/-- The statement `*s /= m_counter` on a floating cell with a zero counter:
the division by `0.0` is defined and raises nothing; it gives NaN for `0.0`
and for NaN, and an infinity of the sign of the cell otherwise. -/
def float_cell.div_zero (x : float_cell) : float_cell :=
  match x with
  | float_cell.finite q =>
    if q = 0 then float_cell.nan
    else if 0 < q then float_cell.pos_inf else float_cell.neg_inf
  | y => y

instance : counter_div float_cell :=
  ⟨float_cell.div, fun x => some (float_cell.div_zero x)⟩

/-! # Theorems -/

/-! ## Lists as arrays and as tables -/

theorem getD_set_self (l : List Nat) (i x : Nat) (h : i < l.length) :
    (l.set i x).getD i 0 = x := by
  simp [List.getD_eq_getElem?_getD, List.getElem?_set_self, h]

theorem getD_set_ne (l : List Nat) (i j x : Nat) (h : i ≠ j) :
    (l.set i x).getD j 0 = l.getD j 0 := by
  simp [List.getD_eq_getElem?_getD, List.getElem?_set_ne h]

theorem getElem?_snoc_iff {α : Type} (l : List α) (x y : α) (i : Nat) :
    (l ++ [x])[i]? = some y ↔ l[i]? = some y ∨ (i = l.length ∧ x = y) := by
  rcases Nat.lt_trichotomy i l.length with h | h | h
  · rw [List.getElem?_append_left h]
    constructor
    · intro h1; exact Or.inl h1
    · rintro (h1 | ⟨h1, _⟩)
      · exact h1
      · omega
  · subst h
    simp
  · have h1 : l[i]? = none := List.getElem?_eq_none (by omega)
    have h2 : (l ++ [x])[i]? = none := List.getElem?_eq_none (by simp; omega)
    rw [h1, h2]
    constructor
    · intro h3; cases h3
    · rintro (h3 | ⟨h3, _⟩)
      · cases h3
      · omega

theorem getElem?_some_lt {α : Type} (l : List α) (y : α) (i : Nat) (h : l[i]? = some y) :
    i < l.length := by
  by_contra hc
  rw [List.getElem?_eq_none (by omega)] at h
  cases h

theorem lookup_cons_self (k : Nat × Nat) (v : Nat) (l : List ((Nat × Nat) × Nat)) :
    List.lookup k ((k, v) :: l) = some v := by
  simp [List.lookup]

theorem lookup_cons_ne (k k' : Nat × Nat) (v : Nat) (l : List ((Nat × Nat) × Nat))
    (h : k ≠ k') : List.lookup k ((k', v) :: l) = List.lookup k l := by
  have h1 : (k == k') = false := by simpa using h
  simp [List.lookup, h1]

/-- Pigeonhole: a table with `m` cells whose values cover `0 .. N - 1` has
`N ≤ m`. -/
theorem le_of_covered (f : Nat → Nat) (N m : Nat)
    (h : ∀ id, id < N → ∃ e, e < m ∧ f e = id) : N ≤ m := by
  classical
  choose w hw using h
  let F : Fin N → Fin m := fun i => ⟨w i.1 i.2, (hw i.1 i.2).1⟩
  have hinj : Function.Injective F := by
    intro a b hab
    have h1 : w a.1 a.2 = w b.1 b.2 := congrArg Fin.val hab
    have h2 := (hw a.1 a.2).2
    have h3 := (hw b.1 b.2).2
    apply Fin.ext
    rw [← h2, ← h3, h1]
  simpa using Fintype.card_le_of_injective F hinj

/-- A left fold keeps an invariant that tracks the prefix already folded. -/
theorem foldl_done_inv {σ α : Type} (f : σ → α → σ) (P : List α → σ → Prop)
    (l : List α)
    (hstep : ∀ done a st, a ∈ l → P done st → P (done ++ [a]) (f st a))
    (st : σ) (h0 : P [] st) : P l (l.foldl f st) := by
  have key : ∀ (todo done : List α) (st : σ), (∀ a ∈ todo, a ∈ l) → P done st →
      P (done ++ todo) (todo.foldl f st) := by
    intro todo
    induction todo with
    | nil => intro done st _ h; simpa using h
    | cons a t ih =>
      intro done st hmem h
      have h1 := hstep done a st (hmem a (List.mem_cons_self a t)) h
      have h2 := ih (done ++ [a]) (f st a)
        (fun b hb => hmem b (List.mem_cons_of_mem a hb)) h1
      simpa using h2
  simpa using key l [] st (fun a ha => ha) h0

/-! ## The graph collaborator -/

theorem mem_out_edge_index_iterator {g : ugraph} {v ei : Nat} :
    ei ∈ out_edge_index_iterator v g ↔
      ei < num_edges g ∧ (source (edge ei g) = v ∨ target (edge ei g) = v) := by
  simp [out_edge_index_iterator]

theorem edge_mem {g : ugraph} {ei : Nat} (h : ei < num_edges g) :
    edge ei g ∈ g.edge_list := by
  unfold edge num_edges at *
  rw [List.getD_eq_getElem _ _ h]
  exact List.getElem_mem h

theorem edge_endpoints_lt {g : ugraph} (hg : valid_graph g) {ei : Nat}
    (h : ei < num_edges g) :
    (edge ei g).1 < num_vertices g ∧ (edge ei g).2 < num_vertices g :=
  hg.1 _ (edge_mem h)

theorem out_edge_cases {g : ugraph} {v ei : Nat} (h : ei ∈ out_edge_index_iterator v g) :
    edge ei g = (v, other_vertex (edge ei g) v) ∨
      edge ei g = (other_vertex (edge ei g) v, v) := by
  rw [mem_out_edge_index_iterator] at h
  obtain ⟨_, h⟩ := h
  unfold other_vertex source target at *
  by_cases h1 : (edge ei g).1 = v
  · left; rw [if_pos h1]; exact Prod.ext h1 rfl
  · right; rw [if_neg h1]
    rcases h with h | h
    · exact absurd h h1
    · exact Prod.ext rfl h

theorem other_vertex_lt {g : ugraph} (hg : valid_graph g) {v ei : Nat}
    (h : ei ∈ out_edge_index_iterator v g) :
    other_vertex (edge ei g) v < num_vertices g := by
  have h1 := edge_endpoints_lt hg (mem_out_edge_index_iterator.1 h).1
  unfold other_vertex source target
  split
  · exact h1.2
  · exact h1.1

theorem adjacent_symm {g : ugraph} {u v : Nat} (h : adjacent g u v) : adjacent g v u := by
  obtain ⟨ei, h1, h2⟩ := h
  exact ⟨ei, h1, h2.symm⟩

theorem adjacent_lt {g : ugraph} (hg : valid_graph g) {u v : Nat} (h : adjacent g u v) :
    u < num_vertices g ∧ v < num_vertices g := by
  obtain ⟨ei, h1, h2⟩ := h
  have h3 := edge_endpoints_lt hg h1
  rcases h2 with h2 | h2 <;> rw [h2] at h3 <;> simp at h3 <;> omega

theorem adjacent_of_out_edge {g : ugraph} {v ei : Nat}
    (h : ei ∈ out_edge_index_iterator v g) :
    adjacent g v (other_vertex (edge ei g) v) :=
  ⟨ei, (mem_out_edge_index_iterator.1 h).1, out_edge_cases h⟩

theorem out_edge_of_adjacent {g : ugraph} {v w : Nat} (h : adjacent g v w) :
    ∃ ei, ei ∈ out_edge_index_iterator v g ∧ other_vertex (edge ei g) v = w := by
  obtain ⟨ei, h1, h2⟩ := h
  refine ⟨ei, ?_, ?_⟩
  · rw [mem_out_edge_index_iterator]
    refine ⟨h1, ?_⟩
    rcases h2 with h2 | h2 <;> rw [h2] <;> simp [source, target]
  · rcases h2 with h2 | h2
    · rw [h2]; simp [other_vertex, source, target]
    · rw [h2]; unfold other_vertex source target
      by_cases h3 : w = v
      · simp [h3]
      · simp [h3]

/-- An edge whose first or second endpoint is `v` is iterated from `v`, and
`other_vertex` gives its other endpoint. -/
theorem out_edge_of_endpoint {g : ugraph} {e : Nat} (h : e < num_edges g) :
    (e ∈ out_edge_index_iterator (edge e g).1 g ∧
        other_vertex (edge e g) (edge e g).1 = (edge e g).2) ∧
      (e ∈ out_edge_index_iterator (edge e g).2 g ∧
        ((edge e g).1 ≠ (edge e g).2 → other_vertex (edge e g) (edge e g).2 = (edge e g).1)) := by
  refine ⟨⟨?_, ?_⟩, ?_, ?_⟩
  · rw [mem_out_edge_index_iterator]; exact ⟨h, Or.inl rfl⟩
  · simp [other_vertex, source, target]
  · rw [mem_out_edge_index_iterator]; exact ⟨h, Or.inr rfl⟩
  · intro hne; simp [other_vertex, source, target, hne]

theorem same_label_step_symm {g : ugraph} {labels : List Int} {u v : Nat}
    (h : same_label_step g labels u v) : same_label_step g labels v u :=
  ⟨adjacent_symm h.1, h.2.symm⟩

theorem reach_symm {g : ugraph} {labels : List Int} {u v : Nat}
    (h : Relation.ReflTransGen (same_label_step g labels) u v) :
    Relation.ReflTransGen (same_label_step g labels) v u := by
  induction h with
  | refl => exact Relation.ReflTransGen.refl
  | tail _ hbc ih => exact Relation.ReflTransGen.head (same_label_step_symm hbc) ih

theorem count_set_invalid (l : List Nat) (w k : Nat) (hw : w < l.length)
    (hu : l.getD w 0 = invalid_index) (hk : k ≠ invalid_index) :
    (l.set w k).count invalid_index + 1 = l.count invalid_index := by
  induction l generalizing w with
  | nil => simp at hw
  | cons a t ih =>
    cases w with
    | zero =>
      simp at hu
      subst hu
      simp [List.count_cons, hk]
    | succ w =>
      simp at hu hw
      have := ih w hw (by simpa [List.getD_eq_getElem?_getD] using hu)
      simp only [List.set_cons_succ, List.count_cons]
      omega

theorem mid_push {g : ugraph} {labels : List Int} {L : Int} {s0 B v : Nat}
    {done : List Nat} {st : rag_state} {ei w : Nat} (hg : valid_graph g)
    (hei : ei ∈ out_edge_index_iterator v g) (h : Mid g labels L s0 B v done st)
    (hwe : other_vertex (edge ei g) v = w)
    (hl : labels.getD w 0 = L)
    (hu : st.vertex_map.getD w 0 = invalid_index) :
    Mid g labels L s0 B v (done ++ [ei])
      { st with vertex_map := st.vertex_map.set w st.num_regions, s := w :: st.s } := by
  have hw : w < num_vertices g := hwe ▸ other_vertex_lt hg hei
  have hc := h.core
  have hkn := hc.k_lt
  have hni := hg.2.1
  have hk : st.num_regions ≠ invalid_index := by omega
  have hself : (st.vertex_map.set w st.num_regions).getD w 0 = st.num_regions :=
    getD_set_self _ _ _ (by rw [hc.vm_len]; exact hw)
  have hne : ∀ x, x ≠ w →
      (st.vertex_map.set w st.num_regions).getD x 0 = st.vertex_map.getD x 0 :=
    fun x hx => getD_set_ne _ _ _ _ (Ne.symm hx)
  have hold : ∀ x, st.vertex_map.getD x 0 ≠ invalid_index →
      (st.vertex_map.set w st.num_regions).getD x 0 = st.vertex_map.getD x 0 := by
    intro x hx
    apply hne
    intro hxw
    rw [hxw] at hx
    exact hx hu
  have hlt : ∀ x, st.vertex_map.getD x 0 ≤ st.num_regions →
      (st.vertex_map.set w st.num_regions).getD x 0 = st.vertex_map.getD x 0 :=
    fun x hx => hold x (by omega)
  refine ⟨⟨?_, ?_, ?_, ?_, ?_, ?_, ?_, ?_, ?_, ?_, ?_, ?_, ?_, ?_, ?_, ?_, ?_, ?_, ?_⟩,
    ?_, ?_, ?_, ?_⟩
  · show (st.vertex_map.set w st.num_regions).length = _
    rw [List.length_set]; exact hc.vm_len
  · exact hc.em_len
  · exact hc.k_lt
  · intro x hx hxi
    show (st.vertex_map.set w st.num_regions).getD x 0 ≤ st.num_regions
    by_cases hxw : x = w
    · rw [hxw, hself]
    · rw [hne x hxw]
      apply hc.vm_le x hx
      rw [← hne x hxw]; exact hxi
  · intro x hx hxk
    by_cases hxw : x = w
    · rw [hxw]; exact hl
    · apply hc.cur_label x hx
      rw [← hne x hxw]; exact hxk
  · intro x hx hxk
    by_cases hxw : x = w
    · rw [hxw]
      refine Relation.ReflTransGen.tail (hc.cur_path v h.v_ok.1 h.v_ok.2) ⟨?_, ?_⟩
      · rw [← hwe]; exact adjacent_of_out_edge hei
      · rw [hl]; exact hc.cur_label v h.v_ok.1 h.v_ok.2
    · apply hc.cur_path x hx
      rw [← hne x hxw]; exact hxk
  · intro a b ha hb hak hab
    change (st.vertex_map.set w st.num_regions).getD a 0 < st.num_regions at hak
    change (st.vertex_map.set w st.num_regions).getD a 0 =
      (st.vertex_map.set w st.num_regions).getD b 0 at hab
    have haw : a ≠ w := by
      intro e; rw [e, hself] at hak; omega
    rw [hne a haw] at hak hab
    have hbw : b ≠ w := by
      intro e; rw [e, hself] at hab; omega
    rw [hne b hbw] at hab
    exact hc.old_sound a b ha hb hak hab
  · intro a b hak hstep
    change (st.vertex_map.set w st.num_regions).getD a 0 < st.num_regions at hak
    show (st.vertex_map.set w st.num_regions).getD b 0 =
      (st.vertex_map.set w st.num_regions).getD a 0
    have haw : a ≠ w := by
      intro e; rw [e, hself] at hak; omega
    rw [hne a haw] at hak ⊢
    have := hc.old_closed a b hak hstep
    rw [hlt b (by omega)]; exact this
  · intro a b hak hap hstep
    change (st.vertex_map.set w st.num_regions).getD a 0 = st.num_regions at hak
    change a ∉ v :: w :: st.s at hap
    show (st.vertex_map.set w st.num_regions).getD b 0 = st.num_regions
    have haw : a ≠ w := by
      intro e; apply hap; rw [e]; simp
    rw [hne a haw] at hak
    have := hc.cur_closed a b hak (by
      intro hmem; apply hap
      rcases List.mem_cons.1 hmem with e | e
      · rw [e]; simp
      · simp [e]) hstep
    rw [hlt b (by omega)]; exact this
  · intro x hx
    change x ∈ w :: st.s at hx
    show _ ∧ (st.vertex_map.set w st.num_regions).getD x 0 = st.num_regions
    rcases List.mem_cons.1 hx with e | e
    · rw [e]; exact ⟨hw, hself⟩
    · have := hc.stack_ok x e
      refine ⟨this.1, ?_⟩
      rw [hlt x (by omega)]; exact this.2
  · intro r hr
    change r < st.num_regions at hr
    obtain ⟨x, hx, hxr⟩ := hc.old_onto r hr
    refine ⟨x, hx, ?_⟩
    show (st.vertex_map.set w st.num_regions).getD x 0 = r
    rw [hlt x (by omega)]; exact hxr
  · refine ⟨hc.start_ok.1, ?_⟩
    show (st.vertex_map.set w st.num_regions).getD s0 0 = st.num_regions
    rw [hlt s0 (by have := hc.start_ok.2; omega)]; exact hc.start_ok.2
  · exact hc.rag_nv
  · exact hc.rag_ne
  · exact hc.canon
  · exact hc.rag_lt
  · intro e he hem
    have := hc.em_sound e he hem
    show (st.vertex_map.set w st.num_regions).getD (edge e g).1 0 ≠ invalid_index ∧
      (st.vertex_map.set w st.num_regions).getD (edge e g).2 0 ≠ invalid_index ∧
      (st.vertex_map.set w st.num_regions).getD (edge e g).1 0 ≠
        (st.vertex_map.set w st.num_regions).getD (edge e g).2 0 ∧
      st.rag.edge_list[st.edge_map.getD e 0]? =
        some (min ((st.vertex_map.set w st.num_regions).getD (edge e g).1 0)
          ((st.vertex_map.set w st.num_regions).getD (edge e g).2 0),
            max ((st.vertex_map.set w st.num_regions).getD (edge e g).1 0)
          ((st.vertex_map.set w st.num_regions).getD (edge e g).2 0))
    rw [hold _ this.1, hold _ this.2.1]
    exact this
  · intro e he h1 h2 h3 h4 h5
    change (st.vertex_map.set w st.num_regions).getD (edge e g).1 0 ≠ invalid_index at h1
    change (st.vertex_map.set w st.num_regions).getD (edge e g).2 0 ≠ invalid_index at h2
    change (edge e g).1 ∉ v :: w :: st.s at h3
    change (edge e g).2 ∉ v :: w :: st.s at h4
    have h3w : (edge e g).1 ≠ w := by intro e'; apply h3; rw [e']; simp
    have h4w : (edge e g).2 ≠ w := by intro e'; apply h4; rw [e']; simp
    rw [hne _ h3w] at h1
    rw [hne _ h4w] at h2
    refine hc.em_complete e he h1 h2 ?_ ?_ h5
    · intro hm; apply h3
      rcases List.mem_cons.1 hm with e' | e'
      · rw [e']; simp
      · simp [e']
    · intro hm; apply h4
      rcases List.mem_cons.1 hm with e' | e'
      · rw [e']; simp
      · simp [e']
  · exact hc.em_onto
  · show (st.vertex_map.set w st.num_regions).count invalid_index + (w :: st.s).length ≤ B
    have h1 := count_set_invalid st.vertex_map w st.num_regions
      (by rw [hc.vm_len]; exact hw) hu hk
    have h2 := h.fuel_ok
    unfold unassigned at h2
    simp only [List.length_cons]
    omega
  · refine ⟨h.v_ok.1, ?_⟩
    show (st.vertex_map.set w st.num_regions).getD v 0 = st.num_regions
    rw [hlt v (by have := h.v_ok.2; omega)]; exact h.v_ok.2
  · intro ei' hm hl'
    show (st.vertex_map.set w st.num_regions).getD (other_vertex (edge ei' g) v) 0 =
      st.num_regions
    rcases List.mem_append.1 hm with e | e
    · have := h.done_same ei' e hl'
      rw [hlt _ (by omega)]; exact this
    · simp at e
      rw [e, hwe]; exact hself
  · intro ei' hm hl' hv'
    change (st.vertex_map.set w st.num_regions).getD (other_vertex (edge ei' g) v) 0 ≠
      invalid_index at hv'
    show st.edge_map.getD ei' 0 ≠ invalid_index
    have hne' : other_vertex (edge ei' g) v ≠ w := by
      intro e; rw [e] at hl'; exact hl' hl
    rw [hne _ hne'] at hv'
    rcases List.mem_append.1 hm with e | e
    · exact h.done_cross ei' e hl' hv'
    · simp at e
      rw [e, hwe] at hne'
      exact absurd rfl hne'

theorem mid_done_extend {g : ugraph} {labels : List Int} {L : Int} {s0 B v : Nat}
    {done : List Nat} {st : rag_state} {ei : Nat}
    (h : Mid g labels L s0 B v done st)
    (hs : labels.getD (other_vertex (edge ei g) v) 0 = L →
      st.vertex_map.getD (other_vertex (edge ei g) v) 0 = st.num_regions)
    (hx : labels.getD (other_vertex (edge ei g) v) 0 ≠ L →
      st.vertex_map.getD (other_vertex (edge ei g) v) 0 ≠ invalid_index →
      st.edge_map.getD ei 0 ≠ invalid_index) :
    Mid g labels L s0 B v (done ++ [ei]) st := by
  refine ⟨h.core, h.fuel_ok, h.v_ok, ?_, ?_⟩
  · intro ei' hm hl'
    rcases List.mem_append.1 hm with e | e
    · exact h.done_same ei' e hl'
    · simp at e; rw [e] at hl' ⊢; exact hs hl'
  · intro ei' hm hl' hv'
    rcases List.mem_append.1 hm with e | e
    · exact h.done_cross ei' e hl' hv'
    · simp at e; rw [e] at hl' hv' ⊢; exact hx hl' hv'

theorem mid_same_assigned {g : ugraph} {labels : List Int} {L : Int} {s0 B v : Nat}
    {done : List Nat} {st : rag_state} {ei : Nat} (hg : valid_graph g)
    (hei : ei ∈ out_edge_index_iterator v g) (h : Mid g labels L s0 B v done st)
    (hl : labels.getD (other_vertex (edge ei g) v) 0 = L)
    (hu : st.vertex_map.getD (other_vertex (edge ei g) v) 0 ≠ invalid_index) :
    Mid g labels L s0 B v (done ++ [ei]) st := by
  refine mid_done_extend h ?_ (fun hne => absurd hl hne)
  intro _
  have hc := h.core
  have hw := other_vertex_lt hg hei
  have hle := hc.vm_le _ hw hu
  rcases Nat.lt_or_eq_of_le hle with hlt | heq
  · exfalso
    have hstep : same_label_step g labels (other_vertex (edge ei g) v) v :=
      ⟨adjacent_symm (adjacent_of_out_edge hei), by
        rw [hl]; exact (hc.cur_label v h.v_ok.1 h.v_ok.2).symm⟩
    have := hc.old_closed _ v hlt hstep
    rw [h.v_ok.2] at this
    omega
  · exact heq

theorem edge_count_le {g : ugraph} {labels : List Int} {L : Int} {s0 : Nat}
    {pend : List Nat} {st : rag_state} (hc : Core g labels L s0 pend st) :
    st.num_edges ≤ num_edges g :=
  le_of_covered (fun e => st.edge_map.getD e 0) _ _ hc.em_onto

/-- Facts on a crossing edge seen from the popped vertex `v` towards an
assigned vertex `w` of another label. -/
theorem cross_facts {g : ugraph} {labels : List Int} {L : Int} {s0 B v : Nat}
    {done : List Nat} {st : rag_state} {ei w : Nat} (hg : valid_graph g)
    (hei : ei ∈ out_edge_index_iterator v g) (h : Mid g labels L s0 B v done st)
    (hwe : other_vertex (edge ei g) v = w)
    (hl : labels.getD w 0 ≠ L)
    (hu : st.vertex_map.getD w 0 ≠ invalid_index) :
    st.vertex_map.getD w 0 < st.num_regions ∧
    ((edge ei g).1 = v ∨ (edge ei g).2 = v) ∧
    st.vertex_map.getD (edge ei g).1 0 ≠ invalid_index ∧
    st.vertex_map.getD (edge ei g).2 0 ≠ invalid_index ∧
    st.vertex_map.getD (edge ei g).1 0 ≠ st.vertex_map.getD (edge ei g).2 0 ∧
    (min (st.vertex_map.getD (edge ei g).1 0) (st.vertex_map.getD (edge ei g).2 0),
      max (st.vertex_map.getD (edge ei g).1 0) (st.vertex_map.getD (edge ei g).2 0)) =
      (st.vertex_map.getD w 0, st.num_regions) := by
  have hc := h.core
  have hw : w < num_vertices g := hwe ▸ other_vertex_lt hg hei
  have hle := hc.vm_le _ hw hu
  have hlt : st.vertex_map.getD w 0 < st.num_regions := by
    rcases Nat.lt_or_eq_of_le hle with hlt | heq
    · exact hlt
    · exact absurd (hc.cur_label w hw heq) hl
  have hvk := h.v_ok.2
  have hkn := hc.k_lt
  have hni := hg.2.1
  refine ⟨hlt, ?_⟩
  rcases out_edge_cases hei with he | he
  · rw [hwe] at he
    rw [he]
    refine ⟨Or.inl rfl, ?_, ?_, ?_, ?_⟩
    · show st.vertex_map.getD v 0 ≠ invalid_index
      omega
    · exact hu
    · show st.vertex_map.getD v 0 ≠ st.vertex_map.getD w 0
      omega
    · show (min (st.vertex_map.getD v 0) (st.vertex_map.getD w 0),
        max (st.vertex_map.getD v 0) (st.vertex_map.getD w 0)) = _
      rw [hvk, Nat.min_eq_right (Nat.le_of_lt hlt), Nat.max_eq_left (Nat.le_of_lt hlt)]
  · rw [hwe] at he
    rw [he]
    refine ⟨Or.inr rfl, ?_, ?_, ?_, ?_⟩
    · exact hu
    · show st.vertex_map.getD v 0 ≠ invalid_index
      omega
    · show st.vertex_map.getD w 0 ≠ st.vertex_map.getD v 0
      omega
    · show (min (st.vertex_map.getD w 0) (st.vertex_map.getD v 0),
        max (st.vertex_map.getD w 0) (st.vertex_map.getD v 0)) = _
      rw [hvk, Nat.min_eq_left (Nat.le_of_lt hlt), Nat.max_eq_right (Nat.le_of_lt hlt)]

theorem cross_mapped_lookup {g : ugraph} {labels : List Int} {L : Int} {s0 B v : Nat}
    {done : List Nat} {st : rag_state} {ei w : Nat} (hg : valid_graph g)
    (hei : ei ∈ out_edge_index_iterator v g) (h : Mid g labels L s0 B v done st)
    (hwe : other_vertex (edge ei g) v = w)
    (hl : labels.getD w 0 ≠ L)
    (hu : st.vertex_map.getD w 0 ≠ invalid_index)
    (hm : st.edge_map.getD ei 0 ≠ invalid_index) :
    st.canonical_edge.lookup (st.vertex_map.getD w 0, st.num_regions) =
      some (st.edge_map.getD ei 0) := by
  have hf := cross_facts hg hei h hwe hl hu
  have hs := h.core.em_sound ei (mem_out_edge_index_iterator.1 hei).1 hm
  rw [h.core.canon, hs.2.2.2, hf.2.2.2.2.2]

theorem getD_set_eq_ite (l : List Nat) (i j x : Nat) (h : i < l.length) :
    (l.set i x).getD j 0 = if j = i then x else l.getD j 0 := by
  by_cases hji : j = i
  · rw [if_pos hji, hji]; exact getD_set_self l i x h
  · rw [if_neg hji]; exact getD_set_ne l i j x (Ne.symm hji)

theorem mid_cross_known {g : ugraph} {labels : List Int} {L : Int} {s0 B v : Nat}
    {done : List Nat} {st : rag_state} {ei w id : Nat} (hg : valid_graph g)
    (hei : ei ∈ out_edge_index_iterator v g) (h : Mid g labels L s0 B v done st)
    (hwe : other_vertex (edge ei g) v = w)
    (hl : labels.getD w 0 ≠ L)
    (hu : st.vertex_map.getD w 0 ≠ invalid_index)
    (hlook : st.canonical_edge.lookup (st.vertex_map.getD w 0, st.num_regions) = some id) :
    Mid g labels L s0 B v (done ++ [ei]) { st with edge_map := st.edge_map.set ei id } := by
  have hc := h.core
  have hf := cross_facts hg hei h hwe hl hu
  have hem := mem_out_edge_index_iterator.1 hei
  have hN := edge_count_le hc
  have hmi := hg.2.2
  have hrag := (hc.canon _ _ _).1 hlook
  have hidN : id < st.num_edges := by
    rw [← hc.rag_ne]; exact getElem?_some_lt _ _ _ hrag
  have hid : id ≠ invalid_index := by omega
  have hset : ∀ e, (st.edge_map.set ei id).getD e 0 =
      if e = ei then id else st.edge_map.getD e 0 :=
    fun e => getD_set_eq_ite _ _ _ _ (by rw [hc.em_len]; exact hem.1)
  have hkeep : ∀ e, st.edge_map.getD e 0 ≠ invalid_index →
      (st.edge_map.set ei id).getD e 0 ≠ invalid_index := by
    intro e he
    rw [hset]
    split
    · exact hid
    · exact he
  refine ⟨⟨hc.vm_len, ?_, hc.k_lt, hc.vm_le, hc.cur_label, hc.cur_path, hc.old_sound,
    hc.old_closed, hc.cur_closed, hc.stack_ok, hc.old_onto, hc.start_ok, hc.rag_nv,
    hc.rag_ne, hc.canon, hc.rag_lt, ?_, ?_, ?_⟩, h.fuel_ok, h.v_ok, ?_, ?_⟩
  · show (st.edge_map.set ei id).length = _
    rw [List.length_set]; exact hc.em_len
  · intro e he hm
    change (st.edge_map.set ei id).getD e 0 ≠ invalid_index at hm
    show st.vertex_map.getD (edge e g).1 0 ≠ invalid_index ∧
      st.vertex_map.getD (edge e g).2 0 ≠ invalid_index ∧
      st.vertex_map.getD (edge e g).1 0 ≠ st.vertex_map.getD (edge e g).2 0 ∧
      st.rag.edge_list[(st.edge_map.set ei id).getD e 0]? = _
    rw [hset] at hm ⊢
    by_cases hee : e = ei
    · rw [if_pos hee]
      rw [hee, hf.2.2.2.2.2]
      exact ⟨hf.2.2.1, hf.2.2.2.1, hf.2.2.2.2.1, hrag⟩
    · rw [if_neg hee] at hm ⊢
      exact hc.em_sound e he hm
  · intro e he h1 h2 h3 h4 h5
    show (st.edge_map.set ei id).getD e 0 ≠ invalid_index
    rw [hset]
    by_cases hee : e = ei
    · rw [if_pos hee]; exact hid
    · rw [if_neg hee]; exact hc.em_complete e he h1 h2 h3 h4 h5
  · intro id0 hid0
    change id0 < st.num_edges at hid0
    obtain ⟨e, he, hee⟩ := hc.em_onto id0 hid0
    refine ⟨e, he, ?_⟩
    show (st.edge_map.set ei id).getD e 0 = id0
    rw [hset]
    by_cases hei' : e = ei
    · rw [if_pos hei']
      rw [hei'] at hee
      have h1 := cross_mapped_lookup hg hei h hwe hl hu (by rw [hee]; omega)
      rw [hlook, hee] at h1
      exact Option.some.inj h1
    · rw [if_neg hei']; exact hee
  · intro ei' hm hl'
    rcases List.mem_append.1 hm with e | e
    · exact h.done_same ei' e hl'
    · simp at e; rw [e, hwe] at hl'; exact absurd hl' hl
  · intro ei' hm hl' hv'
    show (st.edge_map.set ei id).getD ei' 0 ≠ invalid_index
    rcases List.mem_append.1 hm with e | e
    · exact hkeep _ (h.done_cross ei' e hl' hv')
    · simp at e; rw [e, hset, if_pos rfl]; exact hid

theorem mid_cross_new {g : ugraph} {labels : List Int} {L : Int} {s0 B v : Nat}
    {done : List Nat} {st : rag_state} {ei w : Nat} (hg : valid_graph g)
    (hei : ei ∈ out_edge_index_iterator v g) (h : Mid g labels L s0 B v done st)
    (hwe : other_vertex (edge ei g) v = w)
    (hl : labels.getD w 0 ≠ L)
    (hu : st.vertex_map.getD w 0 ≠ invalid_index)
    (hlook : st.canonical_edge.lookup (st.vertex_map.getD w 0, st.num_regions) = none) :
    Mid g labels L s0 B v (done ++ [ei])
      { st with
        rag := add_edge (st.vertex_map.getD w 0) st.num_regions st.rag
        edge_map := st.edge_map.set ei st.num_edges
        canonical_edge :=
          ((st.vertex_map.getD w 0, st.num_regions), st.num_edges) :: st.canonical_edge
        num_edges := st.num_edges + 1 } := by
  have hc := h.core
  have hf := cross_facts hg hei h hwe hl hu
  have hem := mem_out_edge_index_iterator.1 hei
  have hN := edge_count_le hc
  have hmi := hg.2.2
  have hset : ∀ e, (st.edge_map.set ei st.num_edges).getD e 0 =
      if e = ei then st.num_edges else st.edge_map.getD e 0 :=
    fun e => getD_set_eq_ite _ _ _ _ (by rw [hc.em_len]; exact hem.1)
  have hunm : st.edge_map.getD ei 0 = invalid_index := by
    by_contra hm
    have h1 := cross_mapped_lookup hg hei h hwe hl hu hm
    rw [hlook] at h1
    cases h1
  have honto : ∀ id0, id0 < st.num_edges + 1 →
      ∃ e, e < num_edges g ∧ (st.edge_map.set ei st.num_edges).getD e 0 = id0 := by
    intro id0 hid0
    by_cases hlast : id0 = st.num_edges
    · exact ⟨ei, hem.1, by rw [hset, if_pos rfl, hlast]⟩
    · obtain ⟨e, he, hee⟩ := hc.em_onto id0 (by omega)
      refine ⟨e, he, ?_⟩
      rw [hset]
      by_cases hei' : e = ei
      · exfalso
        rw [hei', hunm] at hee
        omega
      · rw [if_neg hei']; exact hee
  have hN1 : st.num_edges + 1 ≤ num_edges g :=
    le_of_covered (fun e => (st.edge_map.set ei st.num_edges).getD e 0) _ _ honto
  have hid : st.num_edges ≠ invalid_index := by omega
  have hkeep : ∀ e, st.edge_map.getD e 0 ≠ invalid_index →
      (st.edge_map.set ei st.num_edges).getD e 0 ≠ invalid_index := by
    intro e he
    rw [hset]
    split
    · exact hid
    · exact he
  have hsnoc : ∀ (i : Nat) (y : Nat × Nat),
      (add_edge (st.vertex_map.getD w 0) st.num_regions st.rag).edge_list[i]? = some y ↔
        st.rag.edge_list[i]? = some y ∨
          (i = st.num_edges ∧ (st.vertex_map.getD w 0, st.num_regions) = y) := by
    intro i y
    rw [← hc.rag_ne]
    exact getElem?_snoc_iff _ _ _ _
  refine ⟨⟨hc.vm_len, ?_, hc.k_lt, hc.vm_le, hc.cur_label, hc.cur_path, hc.old_sound,
    hc.old_closed, hc.cur_closed, hc.stack_ok, hc.old_onto, hc.start_ok, hc.rag_nv,
    ?_, ?_, ?_, ?_, ?_, honto⟩, h.fuel_ok, h.v_ok, ?_, ?_⟩
  · show (st.edge_map.set ei st.num_edges).length = _
    rw [List.length_set]; exact hc.em_len
  · show (st.rag.edge_list ++ [(st.vertex_map.getD w 0, st.num_regions)]).length =
      st.num_edges + 1
    rw [List.length_append, hc.rag_ne]; rfl
  · intro a b id
    show List.lookup (a, b)
      (((st.vertex_map.getD w 0, st.num_regions), st.num_edges) :: st.canonical_edge) =
        some id ↔ _
    rw [hsnoc]
    by_cases hk : (a, b) = (st.vertex_map.getD w 0, st.num_regions)
    · rw [hk, lookup_cons_self]
      constructor
      · intro h1
        right
        exact ⟨(Option.some.inj h1).symm, rfl⟩
      · rintro (h1 | ⟨h1, _⟩)
        · rw [← hc.canon, hlook] at h1; cases h1
        · rw [h1]
    · rw [lookup_cons_ne _ _ _ _ hk, hc.canon]
      constructor
      · intro h1; exact Or.inl h1
      · rintro (h1 | ⟨_, h1⟩)
        · exact h1
        · exact absurd h1.symm hk
  · intro id a b h1
    show a < b ∧ b ≤ st.num_regions
    rcases (hsnoc _ _).1 h1 with h2 | ⟨_, h2⟩
    · exact hc.rag_lt id a b h2
    · have ha := (Prod.mk.inj h2).1
      have hb := (Prod.mk.inj h2).2
      have := hf.1
      omega
  · intro e he hm
    change (st.edge_map.set ei st.num_edges).getD e 0 ≠ invalid_index at hm
    show st.vertex_map.getD (edge e g).1 0 ≠ invalid_index ∧
      st.vertex_map.getD (edge e g).2 0 ≠ invalid_index ∧
      st.vertex_map.getD (edge e g).1 0 ≠ st.vertex_map.getD (edge e g).2 0 ∧
      (add_edge (st.vertex_map.getD w 0) st.num_regions st.rag).edge_list[
        (st.edge_map.set ei st.num_edges).getD e 0]? = _
    rw [hset] at hm ⊢
    by_cases hee : e = ei
    · rw [if_pos hee]
      rw [hee, hf.2.2.2.2.2]
      refine ⟨hf.2.2.1, hf.2.2.2.1, hf.2.2.2.2.1, ?_⟩
      rw [hsnoc]
      exact Or.inr ⟨rfl, rfl⟩
    · rw [if_neg hee] at hm ⊢
      have := hc.em_sound e he hm
      refine ⟨this.1, this.2.1, this.2.2.1, ?_⟩
      rw [hsnoc]
      exact Or.inl this.2.2.2
  · intro e he h1 h2 h3 h4 h5
    show (st.edge_map.set ei st.num_edges).getD e 0 ≠ invalid_index
    rw [hset]
    by_cases hee : e = ei
    · rw [if_pos hee]; exact hid
    · rw [if_neg hee]; exact hc.em_complete e he h1 h2 h3 h4 h5
  · intro ei' hm hl'
    rcases List.mem_append.1 hm with e | e
    · exact h.done_same ei' e hl'
    · simp at e; rw [e, hwe] at hl'; exact absurd hl' hl
  · intro ei' hm hl' hv'
    show (st.edge_map.set ei st.num_edges).getD ei' 0 ≠ invalid_index
    rcases List.mem_append.1 hm with e | e
    · exact hkeep _ (h.done_cross ei' e hl' hv')
    · simp at e; rw [e, hset, if_pos rfl]; exact hid

/-- One iteration of the `for` loop keeps the invariant. -/
theorem explore_edge_mid {g : ugraph} {labels : List Int} {L : Int} {s0 B v : Nat}
    {done : List Nat} {st : rag_state} {ei : Nat} (hg : valid_graph g)
    (hei : ei ∈ out_edge_index_iterator v g) (h : Mid g labels L s0 B v done st) :
    Mid g labels L s0 B v (done ++ [ei]) (explore_edge g labels L v st ei) := by
  unfold explore_edge
  simp only []
  by_cases hl : labels.getD (other_vertex (edge ei g) v) 0 = L
  · rw [if_pos hl]
    by_cases hu : st.vertex_map.getD (other_vertex (edge ei g) v) 0 = invalid_index
    · rw [if_pos hu]
      exact mid_push hg hei h rfl hl hu
    · rw [if_neg hu]
      exact mid_same_assigned hg hei h hl hu
  · rw [if_neg hl]
    by_cases hu : st.vertex_map.getD (other_vertex (edge ei g) v) 0 ≠ invalid_index
    · rw [if_pos hu]
      cases hlook : List.lookup
          (st.vertex_map.getD (other_vertex (edge ei g) v) 0, st.num_regions)
          st.canonical_edge with
      | none => exact mid_cross_new hg hei h rfl hl hu hlook
      | some id => exact mid_cross_known hg hei h rfl hl hu hlook
    · rw [if_neg hu]
      exact mid_done_extend h (fun e => absurd e hl) (fun _ e => absurd e hu)

/-! ### Frame properties: what the loops leave unchanged -/

theorem explore_edge_num_regions (g : ugraph) (labels : List Int) (L : Int) (v : Nat)
    (st : rag_state) (ei : Nat) :
    (explore_edge g labels L v st ei).num_regions = st.num_regions := by
  unfold explore_edge
  simp only []
  split
  · split <;> rfl
  · split
    · split <;> rfl
    · rfl

theorem explore_edge_assigned (g : ugraph) (labels : List Int) (L : Int) (v : Nat)
    (st : rag_state) (ei x : Nat) (hx : st.vertex_map.getD x 0 ≠ invalid_index) :
    (explore_edge g labels L v st ei).vertex_map.getD x 0 = st.vertex_map.getD x 0 := by
  unfold explore_edge
  simp only []
  split
  · split
    · rename_i hu
      show (st.vertex_map.set _ _).getD x 0 = _
      apply getD_set_ne
      intro e
      rw [e] at hu
      exact hx hu
    · rfl
  · split
    · split <;> rfl
    · rfl

theorem foldl_explore_edge_num_regions (g : ugraph) (labels : List Int) (L : Int) (v : Nat)
    (l : List Nat) (st : rag_state) :
    (l.foldl (explore_edge g labels L v) st).num_regions = st.num_regions := by
  induction l generalizing st with
  | nil => rfl
  | cons a t ih => rw [List.foldl_cons, ih, explore_edge_num_regions]

theorem foldl_explore_edge_assigned (g : ugraph) (labels : List Int) (L : Int) (v : Nat)
    (l : List Nat) (st : rag_state) (x : Nat)
    (hx : st.vertex_map.getD x 0 ≠ invalid_index) :
    (l.foldl (explore_edge g labels L v) st).vertex_map.getD x 0 =
      st.vertex_map.getD x 0 := by
  induction l generalizing st with
  | nil => rfl
  | cons a t ih =>
    rw [List.foldl_cons, ih, explore_edge_assigned _ _ _ _ _ _ _ hx]
    rw [explore_edge_assigned _ _ _ _ _ _ _ hx]; exact hx

theorem explore_loop_num_regions (g : ugraph) (labels : List Int) (L : Int)
    (fuel : Nat) (st : rag_state) :
    (explore_loop g labels L fuel st).num_regions = st.num_regions := by
  induction fuel generalizing st with
  | zero => rfl
  | succ n ih =>
    unfold explore_loop
    split
    · rfl
    · rw [ih, foldl_explore_edge_num_regions]

theorem explore_loop_assigned (g : ugraph) (labels : List Int) (L : Int)
    (fuel : Nat) (st : rag_state) (x : Nat)
    (hx : st.vertex_map.getD x 0 ≠ invalid_index) :
    (explore_loop g labels L fuel st).vertex_map.getD x 0 = st.vertex_map.getD x 0 := by
  induction fuel generalizing st with
  | zero => rfl
  | succ n ih =>
    unfold explore_loop
    split
    · rfl
    · rename_i v rest _
      have h1 := foldl_explore_edge_assigned g labels L v (out_edge_index_iterator v g)
        { st with s := rest } x hx
      rw [ih _ (by rw [h1]; exact hx), h1]

theorem explore_component_assigned (g : ugraph) (labels : List Int) (st : rag_state)
    (start x : Nat) (hs : st.vertex_map.getD start 0 = invalid_index)
    (hx : st.vertex_map.getD x 0 ≠ invalid_index) :
    (explore_component g labels st start).vertex_map.getD x 0 = st.vertex_map.getD x 0 := by
  have hne : start ≠ x := by
    intro e; rw [e] at hs; exact hx hs
  have h1 : (st.vertex_map.set start st.num_regions).getD x 0 = st.vertex_map.getD x 0 :=
    getD_set_ne _ _ _ _ hne
  unfold explore_component
  simp only []
  rw [explore_loop_assigned _ _ _ _ _ _ (by show (st.vertex_map.set _ _).getD x 0 ≠ _
                                            rw [h1]; exact hx)]
  exact h1

theorem visit_vertex_assigned (g : ugraph) (labels : List Int) (st : rag_state)
    (v x : Nat) (hx : st.vertex_map.getD x 0 ≠ invalid_index) :
    (visit_vertex g labels st v).vertex_map.getD x 0 = st.vertex_map.getD x 0 := by
  unfold visit_vertex
  split
  · rfl
  · rename_i hv
    exact explore_component_assigned g labels st v x (by simpa using hv) hx

/-! ### The `while` loop -/

theorem inner_pop {g : ugraph} {labels : List Int} {L : Int} {s0 B v : Nat}
    {rest : List Nat} {st : rag_state}
    (h : Inner g labels L s0 (B + 1) st) (hs : st.s = v :: rest) :
    Mid g labels L s0 B v [] { st with s := rest } := by
  have hc := h.core
  rw [hs] at hc
  have hv := hc.stack_ok v (by rw [hs]; simp)
  refine ⟨⟨hc.vm_len, hc.em_len, hc.k_lt, hc.vm_le, hc.cur_label, hc.cur_path,
    hc.old_sound, hc.old_closed, hc.cur_closed, ?_, hc.old_onto, hc.start_ok, hc.rag_nv,
    hc.rag_ne, hc.canon, hc.rag_lt, hc.em_sound, hc.em_complete, hc.em_onto⟩,
    ?_, hv, ?_, ?_⟩
  · intro x hx
    exact hc.stack_ok x (by rw [hs]; exact List.mem_cons_of_mem _ hx)
  · have := h.fuel_ok
    rw [hs] at this
    simp only [List.length_cons] at this
    show unassigned st + rest.length ≤ B
    unfold unassigned at *
    omega
  · intro ei hm; simp at hm
  · intro ei hm; simp at hm

theorem mid_finish {g : ugraph} {labels : List Int} {L : Int} {s0 B v : Nat}
    {st : rag_state}
    (h : Mid g labels L s0 B v (out_edge_index_iterator v g) st) :
    Inner g labels L s0 B st := by
  have hc := h.core
  have hlv := hc.cur_label v h.v_ok.1 h.v_ok.2
  refine ⟨⟨hc.vm_len, hc.em_len, hc.k_lt, hc.vm_le, hc.cur_label, hc.cur_path,
    hc.old_sound, hc.old_closed, ?_, hc.stack_ok, hc.old_onto, hc.start_ok, hc.rag_nv,
    hc.rag_ne, hc.canon, hc.rag_lt, hc.em_sound, ?_, hc.em_onto⟩, h.fuel_ok⟩
  · intro u w hu hp hstep
    by_cases huv : u = v
    · rw [huv] at hstep
      obtain ⟨ei, hei, hw⟩ := out_edge_of_adjacent hstep.1
      have := h.done_same ei hei (by rw [hw, ← hstep.2]; exact hlv)
      rw [hw] at this
      exact this
    · apply hc.cur_closed u w hu _ hstep
      intro hm
      rcases List.mem_cons.1 hm with e | e
      · exact huv e
      · exact hp e
  · intro e he h1 h2 h3 h4 h5
    have hoe := out_edge_of_endpoint he
    by_cases hx : (edge e g).1 = v
    · have hm := hoe.1.1
      rw [hx] at hm
      refine h.done_cross e hm ?_ ?_
      · rw [← hx, hoe.1.2, ← hlv, ← hx]; exact Ne.symm h5
      · rw [← hx, hoe.1.2]; exact h2
    · by_cases hy : (edge e g).2 = v
      · have hm := hoe.2.1
        rw [hy] at hm
        have hne : (edge e g).1 ≠ (edge e g).2 := by
          intro e'; rw [e'] at h5; exact h5 rfl
        have ho := hoe.2.2 hne
        refine h.done_cross e hm ?_ ?_
        · rw [← hy, ho, ← hlv, ← hy]; exact h5
        · rw [← hy, ho]; exact h1
      · apply hc.em_complete e he h1 h2 _ _ h5
        · intro hm
          rcases List.mem_cons.1 hm with e' | e'
          · exact hx e'
          · exact h3 e'
        · intro hm
          rcases List.mem_cons.1 hm with e' | e'
          · exact hy e'
          · exact h4 e'

theorem foldl_explore_edge_mid {g : ugraph} {labels : List Int} {L : Int} {s0 B v : Nat}
    {st : rag_state} (hg : valid_graph g) (h : Mid g labels L s0 B v [] st) :
    Mid g labels L s0 B v (out_edge_index_iterator v g)
      ((out_edge_index_iterator v g).foldl (explore_edge g labels L v) st) :=
  foldl_done_inv (explore_edge g labels L v) (fun done st => Mid g labels L s0 B v done st)
    (out_edge_index_iterator v g)
    (fun _ _ _ ha hP => explore_edge_mid hg ha hP) st h

/-- The `while` loop ends with an empty stack within its budget, and keeps
the invariant. -/
theorem explore_loop_inner {g : ugraph} {labels : List Int} {L : Int} {s0 : Nat}
    (hg : valid_graph g) (fuel : Nat) (st : rag_state)
    (h : Inner g labels L s0 fuel st) :
    Core g labels L s0 [] (explore_loop g labels L fuel st) ∧
      (explore_loop g labels L fuel st).s = [] := by
  induction fuel generalizing st with
  | zero =>
    have h1 := h.fuel_ok
    have h2 : st.s = [] := List.eq_nil_of_length_eq_zero (by omega)
    have hc := h.core
    rw [h2] at hc
    exact ⟨hc, h2⟩
  | succ n ih =>
    unfold explore_loop
    split
    · rename_i hs
      have hc := h.core
      rw [hs] at hc
      exact ⟨hc, hs⟩
    · rename_i v rest hs
      exact ih _ (mid_finish (foldl_explore_edge_mid hg (inner_pop h hs)))

/-! ### The vertex loop -/

theorem outer_start {g : ugraph} {labels : List Int} {i : Nat} {st : rag_state}
    (hg : valid_graph g) (h : Outer g labels i st) (hi : i < num_vertices g)
    (hu : st.vertex_map.getD i 0 = invalid_index) :
    Inner g labels (labels.getD i 0) i (num_vertices g)
      { st with
        s := [i]
        vertex_map := st.vertex_map.set i st.num_regions
        rag := add_vertex st.rag } := by
  have hkn : st.num_regions < num_vertices g := lt_of_le_of_lt h.k_le hi
  have hni := hg.2.1
  have hk : st.num_regions ≠ invalid_index := by omega
  have hself : (st.vertex_map.set i st.num_regions).getD i 0 = st.num_regions :=
    getD_set_self _ _ _ (by rw [h.vm_len]; exact hi)
  have hne : ∀ x, x ≠ i →
      (st.vertex_map.set i st.num_regions).getD x 0 = st.vertex_map.getD x 0 :=
    fun x hx => getD_set_ne _ _ _ _ (Ne.symm hx)
  have hold : ∀ x, st.vertex_map.getD x 0 ≠ invalid_index →
      (st.vertex_map.set i st.num_regions).getD x 0 = st.vertex_map.getD x 0 := by
    intro x hx
    apply hne
    intro hxw
    rw [hxw] at hx
    exact hx hu
  -- a vertex read below the current region id is an old one
  have hlow : ∀ x, x < num_vertices g →
      (st.vertex_map.set i st.num_regions).getD x 0 ≠ invalid_index → x ≠ i →
      st.vertex_map.getD x 0 ≠ invalid_index ∧ st.vertex_map.getD x 0 < st.num_regions := by
    intro x hx h1 hxi
    rw [hne x hxi] at h1
    exact ⟨h1, h.vm_lt x hx h1⟩
  have hcur : ∀ x, x < num_vertices g →
      (st.vertex_map.set i st.num_regions).getD x 0 = st.num_regions → x = i := by
    intro x hx h1
    by_contra hxi
    have := hlow x hx (by rw [h1]; exact hk) hxi
    rw [hne x hxi] at h1
    omega
  have hold_ne : ∀ x, (st.vertex_map.set i st.num_regions).getD x 0 < st.num_regions →
      x ≠ i := by
    intro x h1 e
    rw [e, hself] at h1
    omega
  refine ⟨⟨?_, h.em_len, hkn, ?_, ?_, ?_, ?_, ?_, ?_, ?_, ?_, ⟨hi, hself⟩, ?_, h.rag_ne,
    h.canon, ?_, ?_, ?_, h.em_onto⟩, ?_⟩
  · show (st.vertex_map.set i st.num_regions).length = _
    rw [List.length_set]; exact h.vm_len
  · intro x hx hxi
    show (st.vertex_map.set i st.num_regions).getD x 0 ≤ st.num_regions
    by_cases hxw : x = i
    · rw [hxw, hself]
    · have := hlow x hx hxi hxw
      rw [hne x hxw]; omega
  · intro x hx hxk
    rw [hcur x hx hxk]
  · intro x hx hxk
    rw [hcur x hx hxk]
  · intro a b ha hb hak hab
    change (st.vertex_map.set i st.num_regions).getD a 0 < st.num_regions at hak
    change (st.vertex_map.set i st.num_regions).getD a 0 =
      (st.vertex_map.set i st.num_regions).getD b 0 at hab
    have haw := hold_ne a hak
    have hbw := hold_ne b (by rw [← hab]; exact hak)
    rw [hne a haw] at hak hab
    rw [hne b hbw] at hab
    exact h.sound a b ha hb (by omega) hab
  · intro a b hak hstep
    change (st.vertex_map.set i st.num_regions).getD a 0 < st.num_regions at hak
    show (st.vertex_map.set i st.num_regions).getD b 0 =
      (st.vertex_map.set i st.num_regions).getD a 0
    have haw := hold_ne a hak
    rw [hne a haw] at hak ⊢
    have := h.closed a b (by omega) hstep
    rw [hold b (by omega)]; exact this
  · intro a b hak hap hstep
    change (st.vertex_map.set i st.num_regions).getD a 0 = st.num_regions at hak
    change a ∉ [i] at hap
    exfalso
    have haw : a ≠ i := by
      intro e; apply hap; rw [e]; simp
    rw [hne a haw] at hak
    have := adjacent_lt hg hstep.1
    have := h.vm_lt a this.1 (by omega)
    omega
  · intro x hx
    change x ∈ [i] at hx
    simp at hx
    rw [hx]
    exact ⟨hi, hself⟩
  · intro r hr
    change r < st.num_regions at hr
    obtain ⟨x, hx, hxr⟩ := h.onto r hr
    refine ⟨x, hx, ?_⟩
    show (st.vertex_map.set i st.num_regions).getD x 0 = r
    rw [hold x (by omega)]; exact hxr
  · show st.rag.vertex_count + 1 = st.num_regions + 1
    rw [h.rag_nv]
  · intro id a b h1
    have := h.rag_lt id a b h1
    exact ⟨this.1, Nat.le_of_lt this.2⟩
  · intro e he hem
    have := h.em_sound e he hem
    show (st.vertex_map.set i st.num_regions).getD (edge e g).1 0 ≠ invalid_index ∧
      (st.vertex_map.set i st.num_regions).getD (edge e g).2 0 ≠ invalid_index ∧
      (st.vertex_map.set i st.num_regions).getD (edge e g).1 0 ≠
        (st.vertex_map.set i st.num_regions).getD (edge e g).2 0 ∧
      st.rag.edge_list[st.edge_map.getD e 0]? =
        some (min ((st.vertex_map.set i st.num_regions).getD (edge e g).1 0)
          ((st.vertex_map.set i st.num_regions).getD (edge e g).2 0),
            max ((st.vertex_map.set i st.num_regions).getD (edge e g).1 0)
          ((st.vertex_map.set i st.num_regions).getD (edge e g).2 0))
    rw [hold _ this.1, hold _ this.2.1]
    exact this
  · intro e he h1 h2 h3 h4 h5
    change (st.vertex_map.set i st.num_regions).getD (edge e g).1 0 ≠ invalid_index at h1
    change (st.vertex_map.set i st.num_regions).getD (edge e g).2 0 ≠ invalid_index at h2
    change (edge e g).1 ∉ [i] at h3
    change (edge e g).2 ∉ [i] at h4
    have h3w : (edge e g).1 ≠ i := by intro e'; apply h3; rw [e']; simp
    have h4w : (edge e g).2 ≠ i := by intro e'; apply h4; rw [e']; simp
    rw [hne _ h3w] at h1
    rw [hne _ h4w] at h2
    exact h.em_complete e he h1 h2 h5
  · show (st.vertex_map.set i st.num_regions).count invalid_index + [i].length ≤ _
    have h1 := count_set_invalid st.vertex_map i st.num_regions
      (by rw [h.vm_len]; exact hi) hu hk
    have h2 : st.vertex_map.count invalid_index ≤ st.vertex_map.length :=
      List.count_le_length _ _
    rw [h.vm_len] at h2
    simp only [List.length_cons, List.length_nil]
    omega

theorem outer_finish {g : ugraph} {labels : List Int} {L : Int} {i : Nat}
    {st : rag_state} (hg : valid_graph g) (hc : Core g labels L i [] st)
    (hs : st.s = []) (hki : st.num_regions ≤ i)
    (hvis : ∀ v, v < i → v < num_vertices g → st.vertex_map.getD v 0 ≠ invalid_index) :
    Outer g labels (i + 1) { st with num_regions := st.num_regions + 1 } := by
  have hkn := hc.k_lt
  have hni := hg.2.1
  refine ⟨hc.vm_len, hc.em_len, ?_, hs, ?_, ?_, ?_, ?_, ?_, hc.rag_nv, hc.rag_ne, hc.canon,
    ?_, hc.em_sound, ?_, hc.em_onto⟩
  · show st.num_regions + 1 ≤ i + 1
    omega
  · intro v hv hvi
    show st.vertex_map.getD v 0 < st.num_regions + 1
    have := hc.vm_le v hv hvi
    omega
  · intro v hv hvn
    show st.vertex_map.getD v 0 ≠ invalid_index
    rcases Nat.lt_or_eq_of_le (Nat.le_of_lt_succ hv) with h1 | h1
    · exact hvis v h1 hvn
    · rw [h1, hc.start_ok.2]; omega
  · intro u v hu hv hui huv
    change st.vertex_map.getD u 0 ≠ invalid_index at hui
    change st.vertex_map.getD u 0 = st.vertex_map.getD v 0 at huv
    have hle := hc.vm_le u hu hui
    rcases Nat.lt_or_eq_of_le hle with h1 | h1
    · exact hc.old_sound u v hu hv h1 huv
    · exact Relation.ReflTransGen.trans (reach_symm (hc.cur_path u hu h1))
        (hc.cur_path v hv (by rw [← huv]; exact h1))
  · intro u w hui hstep
    change st.vertex_map.getD u 0 ≠ invalid_index at hui
    show st.vertex_map.getD w 0 = st.vertex_map.getD u 0
    have hu := (adjacent_lt hg hstep.1).1
    have hle := hc.vm_le u hu hui
    rcases Nat.lt_or_eq_of_le hle with h1 | h1
    · exact hc.old_closed u w h1 hstep
    · rw [h1]; exact hc.cur_closed u w h1 (by simp) hstep
  · intro r hr
    change r < st.num_regions + 1 at hr
    rcases Nat.lt_or_eq_of_le (Nat.le_of_lt_succ hr) with h1 | h1
    · exact hc.old_onto r h1
    · exact ⟨i, hc.start_ok.1, by rw [h1]; exact hc.start_ok.2⟩
  · intro id a b h1
    have := hc.rag_lt id a b h1
    show a < b ∧ b < st.num_regions + 1
    omega
  · intro e he h1 h2 h5
    exact hc.em_complete e he h1 h2 (by simp) (by simp) h5

theorem explore_component_outer {g : ugraph} {labels : List Int} {i : Nat}
    {st : rag_state} (hg : valid_graph g) (h : Outer g labels i st)
    (hi : i < num_vertices g) (hu : st.vertex_map.getD i 0 = invalid_index) :
    Outer g labels (i + 1) (explore_component g labels st i) := by
  have h1 := outer_start hg h hi hu
  have h2 := explore_loop_inner hg _ _ h1
  unfold explore_component
  simp only []
  refine outer_finish hg h2.1 h2.2 ?_ ?_
  · rw [explore_loop_num_regions]; exact h.k_le
  · intro v hv hvn
    have h3 := h.visited v hv hvn
    have h4 : (st.vertex_map.set i st.num_regions).getD v 0 = st.vertex_map.getD v 0 :=
      getD_set_ne _ _ _ _ (by omega)
    rw [explore_loop_assigned _ _ _ _ _ _ (by show (st.vertex_map.set _ _).getD v 0 ≠ _
                                              rw [h4]; exact h3)]
    show (st.vertex_map.set _ _).getD v 0 ≠ _
    rw [h4]; exact h3

theorem visit_vertex_outer {g : ugraph} {labels : List Int} {i : Nat}
    {st : rag_state} (hg : valid_graph g) (h : Outer g labels i st)
    (hi : i < num_vertices g) :
    Outer g labels (i + 1) (visit_vertex g labels st i) := by
  unfold visit_vertex
  split
  · rename_i hv
    refine ⟨h.vm_len, h.em_len, Nat.le_succ_of_le h.k_le, h.stack_nil, h.vm_lt, ?_, h.sound,
      h.closed, h.onto, h.rag_nv, h.rag_ne, h.canon, h.rag_lt, h.em_sound, h.em_complete,
      h.em_onto⟩
    intro v hvi hvn
    rcases Nat.lt_or_eq_of_le (Nat.le_of_lt_succ hvi) with h1 | h1
    · exact h.visited v h1 hvn
    · rw [h1]; exact hv
  · rename_i hv
    exact explore_component_outer hg h hi (by simpa using hv)

theorem initial_state_outer {g : ugraph} (hg : valid_graph g) (labels : List Int) :
    Outer g labels 0 (initial_state g) := by
  have hvm : ∀ v, (initial_state g).vertex_map.getD v 0 ≠ invalid_index →
      v ≥ num_vertices g := by
    intro v hv
    by_contra hlt
    apply hv
    show (List.replicate (num_vertices g) invalid_index).getD v 0 = invalid_index
    rw [List.getD_eq_getElem _ _ (by simp; omega)]
    simp
  have hem : ∀ e, (initial_state g).edge_map.getD e 0 ≠ invalid_index →
      e ≥ num_edges g := by
    intro v hv
    by_contra hlt
    apply hv
    show (List.replicate (num_edges g) invalid_index).getD v 0 = invalid_index
    rw [List.getD_eq_getElem _ _ (by simp; omega)]
    simp
  refine ⟨by simp [initial_state], by simp [initial_state], Nat.le_refl _, rfl, ?_, ?_, ?_,
    ?_, ?_, rfl, rfl, ?_, ?_, ?_, ?_, ?_⟩
  · intro v hv hvi; have := hvm v hvi; omega
  · intro v hv; omega
  · intro u v hu _ hui; have := hvm u hui; omega
  · intro u w hui hstep
    exfalso
    have h1 := hvm u hui
    have h2 := (adjacent_lt hg hstep.1).1
    omega
  · intro r hr; exact absurd hr (Nat.not_lt_zero r)
  · intro a b id
    show List.lookup (a, b) [] = some id ↔ ([] : List (Nat × Nat))[id]? = some (a, b)
    simp
  · intro id a b h1
    change ([] : List (Nat × Nat))[id]? = some (a, b) at h1
    simp at h1
  · intro e he hei; have := hem e hei; omega
  · intro e he h1
    have h2 := hvm _ h1
    have h3 := (edge_endpoints_lt hg he).1
    omega
  · intro id hid; exact absurd hid (Nat.not_lt_zero id)

/-- The budget of `num_vertices(graph)` iterations is enough: when
`explore_component` is started at an unassigned vertex, its `while` loop
stops on an empty stack. -/
theorem explore_component_stack_empty {g : ugraph} {labels : List Int} {i : Nat}
    {st : rag_state} (hg : valid_graph g) (h : Outer g labels i st)
    (hi : i < num_vertices g) (hu : st.vertex_map.getD i 0 = invalid_index) :
    (explore_component g labels st i).s = [] :=
  (explore_loop_inner hg _ _ (outer_start hg h hi hu)).2

/-- Once the stack is empty, more iterations of the `while` loop change
nothing. -/
theorem explore_loop_stable (g : ugraph) (labels : List Int) (L : Int) (fuel k : Nat)
    (st : rag_state) (h : (explore_loop g labels L fuel st).s = []) :
    explore_loop g labels L (fuel + k) st = explore_loop g labels L fuel st := by
  induction fuel generalizing st with
  | zero =>
    have hs : st.s = [] := h
    cases k with
    | zero => rfl
    | succ k =>
      show explore_loop g labels L (0 + (k + 1)) st = st
      rw [Nat.zero_add]
      unfold explore_loop
      rw [hs]
  | succ n ih =>
    rw [Nat.add_right_comm]
    unfold explore_loop
    split
    · rfl
    · rename_i v rest hs
      unfold explore_loop at h
      rw [hs] at h
      exact ih _ h

theorem run_vertices_succ (g : ugraph) (labels : List Int) (i : Nat) :
    run_vertices g labels (List.range (i + 1)) =
      visit_vertex g labels (run_vertices g labels (List.range i)) i := by
  unfold run_vertices
  rw [List.range_succ, List.foldl_append]
  rfl

theorem run_vertices_outer {g : ugraph} (hg : valid_graph g) (labels : List Int) (i : Nat)
    (hi : i ≤ num_vertices g) :
    Outer g labels i (run_vertices g labels (List.range i)) := by
  induction i with
  | zero => exact initial_state_outer hg labels
  | succ n ih =>
    rw [run_vertices_succ]
    exact visit_vertex_outer hg (ih (Nat.le_of_succ_le hi)) hi

theorem final_outer {g : ugraph} (hg : valid_graph g) (labels : List Int) :
    Outer g labels (num_vertices g) (run_vertices g labels (vertex_iterator g)) :=
  run_vertices_outer hg labels _ (Nat.le_refl _)

theorem make_region_adjacency_graph_ok {g : ugraph} {labels : List Int}
    (hl : labels.length = num_vertices g) :
    make_region_adjacency_graph g labels =
      Except.ok
        { rag := (run_vertices g labels (vertex_iterator g)).rag
          vertex_map := (run_vertices g labels (vertex_iterator g)).vertex_map
          edge_map := (run_vertices g labels (vertex_iterator g)).edge_map } := by
  unfold make_region_adjacency_graph
  rw [if_neg (by simpa using hl)]

/-! ### Same-label paths -/

theorem same_label_path_of_reach {g : ugraph} {labels : List Int} {u v : Nat}
    (h : Relation.ReflTransGen (same_label_step g labels) u v) :
    same_label_path g labels u v := by
  induction h using Relation.ReflTransGen.head_induction_on with
  | refl => exact ⟨[], List.Chain.nil, rfl, by simp⟩
  | @head a b hab _ ih =>
    obtain ⟨p, hp, hlast, hlab⟩ := ih
    refine ⟨b :: p, List.Chain.cons hab.1 hp, ?_, ?_⟩
    · rw [List.getLast?_cons_cons]; exact hlast
    · intro x hx
      rcases List.mem_cons.1 hx with e | e
      · rw [e]
      · rw [hlab x e, hab.2]

theorem reach_of_same_label_path {g : ugraph} {labels : List Int} {u v : Nat}
    (h : same_label_path g labels u v) :
    Relation.ReflTransGen (same_label_step g labels) u v := by
  obtain ⟨p, hp, hlast, hlab⟩ := h
  induction p generalizing u with
  | nil =>
    simp at hlast
    rw [hlast]
  | cons b t ih =>
    rw [List.getLast?_cons_cons] at hlast
    rw [List.chain_cons] at hp
    have hb : labels.getD b 0 = labels.getD u 0 := hlab b (by simp)
    refine Relation.ReflTransGen.head ⟨hp.1, hb.symm⟩ (ih hp.2 hlast ?_)
    intro x hx
    rw [hb]
    exact hlab x (List.mem_cons_of_mem _ hx)

theorem same_label_path_iff_reach {g : ugraph} {labels : List Int} {u v : Nat} :
    same_label_path g labels u v ↔ Relation.ReflTransGen (same_label_step g labels) u v :=
  ⟨reach_of_same_label_path, same_label_path_of_reach⟩

/-- At the end, two vertices are in one region exactly when a same-label path
joins them. -/
theorem outer_region_iff {g : ugraph} {labels : List Int} {st : rag_state}
    (h : Outer g labels (num_vertices g) st) {u v : Nat}
    (hu : u < num_vertices g) (hv : v < num_vertices g) :
    st.vertex_map.getD u 0 = st.vertex_map.getD v 0 ↔ same_label_path g labels u v := by
  rw [same_label_path_iff_reach]
  constructor
  · exact h.sound u v hu hv (h.visited u hu hu)
  · intro hp
    clear hv
    induction hp with
    | refl => rfl
    | @tail b c _ hbc ih =>
      have hb : st.vertex_map.getD b 0 ≠ invalid_index := by
        rw [← ih]; exact h.visited u hu hu
      rw [ih]
      exact (h.closed b c hb hbc).symm

/-- At the end, an edge is left unmapped exactly when its endpoints are in one
region. -/
theorem outer_unmapped_iff {g : ugraph} (hg : valid_graph g) {labels : List Int}
    {st : rag_state} (h : Outer g labels (num_vertices g) st) {e : Nat}
    (he : e < num_edges g) :
    st.edge_map.getD e 0 = invalid_index ↔
      st.vertex_map.getD (source (edge e g)) 0 = st.vertex_map.getD (target (edge e g)) 0 := by
  have hlt := edge_endpoints_lt hg he
  have h1 := h.visited _ hlt.1 hlt.1
  have h2 := h.visited _ hlt.2 hlt.2
  constructor
  · intro hem
    by_contra hne
    apply h.em_complete e he h1 h2 _ hem
    intro hlab
    apply hne
    have hstep : same_label_step g labels (edge e g).1 (edge e g).2 :=
      ⟨⟨e, he, Or.inl rfl⟩, hlab⟩
    exact (h.closed _ _ h1 hstep).symm
  · intro heq
    by_contra hem
    exact (h.em_sound e he hem).2.2.1 heq

/-! ### Reading the result -/

theorem edge_of_getElem? {g : ugraph} {i : Nat} {p : Nat × Nat}
    (h : g.edge_list[i]? = some p) : i < num_edges g ∧ edge i g = p := by
  have hlt := getElem?_some_lt _ _ _ h
  refine ⟨hlt, ?_⟩
  unfold edge
  rw [List.getD_eq_getElem?_getD, h]
  rfl

theorem getElem?_of_edge {g : ugraph} {i : Nat} (h : i < num_edges g) :
    g.edge_list[i]? = some (edge i g) := by
  unfold edge
  unfold num_edges at h
  rw [List.getD_eq_getElem _ _ h, List.getElem?_eq_getElem h]

theorem min_max_eq_of_sym2_eq {a b c d : Nat} (h : s(a, b) = s(c, d)) :
    (min a b, max a b) = (min c d, max c d) := by
  rcases Sym2.eq_iff.1 h with ⟨h1, h2⟩ | ⟨h1, h2⟩
  · rw [h1, h2]
  · rw [h1, h2, Nat.min_comm, Nat.max_comm]

theorem sym2_min_max (a b : Nat) : s(min a b, max a b) = s(a, b) := by
  rcases Nat.le_total a b with h | h
  · rw [Nat.min_eq_left h, Nat.max_eq_right h]
  · rw [Nat.min_eq_right h, Nat.max_eq_left h, Sym2.eq_swap]

/-- A mapped edge is mapped to the rag edge that joins the regions of its
endpoints. -/
theorem outer_mapped_edge {g : ugraph} {labels : List Int} {i : Nat} {st : rag_state}
    (h : Outer g labels i st) {e : Nat} (he : e < num_edges g)
    (hm : st.edge_map.getD e 0 ≠ invalid_index) :
    st.edge_map.getD e 0 < num_edges st.rag ∧
      s(source (edge (st.edge_map.getD e 0) st.rag),
          target (edge (st.edge_map.getD e 0) st.rag)) =
        s(st.vertex_map.getD (source (edge e g)) 0,
          st.vertex_map.getD (target (edge e g)) 0) := by
  have h1 := edge_of_getElem? (h.em_sound e he hm).2.2.2
  refine ⟨h1.1, ?_⟩
  rw [h1.2]
  exact sym2_min_max _ _

theorem outer_mapped_eq {g : ugraph} {labels : List Int} {i : Nat} {st : rag_state}
    (h : Outer g labels i st) {e1 e2 : Nat} (h1 : e1 < num_edges g)
    (h2 : e2 < num_edges g)
    (hm1 : st.edge_map.getD e1 0 ≠ invalid_index)
    (hm2 : st.edge_map.getD e2 0 ≠ invalid_index)
    (hp : s(st.vertex_map.getD (source (edge e1 g)) 0,
          st.vertex_map.getD (target (edge e1 g)) 0) =
        s(st.vertex_map.getD (source (edge e2 g)) 0,
          st.vertex_map.getD (target (edge e2 g)) 0)) :
    st.edge_map.getD e1 0 = st.edge_map.getD e2 0 := by
  have a1 := (h.em_sound e1 h1 hm1).2.2.2
  have a2 := (h.em_sound e2 h2 hm2).2.2.2
  have hmm := min_max_eq_of_sym2_eq hp
  unfold source target at hmm
  rw [hmm, ← h.canon] at a1
  rw [← h.canon, a1] at a2
  exact Option.some.inj a2

theorem outer_rag_edge_iff {g : ugraph} (hg : valid_graph g) {labels : List Int}
    {st : rag_state} (h : Outer g labels (num_vertices g) st) {a b : Nat} (hab : a ≠ b) :
    (∃ i, i < num_edges st.rag ∧
        s(source (edge i st.rag), target (edge i st.rag)) = s(a, b)) ↔
      ∃ e, e < num_edges g ∧
        s(st.vertex_map.getD (source (edge e g)) 0,
          st.vertex_map.getD (target (edge e g)) 0) = s(a, b) := by
  constructor
  · rintro ⟨i, hi, hs⟩
    have hiN : i < st.num_edges := by
      rw [← h.rag_ne]; exact hi
    obtain ⟨e, he, hei⟩ := h.em_onto i hiN
    have hN : st.num_edges ≤ num_edges g :=
      le_of_covered (fun e => st.edge_map.getD e 0) _ _ h.em_onto
    have hmi := hg.2.2
    have hm : st.edge_map.getD e 0 ≠ invalid_index := by omega
    have := (outer_mapped_edge h he hm).2
    rw [hei] at this
    exact ⟨e, he, by rw [← this]; exact hs⟩
  · rintro ⟨e, he, hs⟩
    have hne : st.vertex_map.getD (source (edge e g)) 0 ≠
        st.vertex_map.getD (target (edge e g)) 0 := by
      intro heq
      rw [heq] at hs
      rcases Sym2.eq_iff.1 hs with ⟨h1, h2⟩ | ⟨h1, h2⟩
      · exact hab (h1.symm.trans h2)
      · exact hab (h2.symm.trans h1)
    have hm : st.edge_map.getD e 0 ≠ invalid_index :=
      fun hc => hne ((outer_unmapped_iff hg h he).1 hc)
    have := outer_mapped_edge h he hm
    exact ⟨_, this.1, by rw [this.2]; exact hs⟩

theorem outer_rag_simple {g : ugraph} {labels : List Int} {n : Nat} {st : rag_state}
    (h : Outer g labels n st) :
    (∀ i, i < num_edges st.rag →
        source (edge i st.rag) ≠ target (edge i st.rag) ∧
        source (edge i st.rag) < num_vertices st.rag ∧
        target (edge i st.rag) < num_vertices st.rag) ∧
      ∀ i j, i < num_edges st.rag → j < num_edges st.rag →
        s(source (edge i st.rag), target (edge i st.rag)) =
          s(source (edge j st.rag), target (edge j st.rag)) → i = j := by
  have hord : ∀ i, i < num_edges st.rag →
      source (edge i st.rag) < target (edge i st.rag) ∧
        target (edge i st.rag) < st.num_regions := fun i hi =>
    h.rag_lt i _ _ (getElem?_of_edge hi)
  constructor
  · intro i hi
    have := hord i hi
    have hnv : num_vertices st.rag = st.num_regions := h.rag_nv
    omega
  · intro i j hi hj hs
    have hi' := hord i hi
    have hj' := hord j hj
    have heq : edge i st.rag = edge j st.rag := by
      rcases Sym2.eq_iff.1 hs with ⟨h1, h2⟩ | ⟨h1, h2⟩
      · exact Prod.ext h1 h2
      · omega
    have a1 := getElem?_of_edge hi
    have a2 := getElem?_of_edge hj
    rw [heq, ← h.canon] at a1
    rw [← h.canon, a1] at a2
    exact Option.some.inj a2

theorem run_vertices_assigned (g : ugraph) (labels : List Int) (i j v : Nat) (hij : i ≤ j)
    (hv : (run_vertices g labels (List.range i)).vertex_map.getD v 0 ≠ invalid_index) :
    (run_vertices g labels (List.range j)).vertex_map.getD v 0 =
      (run_vertices g labels (List.range i)).vertex_map.getD v 0 := by
  induction j with
  | zero =>
    have : i = 0 := by omega
    rw [this]
  | succ n ih =>
    rcases Nat.lt_or_eq_of_le hij with h1 | h1
    · have h2 := ih (Nat.le_of_lt_succ h1)
      rw [run_vertices_succ, visit_vertex_assigned _ _ _ _ _ (by rw [h2]; exact hv), h2]
    · rw [h1]

theorem components_eq_image {g : ugraph} {labels : List Int} {st : rag_state}
    (h : Outer g labels (num_vertices g) st) :
    components g labels =
      Set.image (fun r => {v | v < num_vertices g ∧ st.vertex_map.getD v 0 = r})
        (Finset.range st.num_regions : Set Nat) := by
  have hcomp : ∀ u, u < num_vertices g → component g labels u =
      {v | v < num_vertices g ∧ st.vertex_map.getD v 0 = st.vertex_map.getD u 0} := by
    intro u hu
    ext v
    constructor
    · rintro ⟨hv, hp⟩
      exact ⟨hv, ((outer_region_iff h hu hv).2 hp).symm⟩
    · rintro ⟨hv, hp⟩
      exact ⟨hv, (outer_region_iff h hu hv).1 hp.symm⟩
  ext c
  constructor
  · rintro ⟨u, hu, hc⟩
    refine ⟨st.vertex_map.getD u 0, ?_, ?_⟩
    · simpa using h.vm_lt u hu (h.visited u hu hu)
    · rw [hc, hcomp u hu]
  · rintro ⟨r, hr, hc⟩
    obtain ⟨u, hu, hur⟩ := h.onto r (by simpa using hr)
    refine ⟨u, hu, ?_⟩
    rw [hcomp u hu, hur]
    exact hc.symm

theorem components_ncard {g : ugraph} {labels : List Int} {st : rag_state}
    (h : Outer g labels (num_vertices g) st) :
    (components g labels).ncard = st.num_regions := by
  rw [components_eq_image h, Set.ncard_image_of_injOn, Set.ncard_coe_Finset, Finset.card_range]
  intro r hr r' _ heq
  obtain ⟨u, hu, hur⟩ := h.onto r (by simpa using hr)
  have hmem : u ∈ {v | v < num_vertices g ∧ st.vertex_map.getD v 0 = r} := ⟨hu, hur⟩
  have heq' : {v | v < num_vertices g ∧ st.vertex_map.getD v 0 = r} =
      {v | v < num_vertices g ∧ st.vertex_map.getD v 0 = r'} := heq
  rw [heq'] at hmem
  exact hur.symm.trans hmem.2

/-! ## Accumulators -/

open accumulator_detail

theorem marginal_accumulate_all_scalar {α : Type} (acc : acc_marginal_impl α)
    (h : acc.is_vectorial = false) (vs : List α) (x : α) (rest : List α) :
    acc.accumulate_all (scalar_values vs) (x :: rest) =
      some (vs.foldl (fun s v => acc.m_reducer v s) x :: rest) := by
  induction vs generalizing x with
  | nil => rfl
  | cons v t ih =>
    show (acc.accumulate [v] (x :: rest)).bind (acc.accumulate_all (scalar_values t)) = _
    have h1 : acc.accumulate [v] (x :: rest) = some (acc.m_reducer v x :: rest) := by
      unfold acc_marginal_impl.accumulate
      rw [h]; rfl
    rw [h1, Option.some_bind, ih]
    rfl

theorem marginal_accumulate_all_cell {α : Type} (acc : acc_marginal_impl α)
    (vs : List α) (x : α) :
    acc.accumulate_all (scalar_values vs) [x] =
      some [vs.foldl (fun s v => acc.m_reducer v s) x] := by
  cases h : acc.is_vectorial with
  | false => exact marginal_accumulate_all_scalar acc h vs x []
  | true =>
    induction vs generalizing x with
    | nil => rfl
    | cons v t ih =>
      show (acc.accumulate [v] [x]).bind (acc.accumulate_all (scalar_values t)) = _
      have h1 : acc.accumulate [v] [x] = some [acc.m_reducer v x] := by
        unfold acc_marginal_impl.accumulate
        rw [h]; rfl
      rw [h1, Option.some_bind, ih]
      rfl

/-- A cycle of a marginal accumulator in scalar mode folds the values into
the first cell, from the initial value, and leaves the other cells. -/
theorem marginal_cycle_scalar {α : Type} (acc : acc_marginal_impl α)
    (h : acc.is_vectorial = false) (vs : List α) (x : α) (rest : List α) :
    acc.cycle (scalar_values vs) (x :: rest) =
      some (vs.foldl (fun s v => acc.m_reducer v s) acc.m_init_value :: rest) := by
  unfold acc_marginal_impl.cycle
  have h1 : acc_marginal_impl.initialize acc (x :: rest) =
      some (acc.m_init_value :: rest) := by
    unfold acc_marginal_impl.initialize
    rw [h]; rfl
  rw [h1, Option.some_bind, marginal_accumulate_all_scalar acc h, Option.some_bind]
  rfl

/-- A cycle of a marginal accumulator on a single cell, in either mode. -/
theorem marginal_cycle_cell {α : Type} (acc : acc_marginal_impl α) (vs : List α) (x : α) :
    acc.cycle (scalar_values vs) [x] =
      some [vs.foldl (fun s v => acc.m_reducer v s) acc.m_init_value] := by
  unfold acc_marginal_impl.cycle
  have h1 : acc_marginal_impl.initialize acc [x] = some [acc.m_init_value] := by
    unfold acc_marginal_impl.initialize
    cases acc.is_vectorial <;> rfl
  rw [h1, Option.some_bind, marginal_accumulate_all_cell, Option.some_bind]
  rfl

theorem foldl_add_eq_sum {α : Type} [CommSemiring α] (vs : List α) (a : α) :
    vs.foldl (fun s v => v + s) a = a + vs.sum := by
  induction vs generalizing a with
  | nil => simp
  | cons v t ih => rw [List.foldl_cons, ih, List.sum_cons]; ring

theorem foldl_mul_eq_prod {α : Type} [CommSemiring α] (vs : List α) (a : α) :
    vs.foldl (fun s v => v * s) a = a * vs.prod := by
  induction vs generalizing a with
  | nil => simp
  | cons v t ih => rw [List.foldl_cons, ih, List.prod_cons]; ring

theorem std_min_eq_min {α : Type} [LinearOrder α] (a b : α) : std_min a b = min a b := by
  unfold std_min
  split
  · rename_i h; exact (min_eq_right (le_of_lt h)).symm
  · rename_i h; exact (min_eq_left (not_lt.1 h)).symm

theorem std_max_eq_max {α : Type} [LinearOrder α] (a b : α) : std_max a b = max a b := by
  unfold std_max
  split
  · rename_i h; exact (max_eq_right (le_of_lt h)).symm
  · rename_i h; exact (max_eq_left (not_lt.1 h)).symm

theorem foldl_std_min_spec {α : Type} [LinearOrder α] (vs : List α) (a : α) :
    (vs.foldl (fun s v => std_min v s) a = a ∨ vs.foldl (fun s v => std_min v s) a ∈ vs) ∧
      vs.foldl (fun s v => std_min v s) a ≤ a ∧
      ∀ v ∈ vs, vs.foldl (fun s v => std_min v s) a ≤ v := by
  induction vs generalizing a with
  | nil => simp
  | cons v t ih =>
    rw [List.foldl_cons]
    obtain ⟨h1, h2, h3⟩ := ih (std_min v a)
    rw [std_min_eq_min] at h1 h2 h3 ⊢
    refine ⟨?_, ?_, ?_⟩
    · rcases h1 with h1 | h1
      · rcases min_choice v a with h4 | h4
        · right; rw [h1, h4]; simp
        · left; rw [h1, h4]
      · right; exact List.mem_cons_of_mem _ h1
    · exact le_trans h2 (min_le_right _ _)
    · intro w hw
      rcases List.mem_cons.1 hw with e | e
      · rw [e]; exact le_trans h2 (min_le_left _ _)
      · exact h3 w e

theorem foldl_std_max_spec {α : Type} [LinearOrder α] (vs : List α) (a : α) :
    (vs.foldl (fun s v => std_max v s) a = a ∨ vs.foldl (fun s v => std_max v s) a ∈ vs) ∧
      a ≤ vs.foldl (fun s v => std_max v s) a ∧
      ∀ v ∈ vs, v ≤ vs.foldl (fun s v => std_max v s) a := by
  induction vs generalizing a with
  | nil => simp
  | cons v t ih =>
    rw [List.foldl_cons]
    obtain ⟨h1, h2, h3⟩ := ih (std_max v a)
    rw [std_max_eq_max] at h1 h2 h3 ⊢
    refine ⟨?_, ?_, ?_⟩
    · rcases h1 with h1 | h1
      · rcases max_choice v a with h4 | h4
        · right; rw [h1, h4]; simp
        · left; rw [h1, h4]
      · right; exact List.mem_cons_of_mem _ h1
    · exact le_trans (le_max_right _ _) h2
    · intro w hw
      rcases List.mem_cons.1 hw with e | e
      · rw [e]; exact le_trans (le_max_left _ _) h2
      · exact h3 w e

/-- The fold of `std::min` from the top of the type is the top on the empty
sequence, and otherwise one of the values, below all of them. -/
theorem foldl_std_min_top {α : Type} [LinearOrder α] [BoundedOrder α] (vs : List α) :
    (vs = [] → vs.foldl (fun s v => std_min v s) ⊤ = ⊤) ∧
      (vs ≠ [] → vs.foldl (fun s v => std_min v s) ⊤ ∈ vs) ∧
      ∀ v ∈ vs, vs.foldl (fun s v => std_min v s) ⊤ ≤ v := by
  obtain ⟨h1, _, h3⟩ := foldl_std_min_spec vs (⊤ : α)
  refine ⟨fun e => by rw [e]; rfl, ?_, h3⟩
  intro hne
  rcases h1 with h1 | h1
  · obtain ⟨w, hw⟩ := List.exists_mem_of_ne_nil vs hne
    have h4 := h3 w hw
    rw [h1] at h4 ⊢
    rw [top_le_iff.1 h4] at hw
    exact hw
  · exact h1

theorem foldl_std_max_bot {α : Type} [LinearOrder α] [BoundedOrder α] (vs : List α) :
    (vs = [] → vs.foldl (fun s v => std_max v s) ⊥ = ⊥) ∧
      (vs ≠ [] → vs.foldl (fun s v => std_max v s) ⊥ ∈ vs) ∧
      ∀ v ∈ vs, v ≤ vs.foldl (fun s v => std_max v s) ⊥ := by
  obtain ⟨h1, _, h3⟩ := foldl_std_max_spec vs (⊥ : α)
  refine ⟨fun e => by rw [e]; rfl, ?_, h3⟩
  intro hne
  rcases h1 with h1 | h1
  · obtain ⟨w, hw⟩ := List.exists_mem_of_ne_nil vs hne
    have h4 := h3 w hw
    rw [h1] at h4 ⊢
    rw [le_bot_iff.1 h4] at hw
    exact hw
  · exact h1

theorem mean_accumulate_all_scalar {α : Type} [Add α] (c : Nat) (vs : List α) (x : α)
    (rest : List α) :
    acc_mean_impl.accumulate_all (scalar_values vs)
        (({ is_vectorial := false, m_counter := c } : acc_mean_impl), x :: rest) =
      some ({ is_vectorial := false, m_counter := c + vs.length },
        vs.foldl (fun s v => s + v) x :: rest) := by
  induction vs generalizing x c with
  | nil => rfl
  | cons v t ih =>
    show (acc_mean_impl.accumulate { is_vectorial := false, m_counter := c } [v]
      (x :: rest)).bind (acc_mean_impl.accumulate_all (scalar_values t)) = _
    have h1 : acc_mean_impl.accumulate { is_vectorial := false, m_counter := c } [v]
        (x :: rest) = some ({ is_vectorial := false, m_counter := c + 1 }, (x + v) :: rest) :=
      rfl
    rw [h1, Option.some_bind, ih]
    simp only [List.length_cons, List.foldl_cons]
    congr 3
    omega

theorem mean_accumulate_all_cell {α : Type} [Add α] (vectorial : Bool) (c : Nat)
    (vs : List α) (x : α) :
    acc_mean_impl.accumulate_all (scalar_values vs)
        (({ is_vectorial := vectorial, m_counter := c } : acc_mean_impl), [x]) =
      some ({ is_vectorial := vectorial, m_counter := c + vs.length },
        [vs.foldl (fun s v => s + v) x]) := by
  cases vectorial with
  | false => exact mean_accumulate_all_scalar c vs x []
  | true =>
    induction vs generalizing x c with
    | nil => rfl
    | cons v t ih =>
      show (acc_mean_impl.accumulate { is_vectorial := true, m_counter := c } [v]
        [x]).bind (acc_mean_impl.accumulate_all (scalar_values t)) = _
      have h1 : acc_mean_impl.accumulate { is_vectorial := true, m_counter := c } [v]
          [x] = some ({ is_vectorial := true, m_counter := c + 1 }, [x + v]) := rfl
      rw [h1, Option.some_bind, ih]
      simp only [List.length_cons, List.foldl_cons]
      congr 3
      omega

theorem foldl_add_right_eq_sum {α : Type} [AddMonoid α] (vs : List α) (a : α) :
    vs.foldl (fun s v => s + v) a = a + vs.sum := by
  induction vs generalizing a with
  | nil => simp
  | cons v t ih => rw [List.foldl_cons, ih, List.sum_cons, add_assoc]

/-- A cycle of a freshly made mean accumulator in scalar mode. -/
theorem mean_scalar_cycle {α : Type} [AddMonoid α] [counter_div α] (vs : List α)
    (hvs : vs ≠ []) (x : α) (rest : List α) :
    (accumulator_mean.make_accumulator false).cycle (scalar_values vs) (x :: rest) =
      some (counter_div.div vs.sum vs.length :: rest) := by
  unfold acc_mean_impl.cycle
  have h1 : acc_mean_impl.initialize (accumulator_mean.make_accumulator false) (x :: rest) =
      some (({ is_vectorial := false, m_counter := 0 } : acc_mean_impl), (0 : α) :: rest) :=
    rfl
  rw [h1, Option.some_bind, mean_accumulate_all_scalar, Option.some_bind]
  have hlen : vs.length ≠ 0 := fun e => hvs (List.eq_nil_of_length_eq_zero e)
  simp only [acc_mean_impl.finalize, div_cell, Nat.zero_add, if_neg hlen, Option.map_some',
    foldl_add_right_eq_sum, zero_add]
  rfl

/-- A cycle of a freshly made mean accumulator on a single cell, in either
mode. -/
theorem mean_cell_cycle {α : Type} [AddMonoid α] [counter_div α] (vectorial : Bool)
    (vs : List α) (hvs : vs ≠ []) (x : α) :
    (accumulator_mean.make_accumulator vectorial).cycle (scalar_values vs) [x] =
      some [counter_div.div vs.sum vs.length] := by
  cases vectorial with
  | false => exact mean_scalar_cycle vs hvs x []
  | true =>
    unfold acc_mean_impl.cycle
    have h1 : acc_mean_impl.initialize (accumulator_mean.make_accumulator true) [x] =
        some (({ is_vectorial := true, m_counter := 0 } : acc_mean_impl), [(0 : α)]) := rfl
    rw [h1, Option.some_bind, mean_accumulate_all_cell, Option.some_bind]
    have hlen : vs.length ≠ 0 := fun e => hvs (List.eq_nil_of_length_eq_zero e)
    simp only [acc_mean_impl.finalize, finalize_loop, div_cell, Nat.zero_add, if_neg hlen,
      Option.map_some', Option.some_bind, foldl_add_right_eq_sum, zero_add]
    rfl


/-! ## Claims on the region adjacency graph -/

/-- C1: for a well-formed graph with one label per vertex and two vertices
`u`, `v`, `make_region_adjacency_graph` returns a result in which
`vertex_map[u] == vertex_map[v]` if and only if a path all of whose vertices
carry the same label joins `u` and `v`. -/
theorem vertex_map_eq_iff_same_label_path (g : ugraph) (vertex_labels : List Int)
    (hg : valid_graph g) (hl : vertex_labels.length = num_vertices g) (u v : Nat)
    (hu : u < num_vertices g) (hv : v < num_vertices g) :
    ∃ r, make_region_adjacency_graph g vertex_labels = Except.ok r ∧
      (r.vertex_map.getD u 0 = r.vertex_map.getD v 0 ↔
        same_label_path g vertex_labels u v) :=
  ⟨_, make_region_adjacency_graph_ok hl,
    outer_region_iff (final_outer hg vertex_labels) hu hv⟩

/-- Witness of C1: the vertices 0 and 3 of the triangle graph, both labelled 1
and not adjacent. -/
theorem vertex_map_eq_iff_same_label_path_witness :
    valid_graph triangle_graph ∧ [1, 1, 2, (1 : Int)].length = num_vertices triangle_graph ∧
      0 < num_vertices triangle_graph ∧ 3 < num_vertices triangle_graph ∧
      ∃ r, make_region_adjacency_graph triangle_graph [1, 1, 2, 1] = Except.ok r ∧
        (r.vertex_map.getD 0 0 = r.vertex_map.getD 3 0 ↔
          same_label_path triangle_graph [1, 1, 2, 1] 0 3) :=
  ⟨by decide, by decide, by decide, by decide,
    vertex_map_eq_iff_same_label_path triangle_graph [1, 1, 2, 1] (by decide) (by decide)
      0 3 (by decide) (by decide)⟩

/-- C2: for a well-formed graph with valid labels and every input edge index
`e`, `edge_map[e]` is `invalid_index` if and only if
`vertex_map[source(e)] == vertex_map[target(e)]`. -/
theorem edge_map_invalid_iff_same_region (g : ugraph) (vertex_labels : List Int)
    (hg : valid_graph g) (hl : vertex_labels.length = num_vertices g) (e : Nat)
    (he : e < num_edges g) :
    ∃ r, make_region_adjacency_graph g vertex_labels = Except.ok r ∧
      (r.edge_map.getD e 0 = invalid_index ↔
        r.vertex_map.getD (source (edge e g)) 0 =
          r.vertex_map.getD (target (edge e g)) 0) :=
  ⟨_, make_region_adjacency_graph_ok hl,
    outer_unmapped_iff hg (final_outer hg vertex_labels) he⟩

/-- Witness of C2: the edge of index 1 of the graph with a self-loop and
parallel edges. -/
theorem edge_map_invalid_iff_same_region_witness :
    valid_graph loop_graph ∧ [1, 2, 1, (2 : Int)].length = num_vertices loop_graph ∧
      1 < num_edges loop_graph ∧
      ∃ r, make_region_adjacency_graph loop_graph [1, 2, 1, 2] = Except.ok r ∧
        (r.edge_map.getD 1 0 = invalid_index ↔
          r.vertex_map.getD (source (edge 1 loop_graph)) 0 =
            r.vertex_map.getD (target (edge 1 loop_graph)) 0) :=
  ⟨by decide, by decide, by decide,
    edge_map_invalid_iff_same_region loop_graph [1, 2, 1, 2] (by decide) (by decide)
      1 (by decide)⟩

/-- C3: for a well-formed graph with valid labels, two mapped input edges
whose endpoints are mapped to the same unordered pair of regions have the
same `edge_map` entry. -/
theorem edge_map_eq_of_same_region_pair (g : ugraph) (vertex_labels : List Int)
    (hg : valid_graph g) (hl : vertex_labels.length = num_vertices g) (e1 e2 : Nat)
    (h1 : e1 < num_edges g) (h2 : e2 < num_edges g) :
    ∃ r, make_region_adjacency_graph g vertex_labels = Except.ok r ∧
      (r.edge_map.getD e1 0 ≠ invalid_index → r.edge_map.getD e2 0 ≠ invalid_index →
        s(r.vertex_map.getD (source (edge e1 g)) 0,
            r.vertex_map.getD (target (edge e1 g)) 0) =
          s(r.vertex_map.getD (source (edge e2 g)) 0,
            r.vertex_map.getD (target (edge e2 g)) 0) →
        r.edge_map.getD e1 0 = r.edge_map.getD e2 0) :=
  ⟨_, make_region_adjacency_graph_ok hl,
    fun hm1 hm2 hp => outer_mapped_eq (final_outer hg vertex_labels) h1 h2 hm1 hm2 hp⟩

/-- Witness of C3: the parallel edges of index 1 and 5. -/
theorem edge_map_eq_of_same_region_pair_witness :
    valid_graph loop_graph ∧ [1, 2, 1, (2 : Int)].length = num_vertices loop_graph ∧
      1 < num_edges loop_graph ∧ 5 < num_edges loop_graph ∧
      ∃ r, make_region_adjacency_graph loop_graph [1, 2, 1, 2] = Except.ok r ∧
        (r.edge_map.getD 1 0 ≠ invalid_index → r.edge_map.getD 5 0 ≠ invalid_index →
          s(r.vertex_map.getD (source (edge 1 loop_graph)) 0,
              r.vertex_map.getD (target (edge 1 loop_graph)) 0) =
            s(r.vertex_map.getD (source (edge 5 loop_graph)) 0,
              r.vertex_map.getD (target (edge 5 loop_graph)) 0) →
          r.edge_map.getD 1 0 = r.edge_map.getD 5 0) :=
  ⟨by decide, by decide, by decide, by decide,
    edge_map_eq_of_same_region_pair loop_graph [1, 2, 1, 2] (by decide) (by decide)
      1 5 (by decide) (by decide)⟩

/-- C4: for a well-formed graph with valid labels, (a) a mapped input edge is
mapped to a rag edge whose endpoints are the regions of its own endpoints,
and (b) for distinct regions `a`, `b` the rag has an edge between them if and
only if some input edge has one endpoint mapped to `a` and the other to `b`. -/
theorem rag_edges_eq_adjacent_region_pairs (g : ugraph) (vertex_labels : List Int)
    (hg : valid_graph g) (hl : vertex_labels.length = num_vertices g) :
    ∃ r, make_region_adjacency_graph g vertex_labels = Except.ok r ∧
      (∀ e, e < num_edges g → r.edge_map.getD e 0 ≠ invalid_index →
        r.edge_map.getD e 0 < num_edges r.rag ∧
          s(source (edge (r.edge_map.getD e 0) r.rag),
              target (edge (r.edge_map.getD e 0) r.rag)) =
            s(r.vertex_map.getD (source (edge e g)) 0,
              r.vertex_map.getD (target (edge e g)) 0)) ∧
      ∀ a b, a ≠ b →
        ((∃ i, i < num_edges r.rag ∧
            s(source (edge i r.rag), target (edge i r.rag)) = s(a, b)) ↔
          ∃ e, e < num_edges g ∧
            s(r.vertex_map.getD (source (edge e g)) 0,
              r.vertex_map.getD (target (edge e g)) 0) = s(a, b)) :=
  ⟨_, make_region_adjacency_graph_ok hl,
    fun _ he hm => outer_mapped_edge (final_outer hg vertex_labels) he hm,
    fun _ _ hab => outer_rag_edge_iff hg (final_outer hg vertex_labels) hab⟩

/-- Witness of C4: the graph with a self-loop and parallel edges. -/
theorem rag_edges_eq_adjacent_region_pairs_witness :
    valid_graph loop_graph ∧ [1, 2, 1, (2 : Int)].length = num_vertices loop_graph ∧
      ∃ r, make_region_adjacency_graph loop_graph [1, 2, 1, 2] = Except.ok r ∧
        (∀ e, e < num_edges loop_graph → r.edge_map.getD e 0 ≠ invalid_index →
          r.edge_map.getD e 0 < num_edges r.rag ∧
            s(source (edge (r.edge_map.getD e 0) r.rag),
                target (edge (r.edge_map.getD e 0) r.rag)) =
              s(r.vertex_map.getD (source (edge e loop_graph)) 0,
                r.vertex_map.getD (target (edge e loop_graph)) 0)) ∧
        ∀ a b, a ≠ b →
          ((∃ i, i < num_edges r.rag ∧
              s(source (edge i r.rag), target (edge i r.rag)) = s(a, b)) ↔
            ∃ e, e < num_edges loop_graph ∧
              s(r.vertex_map.getD (source (edge e loop_graph)) 0,
                r.vertex_map.getD (target (edge e loop_graph)) 0) = s(a, b)) :=
  ⟨by decide, by decide,
    rag_edges_eq_adjacent_region_pairs loop_graph [1, 2, 1, 2] (by decide) (by decide)⟩

/-- C5: for a well-formed input graph (self-loops and parallel edges
allowed) with valid labels, the returned rag is a simple graph: every rag
edge joins two different vertices of the rag, and no two distinct rag edges
join the same unordered pair of regions. -/
theorem rag_is_simple (g : ugraph) (vertex_labels : List Int)
    (hg : valid_graph g) (hl : vertex_labels.length = num_vertices g) :
    ∃ r, make_region_adjacency_graph g vertex_labels = Except.ok r ∧
      (∀ i, i < num_edges r.rag →
        source (edge i r.rag) ≠ target (edge i r.rag) ∧
        source (edge i r.rag) < num_vertices r.rag ∧
        target (edge i r.rag) < num_vertices r.rag) ∧
      ∀ i j, i < num_edges r.rag → j < num_edges r.rag →
        s(source (edge i r.rag), target (edge i r.rag)) =
          s(source (edge j r.rag), target (edge j r.rag)) → i = j :=
  ⟨_, make_region_adjacency_graph_ok hl, outer_rag_simple (final_outer hg vertex_labels)⟩

/-- Witness of C5: the graph with a self-loop and parallel edges. -/
theorem rag_is_simple_witness :
    valid_graph loop_graph ∧ [1, 2, 1, (2 : Int)].length = num_vertices loop_graph ∧
      ∃ r, make_region_adjacency_graph loop_graph [1, 2, 1, 2] = Except.ok r ∧
        (∀ i, i < num_edges r.rag →
          source (edge i r.rag) ≠ target (edge i r.rag) ∧
          source (edge i r.rag) < num_vertices r.rag ∧
          target (edge i r.rag) < num_vertices r.rag) ∧
        ∀ i j, i < num_edges r.rag → j < num_edges r.rag →
          s(source (edge i r.rag), target (edge i r.rag)) =
            s(source (edge j r.rag), target (edge j r.rag)) → i = j :=
  ⟨by decide, by decide, rag_is_simple loop_graph [1, 2, 1, 2] (by decide) (by decide)⟩

/-- C6: for a well-formed graph with valid labels every vertex `v` ends with
`vertex_map[v] != invalid_index` and `vertex_map[v] < num_vertices(rag)`, and
a region id is never overwritten once set: an entry that is set after the
vertex loop has visited the first `i` vertices has the same value in the
result, and neither one edge iteration nor one vertex iteration, from any
state, changes an entry that is set. -/
theorem vertex_assigned_once (g : ugraph) (vertex_labels : List Int)
    (hg : valid_graph g) (hl : vertex_labels.length = num_vertices g) :
    ∃ r, make_region_adjacency_graph g vertex_labels = Except.ok r ∧
      (∀ v, v < num_vertices g →
        r.vertex_map.getD v 0 ≠ invalid_index ∧
          r.vertex_map.getD v 0 < num_vertices r.rag) ∧
      (∀ i v, i ≤ num_vertices g →
        (run_vertices g vertex_labels (List.range i)).vertex_map.getD v 0 ≠ invalid_index →
        r.vertex_map.getD v 0 =
          (run_vertices g vertex_labels (List.range i)).vertex_map.getD v 0) ∧
      (∀ (st : rag_state) (label_region : Int) (x ei v : Nat),
        st.vertex_map.getD v 0 ≠ invalid_index →
        (explore_edge g vertex_labels label_region x st ei).vertex_map.getD v 0 =
          st.vertex_map.getD v 0) ∧
      ∀ (st : rag_state) (x v : Nat), st.vertex_map.getD v 0 ≠ invalid_index →
        (visit_vertex g vertex_labels st x).vertex_map.getD v 0 = st.vertex_map.getD v 0 := by
  have h := final_outer hg vertex_labels
  refine ⟨_, make_region_adjacency_graph_ok hl, ?_, ?_, ?_, ?_⟩
  · intro v hv
    have h1 := h.visited v hv hv
    refine ⟨h1, ?_⟩
    show _ < (run_vertices g vertex_labels (vertex_iterator g)).rag.vertex_count
    rw [h.rag_nv]
    exact h.vm_lt v hv h1
  · intro i v hi hv
    exact run_vertices_assigned g vertex_labels i (num_vertices g) v hi hv
  · intro st L x ei v hv
    exact explore_edge_assigned g vertex_labels L x st ei v hv
  · intro st x v hv
    exact visit_vertex_assigned g vertex_labels st x v hv

/-- Witness of C6: the triangle graph with an isolated vertex. -/
theorem vertex_assigned_once_witness :
    valid_graph triangle_graph ∧ [1, 1, 2, (1 : Int)].length = num_vertices triangle_graph ∧
      ∃ r, make_region_adjacency_graph triangle_graph [1, 1, 2, 1] = Except.ok r ∧
        (∀ v, v < num_vertices triangle_graph →
          r.vertex_map.getD v 0 ≠ invalid_index ∧
            r.vertex_map.getD v 0 < num_vertices r.rag) ∧
        (∀ i v, i ≤ num_vertices triangle_graph →
          (run_vertices triangle_graph [1, 1, 2, 1] (List.range i)).vertex_map.getD v 0 ≠
            invalid_index →
          r.vertex_map.getD v 0 =
            (run_vertices triangle_graph [1, 1, 2, 1] (List.range i)).vertex_map.getD v 0) ∧
        (∀ (st : rag_state) (label_region : Int) (x ei v : Nat),
          st.vertex_map.getD v 0 ≠ invalid_index →
          (explore_edge triangle_graph [1, 1, 2, 1] label_region x st ei).vertex_map.getD v 0 =
            st.vertex_map.getD v 0) ∧
        ∀ (st : rag_state) (x v : Nat), st.vertex_map.getD v 0 ≠ invalid_index →
          (visit_vertex triangle_graph [1, 1, 2, 1] st x).vertex_map.getD v 0 =
            st.vertex_map.getD v 0 :=
  ⟨by decide, by decide,
    vertex_assigned_once triangle_graph [1, 1, 2, 1] (by decide) (by decide)⟩

/-- C7: for a well-formed graph with valid labels, `num_vertices(rag)` is the
number of maximal connected same-label components of the graph, and
`vertex_map` is onto `0 .. num_vertices(rag) - 1`. -/
theorem rag_num_vertices_eq_components (g : ugraph) (vertex_labels : List Int)
    (hg : valid_graph g) (hl : vertex_labels.length = num_vertices g) :
    ∃ r, make_region_adjacency_graph g vertex_labels = Except.ok r ∧
      (components g vertex_labels).ncard = num_vertices r.rag ∧
      ∀ k, k < num_vertices r.rag →
        ∃ v, v < num_vertices g ∧ r.vertex_map.getD v 0 = k := by
  have h := final_outer hg vertex_labels
  refine ⟨_, make_region_adjacency_graph_ok hl, ?_, ?_⟩
  · rw [components_ncard h]
    exact h.rag_nv.symm
  · intro k hk
    exact h.onto k (by rw [← h.rag_nv]; exact hk)

set_option maxRecDepth 100000 in
/-- Witness of C7: on the 4-connected 4x4 grid whose two label values each
induce two disconnected blocks, the region graph has four vertices, one per
block, which is the number of same-label components. -/
theorem rag_num_vertices_eq_components_witness :
    valid_graph (get_4_adjacency_graph 4 4) ∧
      block_labels.length = num_vertices (get_4_adjacency_graph 4 4) ∧
      block_labels.dedup.length = 2 ∧
      ∃ r, make_region_adjacency_graph (get_4_adjacency_graph 4 4) block_labels =
          Except.ok r ∧
        num_vertices r.rag = 4 ∧
        (components (get_4_adjacency_graph 4 4) block_labels).ncard = 4 ∧
        ∀ k, k < 4 →
          ∃ v, v < num_vertices (get_4_adjacency_graph 4 4) ∧ r.vertex_map.getD v 0 = k := by
  refine ⟨by decide, by decide, by decide, ?_⟩
  obtain ⟨r, hr, h1, h2⟩ :=
    rag_num_vertices_eq_components (get_4_adjacency_graph 4 4) block_labels
      (by decide) (by decide)
  have h4 : (make_region_adjacency_graph (get_4_adjacency_graph 4 4) block_labels).toOption.map
      (fun r => num_vertices r.rag) = some 4 := by decide
  rw [hr] at h4
  have h5 : num_vertices r.rag = 4 := by simpa [Except.toOption] using h4
  refine ⟨r, hr, h5, ?_, ?_⟩
  · rw [h1, h5]
  · intro k hk
    exact h2 k (by rw [h5]; exact hk)
/-! ## Claims on the accumulators -/

/-- C8: for every finite sequence of scalar values, `initialize`,
`accumulate(v1)`, ..., `accumulate(vn)`, `finalize` leaves the scalar slot
equal to the sum of the values for the sum strategy and to their product for
the prod strategy, in exact arithmetic (a commutative semiring); in scalar
mode the slot is the first cell of the storage, and on a single cell both
modes agree. For `[2, 3, 4]` this is 9 and 24, for the empty sequence 0 and
1. -/
theorem sum_prod_cycle (α : Type) [CommSemiring α] (vs : List α) (x : α) (rest : List α)
    (vectorial : Bool) :
    (accumulator_sum.make_accumulator false).cycle (scalar_values vs) (x :: rest) =
        some (vs.sum :: rest) ∧
      (accumulator_prod.make_accumulator false).cycle (scalar_values vs) (x :: rest) =
        some (vs.prod :: rest) ∧
      (accumulator_sum.make_accumulator vectorial).cycle (scalar_values vs) [x] =
        some [vs.sum] ∧
      (accumulator_prod.make_accumulator vectorial).cycle (scalar_values vs) [x] =
        some [vs.prod] ∧
      (accumulator_sum.make_accumulator false).cycle (scalar_values [2, 3, (4 : Int)]) [7] =
        some [9] ∧
      (accumulator_prod.make_accumulator false).cycle (scalar_values [2, 3, (4 : Int)]) [7] =
        some [24] ∧
      (accumulator_sum.make_accumulator false).cycle (scalar_values ([] : List Int)) [7] =
        some [0] ∧
      (accumulator_prod.make_accumulator false).cycle (scalar_values ([] : List Int)) [7] =
        some [1] := by
  refine ⟨?_, ?_, ?_, ?_, by decide, by decide, by decide, by decide⟩
  · rw [marginal_cycle_scalar _ rfl]
    show some (vs.foldl (fun s v => v + s) 0 :: rest) = _
    rw [foldl_add_eq_sum, zero_add]
  · rw [marginal_cycle_scalar _ rfl]
    show some (vs.foldl (fun s v => v * s) 1 :: rest) = _
    rw [foldl_mul_eq_prod, one_mul]
  · rw [marginal_cycle_cell]
    show some [vs.foldl (fun s v => v + s) 0] = _
    rw [foldl_add_eq_sum, zero_add]
  · rw [marginal_cycle_cell]
    show some [vs.foldl (fun s v => v * s) 1] = _
    rw [foldl_mul_eq_prod, one_mul]

/-- C9: for every finite sequence of scalar values of a bounded linearly
ordered type, after `initialize`, `accumulate(v1..vn)`, `finalize` the slot of
the min strategy holds a value that is one of the `vi` and below all of them
when the sequence is non-empty and the maximum of the type when it is empty,
and the slot of the max strategy holds one of the `vi` that is above all of
them, or the lowest value of the type; for `[2, 3, 4]` (8-bit unsigned): min
2, max 4. -/
theorem min_max_cycle (α : Type) [LinearOrder α] [BoundedOrder α] (vs : List α) (x : α)
    (vectorial : Bool) :
    (∃ m, (accumulator_min.make_accumulator vectorial).cycle (scalar_values vs) [x] =
          some [m] ∧
        (vs = [] → m = ⊤) ∧ (vs ≠ [] → m ∈ vs) ∧ ∀ v ∈ vs, m ≤ v) ∧
      (∃ m, (accumulator_max.make_accumulator vectorial).cycle (scalar_values vs) [x] =
          some [m] ∧
        (vs = [] → m = ⊥) ∧ (vs ≠ [] → m ∈ vs) ∧ ∀ v ∈ vs, v ≤ m) ∧
      (accumulator_min.make_accumulator false).cycle
          (scalar_values [2, 3, (4 : Fin 256)]) [7] = some [2] ∧
      (accumulator_max.make_accumulator false).cycle
          (scalar_values [2, 3, (4 : Fin 256)]) [7] = some [4] := by
  refine ⟨⟨_, marginal_cycle_cell _ vs x, foldl_std_min_top vs⟩,
    ⟨_, marginal_cycle_cell _ vs x, foldl_std_max_bot vs⟩, ?_, ?_⟩
  · rw [marginal_cycle_cell]
    simp [accumulator_min.make_accumulator, std_min_eq_min]
  · rw [marginal_cycle_cell]
    simp [accumulator_max.make_accumulator, std_max_eq_max]

/-- A cycle of a freshly made mean accumulator on a single cell, in either
mode, for any addition of the value type: the cell is set to zero, the values
are added to it one after the other, and it is divided by their number. -/
theorem mean_cell_cycle_foldl {α : Type} [Zero α] [Add α] [counter_div α] (vectorial : Bool)
    (vs : List α) (hvs : vs ≠ []) (x : α) :
    (accumulator_mean.make_accumulator vectorial).cycle (scalar_values vs) [x] =
      some [counter_div.div (vs.foldl (fun s v => s + v) 0) vs.length] := by
  have hlen : vs.length ≠ 0 := fun e => hvs (List.eq_nil_of_length_eq_zero e)
  unfold acc_mean_impl.cycle
  cases vectorial with
  | false =>
    have h1 : acc_mean_impl.initialize (accumulator_mean.make_accumulator false) [x] =
        some (({ is_vectorial := false, m_counter := 0 } : acc_mean_impl), [(0 : α)]) := rfl
    rw [h1, Option.some_bind, mean_accumulate_all_cell, Option.some_bind]
    simp only [acc_mean_impl.finalize, div_cell, Nat.zero_add, if_neg hlen, Option.map_some']
    rfl
  | true =>
    have h1 : acc_mean_impl.initialize (accumulator_mean.make_accumulator true) [x] =
        some (({ is_vectorial := true, m_counter := 0 } : acc_mean_impl), [(0 : α)]) := rfl
    rw [h1, Option.some_bind, mean_accumulate_all_cell, Option.some_bind]
    simp only [acc_mean_impl.finalize, finalize_loop, div_cell, Nat.zero_add, if_neg hlen,
      Option.map_some', Option.some_bind]
    rfl

/-- Adding values to an `unsigned int` cell one after the other leaves the
sum of the values modulo `2^32`. -/
theorem uint32_foldl_add (vs : List uint32) (s : uint32) (hs : s.val < 4294967296) :
    vs.foldl (fun s v => s + v) s =
      (⟨(s.val + (vs.map uint32.val).sum) % 4294967296⟩ : uint32) := by
  induction vs generalizing s with
  | nil =>
    show s = ⟨(s.val + 0) % 4294967296⟩
    rw [Nat.add_zero, Nat.mod_eq_of_lt hs]
  | cons v t ih =>
    rw [List.foldl_cons, ih (s + v) (Nat.mod_lt _ (by decide))]
    show (⟨((s.val + v.val) % 4294967296 + (t.map uint32.val).sum) % 4294967296⟩ : uint32) =
      ⟨(s.val + (v.val + (t.map uint32.val).sum)) % 4294967296⟩
    rw [Nat.mod_add_mod, Nat.add_assoc]

/-- C10 (counterexample): with `unsigned int` cells the mean
of `4000000000, 4000000000` is left as `1852516352`, in both modes, because
the sum is kept modulo `2^32`; the sum divided by 2 is `4000000000`. -/
theorem mean_uint32_sum_wraps :
    (accumulator_mean.make_accumulator false).cycle
        (scalar_values [(⟨4000000000⟩ : uint32), ⟨4000000000⟩]) [⟨7⟩] =
          some [⟨1852516352⟩] ∧
      (accumulator_mean.make_accumulator true).cycle
        (scalar_values [(⟨4000000000⟩ : uint32), ⟨4000000000⟩]) [⟨7⟩] =
          some [⟨1852516352⟩] ∧
      ([(⟨4000000000⟩ : uint32), ⟨4000000000⟩].map uint32.val).sum / 2 = 4000000000 := by
  refine ⟨?_, ?_, ?_⟩ <;> decide

/-- C10 (amended): for every non-empty finite sequence of values accumulated
into a freshly made mean accumulator (`make_accumulator`, `initialize`,
`accumulate(v1..vn)`, `finalize`): in exact arithmetic (cells of a division
ring) the storage holds the sum of the values divided by their number, in
scalar mode in the first cell of the storage and on a single cell in either
mode, and for `[2, 3, 4]` it holds 3; with `unsigned int` cells the sum is
kept modulo `2^32` and the storage holds the integer quotient of that
remainder by the number of values, which is the quotient of the sum only when
the sum is below `2^32`. -/
theorem mean_cycle (α : Type) [DivisionRing α] (vs : List α) (hvs : vs ≠ []) (x : α)
    (rest : List α) (vectorial : Bool) :
    (accumulator_mean.make_accumulator false).cycle (scalar_values vs) (x :: rest) =
        some (vs.sum / (vs.length : α) :: rest) ∧
      (accumulator_mean.make_accumulator vectorial).cycle (scalar_values vs) [x] =
        some [vs.sum / (vs.length : α)] ∧
      (accumulator_mean.make_accumulator vectorial).cycle (scalar_values [2, 3, (4 : ℚ)])
        [7] = some [3] ∧
      (∀ (ws : List uint32) (y : uint32), ws ≠ [] → ws.length < 18446744073709551616 →
        (accumulator_mean.make_accumulator vectorial).cycle (scalar_values ws) [y] =
          some [⟨(ws.map uint32.val).sum % 4294967296 / ws.length⟩]) ∧
      ∀ (ws : List uint32) (y : uint32), ws ≠ [] → ws.length < 18446744073709551616 →
        (ws.map uint32.val).sum < 4294967296 →
        (accumulator_mean.make_accumulator vectorial).cycle (scalar_values ws) [y] =
          some [⟨(ws.map uint32.val).sum / ws.length⟩] := by
  have hu : ∀ (ws : List uint32) (y : uint32), ws ≠ [] →
      ws.length < 18446744073709551616 →
      (accumulator_mean.make_accumulator vectorial).cycle (scalar_values ws) [y] =
        some [⟨(ws.map uint32.val).sum % 4294967296 / ws.length⟩] := by
    intro ws y hws hlen
    rw [mean_cell_cycle_foldl vectorial ws hws y, uint32_foldl_add ws 0 (by decide)]
    show some [uint32.wrap (((0 : uint32).val + (ws.map uint32.val).sum) % 4294967296 /
      (ws.length % 18446744073709551616))] = _
    have h0 : (0 : uint32).val = 0 := rfl
    rw [h0, Nat.zero_add, Nat.mod_eq_of_lt hlen]
    unfold uint32.wrap
    rw [Nat.mod_eq_of_lt (Nat.lt_of_le_of_lt (Nat.div_le_self _ _)
      (Nat.mod_lt _ (by decide)))]
  refine ⟨mean_scalar_cycle vs hvs x rest, mean_cell_cycle vectorial vs hvs x, ?_, hu, ?_⟩
  · rw [mean_cell_cycle vectorial [2, 3, (4 : ℚ)] (by simp) 7]
    show some [([2, 3, 4] : List ℚ).sum / (([2, 3, 4] : List ℚ).length : ℚ)] = some [3]
    norm_num
  · intro ws y hws hlen hsum
    rw [hu ws y hws hlen, Nat.mod_eq_of_lt hsum]

/-- Witness of C10 (amended): the mean of `[2, 3, 4]` is 3, with rational cells and
with `unsigned int` cells. -/
theorem mean_cycle_witness :
    [2, 3, (4 : ℚ)] ≠ [] ∧
      (accumulator_mean.make_accumulator false).cycle (scalar_values [2, 3, (4 : ℚ)]) [7] =
        some [3] ∧
      (accumulator_mean.make_accumulator true).cycle (scalar_values [2, 3, (4 : ℚ)]) [7] =
        some [3] ∧
      (accumulator_mean.make_accumulator true).cycle
        (scalar_values [(⟨2⟩ : uint32), ⟨3⟩, ⟨4⟩]) [⟨7⟩] = some [⟨3⟩] := by
  have h1 := mean_cycle ℚ [2, 3, 4] (by simp) 7 [] false
  have h2 := mean_cycle ℚ [2, 3, 4] (by simp) 7 [] true
  exact ⟨by simp, h1.2.2.1, h2.2.2.1,
    h2.2.2.2.2 [⟨2⟩, ⟨3⟩, ⟨4⟩] ⟨7⟩ (by simp) (by decide) (by decide)⟩

/-! ## More on the accumulators -/

theorem storage_loop_eq_some {α : Type} (f : α → α → α) (value storage : List α)
    (h : storage.length ≤ value.length) :
    storage_loop f value storage = some (List.zipWith f value storage) := by
  induction storage generalizing value with
  | nil => cases value <;> rfl
  | cons s t ih =>
    cases value with
    | nil => simp at h
    | cons v vs =>
      simp only [List.length_cons, Nat.add_le_add_iff_right] at h
      simp [storage_loop, ih vs h]

theorem storage_loop_eq_none {α : Type} (f : α → α → α) (value storage : List α)
    (h : value.length < storage.length) :
    storage_loop f value storage = none := by
  induction storage generalizing value with
  | nil => simp at h
  | cons s t ih =>
    cases value with
    | nil => rfl
    | cons v vs =>
      simp only [List.length_cons, Nat.add_lt_add_iff_right] at h
      simp [storage_loop, ih vs h]

theorem zipWith_left_eq_take {α : Type} (value storage : List α)
    (h : storage.length ≤ value.length) :
    List.zipWith (fun v _ => v) value storage = value.take storage.length := by
  induction storage generalizing value with
  | nil => cases value <;> rfl
  | cons s t ih =>
    cases value with
    | nil => simp at h
    | cons v vs =>
      simp only [List.length_cons, Nat.add_le_add_iff_right] at h
      simp [ih vs h]

/-- The copy loop of `first` and `last` writes the first cells of the value
over the storage. -/
theorem storage_loop_copy {α : Type} (value storage : List α)
    (h : storage.length ≤ value.length) :
    storage_loop (fun v _ => v) value storage = some (value.take storage.length) := by
  rw [storage_loop_eq_some _ _ _ h, zipWith_left_eq_take _ _ h]

/-! ### The mean accumulator used twice -/

/-- The state of a mean accumulator after a cycle on a single cell: its
counter has grown by the number of values. -/
theorem mean_cycle_state_cell {α : Type} [AddMonoid α] [counter_div α] (vectorial : Bool)
    (c : Nat) (vs : List α) (hvs : c + vs.length ≠ 0) (x : α) :
    acc_mean_impl.cycle_state { is_vectorial := vectorial, m_counter := c }
        (scalar_values vs) [x] =
      some ({ is_vectorial := vectorial, m_counter := c + vs.length },
        [counter_div.div vs.sum (c + vs.length)]) := by
  unfold acc_mean_impl.cycle_state
  have h1 : acc_mean_impl.initialize
      ({ is_vectorial := vectorial, m_counter := c } : acc_mean_impl) [x] =
      some (({ is_vectorial := vectorial, m_counter := c } : acc_mean_impl), [(0 : α)]) := by
    cases vectorial <;> rfl
  rw [h1, Option.some_bind, mean_accumulate_all_cell, Option.some_bind]
  cases vectorial <;>
    simp only [acc_mean_impl.finalize, finalize_loop, div_cell, if_neg hvs,
      Option.map_some', Option.some_bind, foldl_add_right_eq_sum, zero_add] <;> rfl

theorem mean_cycle_eq_cycle_state {α : Type} [Zero α] [Add α] [counter_div α]
    (acc : acc_mean_impl) (values : List (List α)) (storage : List α) :
    acc.cycle values storage = (acc.cycle_state values storage).map (fun st => st.2) := by
  unfold acc_mean_impl.cycle acc_mean_impl.cycle_state
  cases h1 : acc_mean_impl.initialize acc storage with
  | none => rfl
  | some st1 =>
    rw [Option.some_bind]
    cases h2 : acc_mean_impl.accumulate_all values st1 with
    | none => rfl
    | some st2 =>
      rw [Option.some_bind, Option.some_bind]
      cases acc_mean_impl.finalize st2.1 st2.2 <;> rfl

/-- A mean accumulator used for a second cycle divides by the number of
values of both cycles. -/
theorem mean_second_cycle {α : Type} [AddMonoid α] [counter_div α] (vectorial : Bool)
    (vs ws : List α) (hvs : vs ≠ []) (x y : α) :
    ∃ acc1 r1,
      (accumulator_mean.make_accumulator vectorial).cycle_state (scalar_values vs) [x] =
        some (acc1, r1) ∧
      acc1.cycle (scalar_values ws) [y] =
        some [counter_div.div ws.sum (vs.length + ws.length)] := by
  have hlen : vs.length ≠ 0 := fun e => hvs (List.eq_nil_of_length_eq_zero e)
  have h1 := mean_cycle_state_cell (α := α) vectorial 0 vs (by omega) x
  rw [Nat.zero_add] at h1
  refine ⟨_, _, h1, ?_⟩
  rw [mean_cycle_eq_cycle_state, mean_cycle_state_cell vectorial vs.length ws (by omega) y]
  rfl

/-! ### The first, last and counter accumulators -/

theorem first_accumulate_all_disarmed {α : Type} (vectorial : Bool) (values : List (List α))
    (storage : List α) :
    acc_first_impl.accumulate_all values
        (({ is_vectorial := vectorial, m_first := false } : acc_first_impl), storage) =
      some ({ is_vectorial := vectorial, m_first := false }, storage) := by
  induction values with
  | nil => rfl
  | cons v t ih =>
    show (acc_first_impl.accumulate { is_vectorial := vectorial, m_first := false } v
      storage).bind (acc_first_impl.accumulate_all t) = _
    have h1 : acc_first_impl.accumulate { is_vectorial := vectorial, m_first := false } v
        storage = some ({ is_vectorial := vectorial, m_first := false }, storage) := rfl
    rw [h1, Option.some_bind, ih]

/-- A cycle of a first accumulator over no value keeps the storage. -/
theorem first_cycle_state_nil {α : Type} (acc : acc_first_impl) (storage : List α) :
    acc.cycle_state ([] : List (List α)) storage =
      some ({ is_vectorial := acc.is_vectorial, m_first := true }, storage) := rfl

/-- A cycle of a first accumulator over at least one value copies the first
cells of the first value over the storage, and leaves the flag down. -/
theorem first_cycle_state_cons {α : Type} (acc : acc_first_impl) (v : List α)
    (values : List (List α)) (storage : List α) (h : storage.length ≤ v.length) :
    acc.cycle_state (v :: values) storage =
      some ({ is_vectorial := acc.is_vectorial, m_first := false },
        v.take storage.length) := by
  unfold acc_first_impl.cycle_state
  have h1 : acc_first_impl.initialize acc storage =
      some ({ is_vectorial := acc.is_vectorial, m_first := true }, storage) := rfl
  rw [h1, Option.some_bind]
  have h2 : acc_first_impl.accumulate_all (v :: values)
      (({ is_vectorial := acc.is_vectorial, m_first := true } : acc_first_impl), storage) =
      some ({ is_vectorial := acc.is_vectorial, m_first := false },
        v.take storage.length) := by
    show (acc_first_impl.accumulate { is_vectorial := acc.is_vectorial, m_first := true } v
      storage).bind (acc_first_impl.accumulate_all values) = _
    have h3 : acc_first_impl.accumulate
        { is_vectorial := acc.is_vectorial, m_first := true } v storage =
        some ({ is_vectorial := acc.is_vectorial, m_first := false },
          v.take storage.length) := by
      unfold acc_first_impl.accumulate
      simp only [if_true, storage_loop_copy v storage h, Option.map_some']
    rw [h3, Option.some_bind, first_accumulate_all_disarmed]
  rw [h2, Option.some_bind]
  rfl

theorem last_accumulate_all_vectorial {α : Type} (values : List (List α))
    (storage : List α) (hne : values ≠ [])
    (hlen : ∀ v, v ∈ values → v.length = storage.length) :
    acc_last_impl.accumulate_all { is_vectorial := true } values storage =
      some (values.getLast hne) := by
  induction values generalizing storage with
  | nil => exact absurd rfl hne
  | cons v t ih =>
    show (acc_last_impl.accumulate { is_vectorial := true } v storage).bind
      (acc_last_impl.accumulate_all { is_vectorial := true } t) = _
    have hv : v.length = storage.length := hlen v (by simp)
    have h1 : acc_last_impl.accumulate { is_vectorial := true } v storage = some v := by
      unfold acc_last_impl.accumulate
      simp only [if_true]
      rw [storage_loop_copy v storage (by omega), ← hv, List.take_length]
    rw [h1, Option.some_bind]
    cases t with
    | nil => rfl
    | cons w t' =>
      rw [ih v (by simp) (fun u hu => by rw [hlen u (List.mem_cons_of_mem _ hu), hv])]
      rfl

theorem last_accumulate_all_scalar {α : Type} (vs : List α) (x : α) (rest : List α)
    (hne : vs ≠ []) :
    acc_last_impl.accumulate_all { is_vectorial := false } (scalar_values vs) (x :: rest) =
      some (vs.getLast hne :: rest) := by
  induction vs generalizing x with
  | nil => exact absurd rfl hne
  | cons v t ih =>
    show (acc_last_impl.accumulate { is_vectorial := false } [v] (x :: rest)).bind
      (acc_last_impl.accumulate_all { is_vectorial := false } (scalar_values t)) = _
    have h1 : acc_last_impl.accumulate { is_vectorial := false } [v] (x :: rest) =
        some (v :: rest) := rfl
    rw [h1, Option.some_bind]
    cases t with
    | nil => rfl
    | cons w t' =>
      rw [ih v (by simp)]
      rfl

theorem counter_accumulate_all {α β : Type} [AddMonoidWithOne α] (acc : acc_counter_impl)
    (values : List β) (x : α) (rest : List α) :
    acc.accumulate_all values (x :: rest) = some ((x + (values.length : α)) :: rest) := by
  induction values generalizing x with
  | nil => simp [acc_counter_impl.accumulate_all]
  | cons v t ih =>
    show (acc.accumulate v (x :: rest)).bind (acc_counter_impl.accumulate_all acc t) = _
    have h1 : acc.accumulate v (x :: rest) = some ((x + 1) :: rest) := rfl
    rw [h1, Option.some_bind, ih]
    rw [List.length_cons, Nat.add_comm t.length 1, Nat.cast_add, Nat.cast_one, add_assoc]

/-- A cycle of a counter accumulator leaves the number of `accumulate` calls
in the first cell and keeps the other cells. -/
theorem counter_cycle_eq {α β : Type} [AddMonoidWithOne α] (acc : acc_counter_impl)
    (values : List β) (x : α) (rest : List α) :
    acc.cycle values (x :: rest) = some ((values.length : α) :: rest) := by
  unfold acc_counter_impl.cycle
  have h1 : acc_counter_impl.initialize acc (x :: rest) = some ((0 : α) :: rest) := rfl
  rw [h1, Option.some_bind, counter_accumulate_all, Option.some_bind, zero_add]
  rfl

/-- C11 (the code at the failing input): a mean accumulator, in either mode,
that has run a cycle over `[2, 3, 4]` keeps its counter at 3 through
`initialize`, so that a second cycle over the single value 6, on the same
storage or on a newly bound one, leaves `6 / 4 = 3 / 2` and not 6. -/
theorem mean_second_cycle_divides_by_all_values (vectorial : Bool) :
    ∃ acc1 r1,
      (accumulator_mean.make_accumulator vectorial).cycle_state
          (scalar_values [2, 3, (4 : ℚ)]) [0] = some (acc1, r1) ∧
      r1 = [3] ∧ acc1.m_counter = 3 ∧
      Option.map (fun st => st.1.m_counter) ( acc_mean_impl.initialize acc1 r1) = some 3 ∧
      acc1.cycle (scalar_values [(6 : ℚ)]) r1 = some [3 / 2] ∧
      acc1.cycle (scalar_values [(6 : ℚ)]) [0] = some [3 / 2] ∧
      (3 / 2 : ℚ) ≠ 6 := by
  have h1 := mean_cycle_state_cell (α := ℚ) vectorial 0 [2, 3, 4] (by simp) 0
  have h2 : ∀ y : ℚ, acc_mean_impl.cycle { is_vectorial := vectorial, m_counter := 3 }
      (scalar_values [(6 : ℚ)]) [y] = some [3 / 2] := by
    intro y
    rw [mean_cycle_eq_cycle_state, mean_cycle_state_cell vectorial 3 [6] (by simp) y]
    simp only [Option.map_some', List.sum_cons, List.sum_nil, List.length_cons,
      List.length_nil, counter_div.div]
    norm_num
  have h3 : counter_div.div ([2, 3, 4] : List ℚ).sum (0 + ([2, 3, 4] : List ℚ).length) =
      (3 : ℚ) := by
    simp only [List.sum_cons, List.sum_nil, List.length_cons, List.length_nil,
      counter_div.div]
    norm_num
  rw [h3] at h1
  refine ⟨_, _, h1, rfl, rfl, ?_, h2 3, h2 0, by norm_num⟩
  cases vectorial <;> rfl

/-- C12: for the first strategy, in either mode and whatever the flag was
before `initialize`, a cycle over at least one value leaves the first value
in the storage whatever the later values are, a cycle over no value keeps the
storage, and after a cycle a later `initialize` raises the flag again, so
that the next cycle stores its own first value. For `[2, 3, 4]` the result is
2. -/
theorem first_cycle_result (α : Type) (acc : acc_first_impl) (v w : List α)
    (values ws : List (List α)) (storage storage2 : List α)
    (hv : v.length = storage.length) (hw : w.length = storage2.length) :
    acc.cycle (v :: values) storage = some v ∧
      acc.cycle ([] : List (List α)) storage = some storage ∧
      (∃ acc1, acc.cycle_state (v :: values) storage = some (acc1, v) ∧
        acc1.m_first = false ∧
        Option.map (fun st => st.1.m_first) ( acc_first_impl.initialize acc1 storage2) =
          some true ∧
        acc1.cycle (w :: ws) storage2 = some w) ∧
      ∀ vectorial m_first,
        (accumulator_first.make_accumulator vectorial m_first).cycle
          (scalar_values [2, 3, (4 : Int)]) [7] = some [2] := by
  have h1 := first_cycle_state_cons acc v values storage (by omega)
  rw [← hv, List.take_length] at h1
  have h2 : ∀ (a : acc_first_impl), a.cycle (w :: ws) storage2 = some w := by
    intro a
    unfold acc_first_impl.cycle
    rw [first_cycle_state_cons a w ws storage2 (by omega), ← hw, List.take_length]
    rfl
  refine ⟨?_, rfl, ⟨_, h1, rfl, rfl, h2 _⟩, ?_⟩
  · unfold acc_first_impl.cycle
    rw [h1]
    rfl
  · intro vectorial m_first
    cases vectorial <;> cases m_first <;> rfl

/-- Witness of C12: three values of two cells, then a second cycle. -/
theorem first_cycle_result_witness :
    ([1, 2] : List Int).length = ([0, 0] : List Int).length ∧
      ([5, 6] : List Int).length = ([8, 9] : List Int).length ∧
      (accumulator_first.make_accumulator true false).cycle [[1, 2], [3, 4], [5, (6 : Int)]]
        [0, 0] = some [1, 2] :=
  ⟨rfl, rfl,
    (first_cycle_result Int (accumulator_first.make_accumulator true false) [1, 2] [5, 6]
      [[3, 4], [5, 6]] [] [0, 0] [8, 9] rfl rfl).1⟩

/-- C13: for the last strategy a cycle over at least one value leaves the
last value in the storage (in vector mode the whole value, in scalar mode its
first cell in the first cell of the storage), a cycle over no value keeps
the storage, and `initialize` does nothing. For `[2, 3, 4]` the result is
4. -/
theorem last_cycle_result (α : Type) (values : List (List α)) (storage : List α)
    (vs : List α) (x : α) (rest : List α) (vectorial : Bool) (hne : values ≠ [])
    (hlen : ∀ v, v ∈ values → v.length = storage.length) (hvs : vs ≠ []) :
    (accumulator_last.make_accumulator true).cycle values storage =
        some (values.getLast hne) ∧
      (accumulator_last.make_accumulator false).cycle (scalar_values vs) (x :: rest) =
        some (vs.getLast hvs :: rest) ∧
      (accumulator_last.make_accumulator vectorial).cycle ([] : List (List α)) storage =
        some storage ∧
      acc_last_impl.initialize (accumulator_last.make_accumulator vectorial) storage =
        some storage ∧
      (accumulator_last.make_accumulator vectorial).cycle
        (scalar_values [2, 3, (4 : Int)]) [7] = some [4] := by
  refine ⟨?_, ?_, rfl, rfl, ?_⟩
  · unfold acc_last_impl.cycle
    have h1 : acc_last_impl.initialize (accumulator_last.make_accumulator true) storage =
        some storage := rfl
    rw [h1, Option.some_bind]
    show (acc_last_impl.accumulate_all { is_vectorial := true } values storage).bind _ = _
    rw [last_accumulate_all_vectorial values storage hne hlen]
    rfl
  · unfold acc_last_impl.cycle
    have h1 : acc_last_impl.initialize (accumulator_last.make_accumulator false)
        (x :: rest) = some (x :: rest) := rfl
    rw [h1, Option.some_bind]
    show (acc_last_impl.accumulate_all { is_vectorial := false } (scalar_values vs)
      (x :: rest)).bind _ = _
    rw [last_accumulate_all_scalar vs x rest hvs]
    rfl
  · cases vectorial <;> rfl

/-- Witness of C13: two values of two cells in vector mode. -/
theorem last_cycle_result_witness :
    ([[1, 2], [3, (4 : Int)]] : List (List Int)) ≠ [] ∧
      (∀ v, v ∈ ([[1, 2], [3, (4 : Int)]] : List (List Int)) →
        v.length = ([0, 0] : List Int).length) ∧
      ([2, 3, (4 : Int)] : List Int) ≠ [] ∧
      (accumulator_last.make_accumulator true).cycle [[1, 2], [3, (4 : Int)]] [0, 0] =
        some [3, 4] ∧
      (accumulator_last.make_accumulator false).cycle (scalar_values [2, 3, (4 : Int)])
        [7, 8] = some [4, 8] :=
  ⟨by decide, by decide, by decide,
    (last_cycle_result Int [[1, 2], [3, 4]] [0, 0] [2, 3, 4] 7 [8] true (by decide)
      (by decide) (by decide)).1,
    (last_cycle_result Int [[1, 2], [3, 4]] [0, 0] [2, 3, 4] 7 [8] true (by decide)
      (by decide) (by decide)).2.1⟩

/-- C14: for the counter strategy, in either mode, after `initialize` and `n`
calls of `accumulate` the first cell of the storage holds `n`, whatever the
accumulated values and their types are (exact arithmetic), so that two
sequences of the same length give the same result. For `[2, 3, 4]` the
result is 3. -/
theorem counter_cycle_result (α β γ : Type) [AddMonoidWithOne α] (vectorial : Bool)
    (values : List β) (values2 : List γ) (x : α) (rest : List α) :
    (accumulator_counter.make_accumulator vectorial).cycle values (x :: rest) =
        some ((values.length : α) :: rest) ∧
      (values.length = values2.length →
        (accumulator_counter.make_accumulator vectorial).cycle values (x :: rest) =
          (accumulator_counter.make_accumulator vectorial).cycle values2 (x :: rest)) ∧
      (accumulator_counter.make_accumulator vectorial).cycle
        (scalar_values [2, 3, (4 : Int)]) [(7 : Int)] = some [3] := by
  refine ⟨counter_cycle_eq _ values x rest, ?_, ?_⟩
  · intro h
    rw [counter_cycle_eq, counter_cycle_eq, h]
  · rw [counter_cycle_eq]
    rfl

/-- Witness of C14: three scalar values and three vectors of strings. -/
theorem counter_cycle_result_witness :
    ([2, 3, (4 : Int)] : List Int).length = ([["a"], [], ["b", "c"]] : List (List String)).length ∧
      (accumulator_counter.make_accumulator true).cycle [2, 3, (4 : Int)] [(7 : Int), 8] =
        (accumulator_counter.make_accumulator true).cycle
          ([["a"], [], ["b", "c"]] : List (List String)) [(7 : Int), 8] :=
  ⟨rfl,
    (counter_cycle_result Int Int (List String) true [2, 3, 4] [["a"], [], ["b", "c"]]
      7 [8]).2.1 rfl⟩

/-- C16: for every input shape, `get_output_shape` of sum, min, max, prod,
mean, first and last returns the input shape, and `get_output_shape` of
counter returns the empty shape. -/
theorem get_output_shape_result (shape_t : Type) (input_shape : shape_t) :
    accumulator_sum.get_output_shape input_shape = input_shape ∧
      accumulator_min.get_output_shape input_shape = input_shape ∧
      accumulator_max.get_output_shape input_shape = input_shape ∧
      accumulator_prod.get_output_shape input_shape = input_shape ∧
      accumulator_mean.get_output_shape input_shape = input_shape ∧
      accumulator_first.get_output_shape input_shape = input_shape ∧
      accumulator_last.get_output_shape input_shape = input_shape ∧
      accumulator_counter.get_output_shape input_shape = [] :=
  ⟨rfl, rfl, rfl, rfl, rfl, rfl, rfl, rfl⟩

/-! ### Vector mode, position by position -/

theorem cell_zipWith {α : Type} (f : α → α → α) (i : Nat) (v s : List α) :
    cell i (List.zipWith f v s) = List.zipWith f (cell i v) (cell i s) := by
  unfold cell
  rw [List.drop_zipWith, List.take_zipWith]

theorem cell_eq_singleton {α : Type} (i : Nat) (l : List α) (h : i < l.length) :
    ∃ a, cell i l = [a] := by
  unfold cell
  rw [List.drop_eq_getElem_cons h]
  exact ⟨l[i], rfl⟩

theorem cell_map {α β : Type} (f : α → β) (i : Nat) (l : List α) :
    cell i (l.map f) = (cell i l).map f := by
  unfold cell
  rw [List.map_take, List.map_drop]

theorem length_zipWith_of_eq {α : Type} (f : α → α → α) (v s : List α)
    (h : v.length = s.length) : (List.zipWith f v s).length = s.length := by
  rw [List.length_zipWith, h, Nat.min_self]

theorem marginal_vectorial_accumulate_all {α : Type} (init : α) (f : α → α → α) (i : Nat)
    (values : List (List α)) (storage : List α)
    (hlen : ∀ v, v ∈ values → v.length = storage.length) (hi : i < storage.length) :
    ∃ r, acc_marginal_impl.accumulate_all
          { is_vectorial := true, m_init_value := init, m_reducer := f } values storage =
        some r ∧ r.length = storage.length ∧
      acc_marginal_impl.accumulate_all
          { is_vectorial := false, m_init_value := init, m_reducer := f }
          (values.map (cell i)) (cell i storage) = some (cell i r) := by
  induction values generalizing storage with
  | nil => exact ⟨storage, rfl, rfl, rfl⟩
  | cons v t ih =>
    have hv : v.length = storage.length := hlen v (by simp)
    have hz := length_zipWith_of_eq f v storage hv
    obtain ⟨r, h1, h2, h3⟩ := ih (List.zipWith f v storage)
      (fun u hu => by rw [hlen u (List.mem_cons_of_mem _ hu), hz]) (by rw [hz]; exact hi)
    refine ⟨r, ?_, by rw [h2, hz], ?_⟩
    · show (acc_marginal_impl.accumulate _ v storage).bind _ = _
      have h4 : acc_marginal_impl.accumulate
          { is_vectorial := true, m_init_value := init, m_reducer := f } v storage =
          some (List.zipWith f v storage) := by
        unfold acc_marginal_impl.accumulate
        simp only [if_true]
        exact storage_loop_eq_some f v storage (by omega)
      rw [h4, Option.some_bind, h1]
    · rw [cell_zipWith] at h3
      obtain ⟨a, ha⟩ := cell_eq_singleton i v (by omega)
      obtain ⟨b, hb⟩ := cell_eq_singleton i storage hi
      rw [List.map_cons, ha, hb]
      rw [ha, hb] at h3
      show (acc_marginal_impl.accumulate _ [a] [b]).bind _ = _
      have h4 : acc_marginal_impl.accumulate
          { is_vectorial := false, m_init_value := init, m_reducer := f } [a] [b] =
          some [f a b] := rfl
      rw [h4, Option.some_bind]
      exact h3

/-- In vector mode a cycle of a marginal accumulator (sum, min, max, prod)
leaves at each position what the scalar mode leaves on the cells of that
position. -/
theorem marginal_vectorial_cycle {α : Type} (init : α) (f : α → α → α) (i : Nat)
    (values : List (List α)) (storage : List α)
    (hlen : ∀ v, v ∈ values → v.length = storage.length) (hi : i < storage.length) :
    Option.map (cell i)
        (acc_marginal_impl.cycle
          { is_vectorial := true, m_init_value := init, m_reducer := f } values storage) =
      acc_marginal_impl.cycle
        { is_vectorial := false, m_init_value := init, m_reducer := f }
        (values.map (cell i)) (cell i storage) := by
  unfold acc_marginal_impl.cycle
  have h1 : acc_marginal_impl.initialize
      { is_vectorial := true, m_init_value := init, m_reducer := f } storage =
      some (storage.map (fun _ => init)) := rfl
  obtain ⟨b, hb⟩ := cell_eq_singleton i storage hi
  have h2 : acc_marginal_impl.initialize
      { is_vectorial := false, m_init_value := init, m_reducer := f } (cell i storage) =
      some (cell i (storage.map (fun _ => init))) := by
    rw [cell_map, hb]; rfl
  obtain ⟨r, h3, _, h5⟩ := marginal_vectorial_accumulate_all init f i values
    (storage.map (fun _ => init)) (fun v hv => by rw [hlen v hv, List.length_map])
    (by rw [List.length_map]; exact hi)
  rw [h1, h2, Option.some_bind, Option.some_bind, h3, h5]
  rfl

theorem finalize_loop_of_ne_zero {α : Type} [counter_div α] (c : Nat) (hc : c ≠ 0)
    (l : List α) :
    finalize_loop c l = some (l.map (fun s => counter_div.div s c)) := by
  induction l with
  | nil => rfl
  | cons s t ih => simp [finalize_loop, div_cell, hc, ih]

theorem finalize_loop_zero_none {α : Type} [counter_div α] (s : α) (t : List α)
    (h : counter_div.div_zero s = none) : finalize_loop 0 (s :: t) = none := by
  simp [finalize_loop, div_cell, h]

theorem finalize_loop_zero_const {α β : Type} [counter_div α] (z q : α) (l : List β)
    (h : counter_div.div_zero z = some q) :
    finalize_loop 0 (l.map (fun _ => z)) = some (l.map (fun _ => q)) := by
  induction l with
  | nil => rfl
  | cons b t ih =>
    rw [List.map_cons, List.map_cons]
    unfold finalize_loop
    rw [ih]
    simp only [div_cell, if_true, h, Option.some_bind, Option.map_some']

theorem mean_vectorial_accumulate_all {α : Type} [Add α] (c i : Nat)
    (values : List (List α)) (storage : List α)
    (hlen : ∀ v, v ∈ values → v.length = storage.length) (hi : i < storage.length) :
    ∃ r, acc_mean_impl.accumulate_all values
          (({ is_vectorial := true, m_counter := c } : acc_mean_impl), storage) =
        some ({ is_vectorial := true, m_counter := c + values.length }, r) ∧
      r.length = storage.length ∧
      acc_mean_impl.accumulate_all (values.map (cell i))
          (({ is_vectorial := false, m_counter := c } : acc_mean_impl), cell i storage) =
        some ({ is_vectorial := false, m_counter := c + values.length }, cell i r) := by
  induction values generalizing storage c with
  | nil => exact ⟨storage, rfl, rfl, rfl⟩
  | cons v t ih =>
    have hv : v.length = storage.length := hlen v (by simp)
    have hz := length_zipWith_of_eq (fun v s => s + v) v storage hv
    obtain ⟨r, h1, h2, h3⟩ := ih (c + 1) (List.zipWith (fun v s => s + v) v storage)
      (fun u hu => by rw [hlen u (List.mem_cons_of_mem _ hu), hz]) (by rw [hz]; exact hi)
    have hc : c + 1 + t.length = c + (v :: t).length := by
      simp only [List.length_cons]; omega
    rw [hc] at h1 h3
    refine ⟨r, ?_, by rw [h2, hz], ?_⟩
    · show (acc_mean_impl.accumulate _ v storage).bind _ = _
      have h4 : acc_mean_impl.accumulate { is_vectorial := true, m_counter := c } v storage =
          some ({ is_vectorial := true, m_counter := c + 1 },
            List.zipWith (fun v s => s + v) v storage) := by
        unfold acc_mean_impl.accumulate
        simp only [if_true]
        rw [storage_loop_eq_some _ v storage (by omega)]
        rfl
      rw [h4, Option.some_bind, h1]
    · rw [cell_zipWith] at h3
      obtain ⟨a, ha⟩ := cell_eq_singleton i v (by omega)
      obtain ⟨b, hb⟩ := cell_eq_singleton i storage hi
      rw [List.map_cons, ha, hb]
      rw [ha, hb] at h3
      show (acc_mean_impl.accumulate _ [a] [b]).bind _ = _
      have h4 : acc_mean_impl.accumulate { is_vectorial := false, m_counter := c } [a] [b] =
          some ({ is_vectorial := false, m_counter := c + 1 }, [b + a]) := rfl
      rw [h4, Option.some_bind]
      exact h3

/-- In vector mode a cycle of a freshly made mean accumulator leaves at each
position what the scalar mode leaves on the cells of that position. -/
theorem mean_vectorial_cycle {α : Type} [Zero α] [Add α] [counter_div α] (i : Nat)
    (values : List (List α)) (storage : List α)
    (hlen : ∀ v, v ∈ values → v.length = storage.length) (hi : i < storage.length) :
    Option.map (cell i) ((accumulator_mean.make_accumulator true).cycle values storage) =
      (accumulator_mean.make_accumulator false).cycle (values.map (cell i))
        (cell i storage) := by
  unfold acc_mean_impl.cycle
  have h1 : acc_mean_impl.initialize (accumulator_mean.make_accumulator true) storage =
      some (({ is_vectorial := true, m_counter := 0 } : acc_mean_impl),
        storage.map (fun _ => (0 : α))) := rfl
  obtain ⟨b, hb⟩ := cell_eq_singleton i storage hi
  have h2 : acc_mean_impl.initialize (accumulator_mean.make_accumulator false)
      (cell i storage) =
      some (({ is_vectorial := false, m_counter := 0 } : acc_mean_impl),
        cell i (storage.map (fun _ => (0 : α)))) := by
    rw [cell_map, hb]; rfl
  obtain ⟨r, h3, h4, h5⟩ := mean_vectorial_accumulate_all 0 i values
    (storage.map (fun _ => (0 : α))) (fun v hv => by rw [hlen v hv, List.length_map])
    (by rw [List.length_map]; exact hi)
  by_cases hn : values.length = 0
  · have hnil : values = [] := List.eq_nil_of_length_eq_zero hn
    rw [h1, h2, Option.some_bind, Option.some_bind, hnil, cell_map, hb]
    show Option.map (cell i) (finalize_loop 0 (storage.map (fun _ => (0 : α)))) =
      (div_cell (0 : α) 0).map (fun q => [q])
    have hd : div_cell (0 : α) 0 = counter_div.div_zero (0 : α) := rfl
    rw [hd]
    cases hz : counter_div.div_zero (0 : α) with
    | none =>
      cases storage with
      | nil => simp at hi
      | cons s t =>
        rw [List.map_cons, finalize_loop_zero_none _ _ hz]
        rfl
    | some q =>
      rw [finalize_loop_zero_const _ q storage hz, Option.map_some', cell_map, hb]
      rfl
  · rw [h1, h2, Option.some_bind, Option.some_bind, h3, h5, Option.some_bind,
      Option.some_bind]
    rw [List.length_map] at h4
    obtain ⟨a, ha⟩ := cell_eq_singleton i r (by omega)
    simp only [Nat.zero_add, acc_mean_impl.finalize, if_true, ha]
    rw [finalize_loop_of_ne_zero _ hn, Option.map_some', cell_map, ha]
    simp [div_cell, hn]

theorem last_vectorial_accumulate_all {α : Type} (i : Nat)
    (values : List (List α)) (storage : List α)
    (hlen : ∀ v, v ∈ values → v.length = storage.length) (hi : i < storage.length) :
    ∃ r, acc_last_impl.accumulate_all { is_vectorial := true } values storage = some r ∧
      r.length = storage.length ∧
      acc_last_impl.accumulate_all { is_vectorial := false } (values.map (cell i))
        (cell i storage) = some (cell i r) := by
  induction values generalizing storage with
  | nil => exact ⟨storage, rfl, rfl, rfl⟩
  | cons v t ih =>
    have hv : v.length = storage.length := hlen v (by simp)
    have hz := length_zipWith_of_eq (fun v _ => v) v storage hv
    obtain ⟨r, h1, h2, h3⟩ := ih (List.zipWith (fun v _ => v) v storage)
      (fun u hu => by rw [hlen u (List.mem_cons_of_mem _ hu), hz]) (by rw [hz]; exact hi)
    refine ⟨r, ?_, by rw [h2, hz], ?_⟩
    · show (acc_last_impl.accumulate _ v storage).bind _ = _
      have h4 : acc_last_impl.accumulate { is_vectorial := true } v storage =
          some (List.zipWith (fun v _ => v) v storage) := by
        unfold acc_last_impl.accumulate
        simp only [if_true]
        exact storage_loop_eq_some _ v storage (by omega)
      rw [h4, Option.some_bind, h1]
    · rw [cell_zipWith] at h3
      obtain ⟨a, ha⟩ := cell_eq_singleton i v (by omega)
      obtain ⟨b, hb⟩ := cell_eq_singleton i storage hi
      rw [List.map_cons, ha, hb]
      rw [ha, hb] at h3
      show (acc_last_impl.accumulate _ [a] [b]).bind _ = _
      have h4 : acc_last_impl.accumulate { is_vectorial := false } [a] [b] = some [a] := rfl
      rw [h4, Option.some_bind]
      exact h3

/-- In vector mode a cycle of a last accumulator leaves at each position what
the scalar mode leaves on the cells of that position. -/
theorem last_vectorial_cycle {α : Type} (i : Nat) (values : List (List α))
    (storage : List α) (hlen : ∀ v, v ∈ values → v.length = storage.length)
    (hi : i < storage.length) :
    Option.map (cell i) ((accumulator_last.make_accumulator true).cycle values storage) =
      (accumulator_last.make_accumulator false).cycle (values.map (cell i))
        (cell i storage) := by
  unfold acc_last_impl.cycle
  have h1 : acc_last_impl.initialize (accumulator_last.make_accumulator true) storage =
      some storage := rfl
  have h2 : acc_last_impl.initialize (accumulator_last.make_accumulator false)
      (cell i storage) = some (cell i storage) := rfl
  obtain ⟨r, h3, _, h5⟩ := last_vectorial_accumulate_all i values storage hlen hi
  rw [h1, h2, Option.some_bind, Option.some_bind]
  show Option.map (cell i)
    ((acc_last_impl.accumulate_all { is_vectorial := true } values storage).bind _) =
    (acc_last_impl.accumulate_all { is_vectorial := false } (values.map (cell i))
      (cell i storage)).bind _
  rw [h3, h5]
  rfl

/-- In vector mode a cycle of a first accumulator leaves at each position
what the scalar mode leaves on the cells of that position. -/
theorem first_vectorial_cycle {α : Type} (i : Nat) (m_first : Bool)
    (values : List (List α)) (storage : List α)
    (hlen : ∀ v, v ∈ values → v.length = storage.length) (hi : i < storage.length) :
    Option.map (cell i)
        ((accumulator_first.make_accumulator true m_first).cycle values storage) =
      (accumulator_first.make_accumulator false m_first).cycle (values.map (cell i))
        (cell i storage) := by
  cases values with
  | nil => rfl
  | cons v t =>
    have hv : v.length = storage.length := hlen v (by simp)
    obtain ⟨a, ha⟩ := cell_eq_singleton i v (by omega)
    obtain ⟨b, hb⟩ := cell_eq_singleton i storage hi
    unfold acc_first_impl.cycle
    rw [first_cycle_state_cons _ v t storage (by omega), List.map_cons,
      first_cycle_state_cons _ (cell i v) (t.map (cell i)) (cell i storage)
        (by rw [ha, hb]; simp),
      ← hv, List.take_length, ha, hb]
    simp only [Option.map_some', ha]
    rfl

/-- C15: vector mode is position-wise. For a buffer and values of the same
length and every position `i` of the buffer, the cell of position `i` after
`initialize`, `accumulate*`, `finalize` in vector mode is what the same
strategy leaves in scalar mode on the cells of position `i`: for the marginal
accumulators of any initial value and reducer (sum, min, max, prod), for
mean, for first and for last. Accumulating `[1, 10]` then `[5, 2]` with max
into a buffer of length 2 yields `[5, 10]`. -/
theorem vectorial_cycle_positionwise (α : Type) [Zero α] [Add α] [counter_div α]
    (values : List (List α)) (storage : List α) (i : Nat)
    (hlen : ∀ v, v ∈ values → v.length = storage.length) (hi : i < storage.length) :
    (∀ (init : α) (reducer : α → α → α),
      Option.map (cell i)
          (acc_marginal_impl.cycle
            { is_vectorial := true, m_init_value := init, m_reducer := reducer }
            values storage) =
        acc_marginal_impl.cycle
          { is_vectorial := false, m_init_value := init, m_reducer := reducer }
          (values.map (cell i)) (cell i storage)) ∧
      Option.map (cell i) ((accumulator_mean.make_accumulator true).cycle values storage) =
        (accumulator_mean.make_accumulator false).cycle (values.map (cell i))
          (cell i storage) ∧
      (∀ m_first,
        Option.map (cell i)
            ((accumulator_first.make_accumulator true m_first).cycle values storage) =
          (accumulator_first.make_accumulator false m_first).cycle (values.map (cell i))
            (cell i storage)) ∧
      Option.map (cell i) ((accumulator_last.make_accumulator true).cycle values storage) =
        (accumulator_last.make_accumulator false).cycle (values.map (cell i))
          (cell i storage) ∧
      (accumulator_max.make_accumulator true).cycle [[1, 10], [5, (2 : Fin 256)]] [0, 0] =
        some [5, 10] :=
  ⟨fun init reducer => marginal_vectorial_cycle init reducer i values storage hlen hi,
    mean_vectorial_cycle i values storage hlen hi,
    fun m_first => first_vectorial_cycle i m_first values storage hlen hi,
    last_vectorial_cycle i values storage hlen hi, by
      simp [acc_marginal_impl.cycle, acc_marginal_impl.initialize,
        acc_marginal_impl.accumulate_all, acc_marginal_impl.accumulate,
        acc_marginal_impl.finalize, accumulator_max.make_accumulator, storage_loop,
        std_max_eq_max]⟩

/-- Witness of C15: the mean of `[1, 10]` and `[5, 2]` at position 1, with
natural-number cells. -/
theorem vectorial_cycle_positionwise_witness :
    (∀ v, v ∈ ([[1, 10], [5, 2]] : List (List Nat)) →
        v.length = ([0, 0] : List Nat).length) ∧
      1 < ([0, 0] : List Nat).length ∧
      Option.map (cell 1)
          ((accumulator_mean.make_accumulator true).cycle
            ([[1, 10], [5, 2]] : List (List Nat)) [0, 0]) =
        (accumulator_mean.make_accumulator false).cycle
          (([[1, 10], [5, 2]] : List (List Nat)).map (cell 1)) (cell 1 [0, 0]) :=
  ⟨by decide, by decide,
    (vectorial_cycle_positionwise Nat [[1, 10], [5, 2]] [0, 0] 1 (by decide)
      (by decide)).2.1⟩

/-! ### Values longer or shorter than the buffer -/

theorem zipWith_take_left {α : Type} (f : α → α → α) (value storage : List α) :
    List.zipWith f (value.take storage.length) storage = List.zipWith f value storage := by
  induction storage generalizing value with
  | nil => simp
  | cons s t ih =>
    cases value with
    | nil => rfl
    | cons v vs => simp [ih vs]

/-- The loop over the storage reads only the first cells of a value that is
at least as long as the storage. -/
theorem storage_loop_take {α : Type} (f : α → α → α) (value storage : List α)
    (h : storage.length ≤ value.length) :
    storage_loop f value storage = storage_loop f (value.take storage.length) storage ∧
      (storage_loop f value storage).isSome = true := by
  rw [storage_loop_eq_some f value storage h,
    storage_loop_eq_some f (value.take storage.length) storage
      (by rw [List.length_take]; omega),
    zipWith_take_left]
  exact ⟨rfl, rfl⟩

/-- C17 (counterexample): in vector mode `accumulate` called with a value of
three cells on a buffer of two cells is not rejected: it returns the result
for the first two cells of the value, for sum, mean, first and last. -/
theorem accumulate_longer_value_not_rejected :
    (accumulator_sum.make_accumulator true).accumulate [1, 2, (3 : Int)] [10, 20] =
        some [11, 22] ∧
      Option.map (fun st => st.2)
          ((accumulator_mean.make_accumulator true).accumulate [1, 2, (3 : Int)] [10, 20]) =
        some [11, 22] ∧
      Option.map (fun st => st.2)
          ((accumulator_first.make_accumulator true true).accumulate [1, 2, (3 : Int)]
            [10, 20]) = some [1, 2] ∧
      (accumulator_last.make_accumulator true).accumulate [1, 2, (3 : Int)] [10, 20] =
        some [1, 2] := by
  decide

/-- C17 (amended): in vector mode `accumulate` does not check the length of
the value. For the marginal accumulators (sum, min, max, prod), mean, first
(on the call that copies) and last, a value at least as long as the buffer
gives the result of its first cells, as many as the buffer holds: a longer
value is silently truncated; a value shorter than the buffer is read past its
end, which has no defined result. -/
theorem vectorial_accumulate_reads_buffer_length (α : Type) [Add α]
    (value storage : List α) :
    (storage.length ≤ value.length →
      (∀ (init : α) (reducer : α → α → α),
        acc_marginal_impl.accumulate
            { is_vectorial := true, m_init_value := init, m_reducer := reducer }
            value storage =
          acc_marginal_impl.accumulate
            { is_vectorial := true, m_init_value := init, m_reducer := reducer }
            (value.take storage.length) storage ∧
        (acc_marginal_impl.accumulate
            { is_vectorial := true, m_init_value := init, m_reducer := reducer }
            value storage).isSome = true) ∧
      (∀ c, acc_mean_impl.accumulate { is_vectorial := true, m_counter := c } value storage =
          acc_mean_impl.accumulate { is_vectorial := true, m_counter := c }
            (value.take storage.length) storage ∧
        (acc_mean_impl.accumulate { is_vectorial := true, m_counter := c } value
          storage).isSome = true) ∧
      (acc_first_impl.accumulate { is_vectorial := true, m_first := true } value storage =
          acc_first_impl.accumulate { is_vectorial := true, m_first := true }
            (value.take storage.length) storage ∧
        (acc_first_impl.accumulate { is_vectorial := true, m_first := true } value
          storage).isSome = true) ∧
      acc_last_impl.accumulate { is_vectorial := true } value storage =
          acc_last_impl.accumulate { is_vectorial := true } (value.take storage.length)
            storage ∧
        (acc_last_impl.accumulate { is_vectorial := true } value storage).isSome = true) ∧
    (value.length < storage.length →
      (∀ (init : α) (reducer : α → α → α),
        acc_marginal_impl.accumulate
          { is_vectorial := true, m_init_value := init, m_reducer := reducer }
          value storage = none) ∧
      (∀ c, acc_mean_impl.accumulate { is_vectorial := true, m_counter := c } value storage =
        none) ∧
      acc_first_impl.accumulate { is_vectorial := true, m_first := true } value storage =
        none ∧
      acc_last_impl.accumulate { is_vectorial := true } value storage = none) := by
  constructor
  · intro h
    refine ⟨fun init reducer => ?_, fun c => ?_, ?_, ?_⟩
    · have := storage_loop_take reducer value storage h
      exact this
    · have := storage_loop_take (fun v s => s + v) value storage h
      unfold acc_mean_impl.accumulate
      simp only [if_true]
      rw [← this.1]
      refine ⟨rfl, ?_⟩
      rw [Option.isSome_map']
      exact this.2
    · have := storage_loop_take (fun (v : α) _ => v) value storage h
      unfold acc_first_impl.accumulate
      simp only [if_true]
      rw [← this.1]
      refine ⟨rfl, ?_⟩
      rw [Option.isSome_map']
      exact this.2
    · have := storage_loop_take (fun (v : α) _ => v) value storage h
      exact this
  · intro h
    refine ⟨fun init reducer => ?_, fun c => ?_, ?_, ?_⟩
    · exact storage_loop_eq_none reducer value storage h
    · unfold acc_mean_impl.accumulate
      simp only [if_true]
      rw [storage_loop_eq_none _ value storage h]
      rfl
    · unfold acc_first_impl.accumulate
      simp only [if_true]
      rw [storage_loop_eq_none _ value storage h]
      rfl
    · exact storage_loop_eq_none _ value storage h

/-- Witness of C17 (amended): a value of three cells and a buffer of two
cells. -/
theorem vectorial_accumulate_reads_buffer_length_witness :
    ([10, 20] : List Int).length ≤ ([1, 2, 3] : List Int).length ∧
      (accumulator_sum.make_accumulator true).accumulate [1, 2, (3 : Int)] [10, 20] =
        (accumulator_sum.make_accumulator true).accumulate
          (([1, 2, 3] : List Int).take ([10, 20] : List Int).length) [10, 20] :=
  ⟨by decide,
    (((vectorial_accumulate_reads_buffer_length Int [1, 2, 3] [10, 20]).1 (by decide)).1 0
      (fun v1 v2 => v1 + v2)).1⟩

/-! ### The divisor of the mean -/

theorem mean_accumulate_counter {α : Type} [Add α] (acc : acc_mean_impl)
    (value storage : List α) (acc1 : acc_mean_impl) (r : List α)
    (h : acc.accumulate value storage = some (acc1, r)) :
    acc1.m_counter = acc.m_counter + 1 ∧ acc1.is_vectorial = acc.is_vectorial := by
  unfold acc_mean_impl.accumulate at h
  simp only [] at h
  split at h
  · cases h2 : storage_loop (fun v s => s + v) value storage with
    | none => rw [h2] at h; cases h
    | some r2 =>
      rw [h2] at h
      simp only [Option.map_some', Option.some.injEq, Prod.mk.injEq] at h
      rw [← h.1]
      exact ⟨rfl, rfl⟩
  · split at h
    · simp only [Option.some.injEq, Prod.mk.injEq] at h
      rw [← h.1]
      exact ⟨rfl, rfl⟩
    · cases h

/-- After `n` successful calls of `accumulate` the counter of a mean
accumulator has grown by `n`. -/
theorem mean_accumulate_all_counter {α : Type} [Add α] (values : List (List α))
    (st st1 : acc_mean_impl × List α)
    (h : acc_mean_impl.accumulate_all values st = some st1) :
    st1.1.m_counter = st.1.m_counter + values.length ∧
      st1.1.is_vectorial = st.1.is_vectorial := by
  induction values generalizing st with
  | nil =>
    simp only [acc_mean_impl.accumulate_all, Option.some.injEq] at h
    rw [← h]
    exact ⟨rfl, rfl⟩
  | cons v t ih =>
    simp only [acc_mean_impl.accumulate_all] at h
    cases h2 : st.1.accumulate v st.2 with
    | none => rw [h2] at h; cases h
    | some st2 =>
      rw [h2, Option.some_bind] at h
      have h3 := ih st2 h
      have h4 := mean_accumulate_counter st.1 v st.2 st2.1 st2.2 h2
      rw [h3.1, h3.2, h4.1, h4.2, List.length_cons]
      exact ⟨by omega, rfl⟩

/-- With a counter that is not zero `finalize` divides every cell it handles
by the counter. -/
theorem mean_finalize_of_ne_zero {α : Type} [counter_div α] (acc : acc_mean_impl)
    (hc : acc.m_counter ≠ 0) (s : α) (rest : List α) :
    acc.finalize (s :: rest) =
      some (if acc.is_vectorial then
          (s :: rest).map (fun x => counter_div.div x acc.m_counter)
        else counter_div.div s acc.m_counter :: rest) := by
  unfold acc_mean_impl.finalize
  cases acc.is_vectorial with
  | true => simp only [if_true]; exact finalize_loop_of_ne_zero _ hc _
  | false => simp [div_cell, hc]

/-- The cycle over no value in scalar mode: the first cell is set to zero
and divided by the zero counter. -/
theorem mean_nil_cycle_scalar {α : Type} [Zero α] [Add α] [counter_div α] (x : α)
    (rest : List α) :
    (accumulator_mean.make_accumulator false).cycle ([] : List (List α)) (x :: rest) =
      (counter_div.div_zero (0 : α)).map (fun q => q :: rest) := rfl

/-- The cycle over no value in vector mode, for a value type whose division
by zero is undefined. -/
theorem mean_nil_cycle_vectorial_none {α : Type} [Zero α] [Add α] [counter_div α] (x : α)
    (rest : List α) (h : counter_div.div_zero (0 : α) = none) :
    (accumulator_mean.make_accumulator true).cycle ([] : List (List α)) (x :: rest) =
      none :=
  finalize_loop_zero_none (0 : α) (rest.map (fun _ => (0 : α))) h

/-- The cycle over no value in vector mode, for a value type whose division
by zero is defined. -/
theorem mean_nil_cycle_vectorial_some {α : Type} [Zero α] [Add α] [counter_div α] (q : α)
    (storage : List α) (h : counter_div.div_zero (0 : α) = some q) :
    (accumulator_mean.make_accumulator true).cycle ([] : List (List α)) storage =
      some (storage.map (fun _ => q)) :=
  finalize_loop_zero_const (0 : α) q storage h

theorem float_cell_div_zero_zero :
    counter_div.div_zero (0 : float_cell) = some float_cell.nan := by
  show some (float_cell.div_zero (float_cell.finite 0)) = some float_cell.nan
  simp [float_cell.div_zero]

/-- C18 (counterexample): with floating cells `finalize` on
a mean accumulator that has accumulated no value returns normally and leaves
NaN in the cells (and an infinity in a cell that held 7 before `finalize`
alone): the division by the zero counter is not reported, it is turned into a
result. -/
theorem mean_finalize_zero_counter_not_reported :
    (accumulator_mean.make_accumulator false).cycle ([] : List (List float_cell))
        [float_cell.finite 7] = some [float_cell.nan] ∧
      (accumulator_mean.make_accumulator true).cycle ([] : List (List float_cell))
        [float_cell.finite 7, float_cell.finite 8] =
          some [float_cell.nan, float_cell.nan] ∧
      acc_mean_impl.finalize (accumulator_mean.make_accumulator false)
        [float_cell.finite 7] = some [float_cell.pos_inf] := by
  refine ⟨?_, ?_, ?_⟩
  · rw [mean_nil_cycle_scalar, float_cell_div_zero_zero]
    rfl
  · rw [mean_nil_cycle_vectorial_some float_cell.nan _ float_cell_div_zero_zero]
    rfl
  · show Option.map (fun q => [q]) (some (float_cell.div_zero (float_cell.finite 7))) = _
    have h7 : float_cell.div_zero (float_cell.finite 7) = float_cell.pos_inf := by
      simp [float_cell.div_zero]
    rw [h7]
    rfl

/-- C18 (amended): `finalize` on a mean accumulator that has accumulated zero
values divides by a zero counter, and nothing checks or reports it: the cell
is left as the division by zero of its value type leaves it. With integer
cells (signed or unsigned) that division is undefined and the cycle has no
result; with floating cells it is defined, and the cycle returns with NaN in
the first cell in scalar mode and in every cell in vector mode. Conversely,
when `n >= 1` values were accumulated into a freshly made accumulator, the
divisor that `finalize` uses is `n`, it is not zero, and `finalize` returns
the cells divided by `n`. -/
theorem mean_finalize_divisor (α : Type) [Zero α] [Add α] [counter_div α]
    (vectorial : Bool) (x s : α) (rest rest2 : List α) (values : List (List α))
    (acc1 : acc_mean_impl) (hne : values ≠ [])
    (hacc : Option.bind
        ( acc_mean_impl.initialize (accumulator_mean.make_accumulator vectorial) (x :: rest))
        (acc_mean_impl.accumulate_all values) = some (acc1, s :: rest2)) :
    div_cell x 0 = counter_div.div_zero x ∧
      (accumulator_mean.make_accumulator false).cycle ([] : List (List α)) (x :: rest) =
        (counter_div.div_zero (0 : α)).map (fun q => q :: rest) ∧
      acc_mean_impl.finalize (accumulator_mean.make_accumulator false) (x :: rest) =
        (counter_div.div_zero x).map (fun q => q :: rest) ∧
      (∀ (vec : Bool) (y : int32) (r : List int32),
        (accumulator_mean.make_accumulator vec).cycle ([] : List (List int32)) (y :: r) =
          none) ∧
      (∀ (vec : Bool) (y : uint32) (r : List uint32),
        (accumulator_mean.make_accumulator vec).cycle ([] : List (List uint32)) (y :: r) =
          none) ∧
      (∀ (y : float_cell) (r : List float_cell),
        (accumulator_mean.make_accumulator false).cycle ([] : List (List float_cell))
            (y :: r) = some (float_cell.nan :: r) ∧
          (accumulator_mean.make_accumulator true).cycle ([] : List (List float_cell))
            (y :: r) = some ((y :: r).map (fun _ => float_cell.nan))) ∧
      acc1.m_counter = values.length ∧ acc1.m_counter ≠ 0 ∧
      acc1.finalize (s :: rest2) =
        some (if vectorial then (s :: rest2).map (fun y => counter_div.div y values.length)
          else counter_div.div s values.length :: rest2) := by
  have hinit : acc_mean_impl.initialize (accumulator_mean.make_accumulator vectorial)
      (x :: rest) =
      some (accumulator_mean.make_accumulator vectorial,
        if vectorial then (x :: rest).map (fun _ => (0 : α)) else (0 : α) :: rest) := by
    cases vectorial <;> rfl
  rw [hinit, Option.some_bind] at hacc
  have hcount := mean_accumulate_all_counter values _ _ hacc
  have hlen : values.length ≠ 0 := fun e => hne (List.eq_nil_of_length_eq_zero e)
  have hc : acc1.m_counter = values.length := by
    rw [hcount.1]
    show 0 + values.length = values.length
    omega
  have hv : acc1.is_vectorial = vectorial := hcount.2
  refine ⟨rfl, rfl, rfl, ?_, ?_, ?_, hc, by rw [hc]; exact hlen, ?_⟩
  · intro vec y r
    cases vec
    · rfl
    · exact mean_nil_cycle_vectorial_none y r rfl
  · intro vec y r
    cases vec
    · rfl
    · exact mean_nil_cycle_vectorial_none y r rfl
  · intro y r
    constructor
    · rw [mean_nil_cycle_scalar, float_cell_div_zero_zero]
      rfl
    · exact mean_nil_cycle_vectorial_some float_cell.nan (y :: r) float_cell_div_zero_zero
  · rw [mean_finalize_of_ne_zero acc1 (by rw [hc]; exact hlen), hc, hv]

/-- Witness of C18 (amended): the values `[2, 3, 4]` accumulated in scalar
mode. -/
theorem mean_finalize_divisor_witness :
    scalar_values [2, 3, (4 : ℚ)] ≠ [] ∧
      Option.bind
          ( acc_mean_impl.initialize (accumulator_mean.make_accumulator false) [(7 : ℚ)])
          (acc_mean_impl.accumulate_all (scalar_values [2, 3, (4 : ℚ)])) =
        some ({ is_vectorial := false, m_counter := 3 }, [9]) ∧
      (({ is_vectorial := false, m_counter := 3 } : acc_mean_impl).m_counter = 3) ∧
      (({ is_vectorial := false, m_counter := 3 } : acc_mean_impl).m_counter ≠ 0) := by
  have h : Option.bind
      ( acc_mean_impl.initialize (accumulator_mean.make_accumulator false) [(7 : ℚ)])
      (acc_mean_impl.accumulate_all (scalar_values [2, 3, (4 : ℚ)])) =
      some ({ is_vectorial := false, m_counter := 3 }, [9]) := by
    simp only [accumulator_mean.make_accumulator, acc_mean_impl.mk_bound,
      acc_mean_impl.initialize, store_begin, scalar_values, List.map,
      acc_mean_impl.accumulate_all, acc_mean_impl.accumulate, Option.map_some',
      Option.some_bind, Bool.false_eq_true, if_false]
    norm_num
  have hne : scalar_values [2, 3, (4 : ℚ)] ≠ [] := by simp [scalar_values]
  have hw := mean_finalize_divisor ℚ false 7 9 [] [] (scalar_values [2, 3, 4])
    { is_vectorial := false, m_counter := 3 } hne h
  exact ⟨hne, h, hw.2.2.2.2.2.2.1, hw.2.2.2.2.2.2.2.1⟩

/-! ### The assertions of `make_region_adjacency_graph` -/

theorem make_region_adjacency_graph_error {g : ugraph} {labels : List Int}
    (h : labels.length ≠ num_vertices g) :
    make_region_adjacency_graph g labels =
      Except.error "Vertex labels size does not match graph number of vertices." := by
  unfold make_region_adjacency_graph
  rw [if_pos h]

/-- C19: `make_region_adjacency_graph` called with labels that are not
one-dimensional, or whose number of entries differs from
`num_vertices(graph)`, returns the error of the failed assertion and no
result, whatever the graph is: no vertex is explored and the state before the
vertex loop is not even built. -/
theorem make_region_adjacency_graph_rejects_labels (g : ugraph)
    (xvertex_labels : xexpression)
    (h : xvertex_labels.dimension ≠ 1 ∨ xvertex_labels.size ≠ num_vertices g) :
    (∃ msg, make_region_adjacency_graph_xexpression g xvertex_labels = Except.error msg) ∧
      (∀ r, make_region_adjacency_graph_xexpression g xvertex_labels ≠ Except.ok r) ∧
      ((xvertex_labels.dimension ≠ 1 →
        make_region_adjacency_graph_xexpression g xvertex_labels =
          Except.error "Vertex labels must be scalar numbers.") ∧
       (xvertex_labels.dimension = 1 →
        make_region_adjacency_graph_xexpression g xvertex_labels =
          Except.error "Vertex labels size does not match graph number of vertices.")) := by
  have hdim : xvertex_labels.dimension ≠ 1 →
      make_region_adjacency_graph_xexpression g xvertex_labels =
        Except.error "Vertex labels must be scalar numbers." := by
    intro hd
    unfold make_region_adjacency_graph_xexpression
    rw [if_pos hd]
  have hsize : xvertex_labels.dimension = 1 →
      make_region_adjacency_graph_xexpression g xvertex_labels =
        Except.error "Vertex labels size does not match graph number of vertices." := by
    intro hd
    have hs : xvertex_labels.data.length ≠ num_vertices g := by
      rcases h with h | h
      · exact absurd hd h
      · exact h
    unfold make_region_adjacency_graph_xexpression
    rw [if_neg (by simpa using hd)]
    exact make_region_adjacency_graph_error hs
  have hex : ∃ msg, make_region_adjacency_graph_xexpression g xvertex_labels =
      Except.error msg := by
    by_cases hd : xvertex_labels.dimension = 1
    · exact ⟨_, hsize hd⟩
    · exact ⟨_, hdim hd⟩
  refine ⟨hex, ?_, hdim, hsize⟩
  intro r hr
  obtain ⟨msg, hm⟩ := hex
  rw [hm] at hr
  cases hr

/-- Witness of C19: three labels for the four vertices of the triangle
graph. -/
theorem make_region_adjacency_graph_rejects_labels_witness :
    ((⟨[3], [1, 1, 2]⟩ : xexpression).dimension ≠ 1 ∨
        (⟨[3], [1, 1, 2]⟩ : xexpression).size ≠ num_vertices triangle_graph) ∧
      make_region_adjacency_graph_xexpression triangle_graph ⟨[3], [1, 1, 2]⟩ =
        Except.error "Vertex labels size does not match graph number of vertices." :=
  ⟨by decide,
    (make_region_adjacency_graph_rejects_labels triangle_graph ⟨[3], [1, 1, 2]⟩
      (by decide)).2.2.2 (by decide)⟩

/-! ### Rebinding -/

theorem marginal_cycle_cell_mode {α : Type} (init : α) (reducer : α → α → α)
    (vs : List α) (x : α) :
    acc_marginal_impl.cycle
        { is_vectorial := false, m_init_value := init, m_reducer := reducer }
        (scalar_values vs) [x] =
      acc_marginal_impl.cycle
        { is_vectorial := true, m_init_value := init, m_reducer := reducer }
        (scalar_values vs) [x] := by
  rw [marginal_cycle_cell, marginal_cycle_cell]

theorem mean_cycle_cell_mode {α : Type} [AddMonoid α] [counter_div α] (vs : List α) (x : α) :
    (accumulator_mean.make_accumulator false).cycle (scalar_values vs) [x] =
      (accumulator_mean.make_accumulator true).cycle (scalar_values vs) [x] := by
  cases vs with
  | nil =>
    show (div_cell (0 : α) 0).map (fun q => [q]) = finalize_loop 0 [(0 : α)]
    unfold finalize_loop
    cases div_cell (0 : α) 0 <;> rfl
  | cons v t =>
    rw [mean_cell_cycle false (v :: t) (by simp) x, mean_cell_cycle true (v :: t) (by simp) x]

theorem counter_accumulate_all_mode {α β : Type} [One α] [Add α] (values : List β)
    (storage : List α) :
    acc_counter_impl.accumulate_all { is_vectorial := false } values storage =
      acc_counter_impl.accumulate_all { is_vectorial := true } values storage := by
  induction values generalizing storage with
  | nil => rfl
  | cons v t ih =>
    show (acc_counter_impl.accumulate { is_vectorial := false } v storage).bind _ =
      (acc_counter_impl.accumulate { is_vectorial := true } v storage).bind _
    have h : acc_counter_impl.accumulate { is_vectorial := false } v storage =
        acc_counter_impl.accumulate { is_vectorial := true } v storage := rfl
    rw [h]
    cases acc_counter_impl.accumulate { is_vectorial := true } v storage with
    | none => rfl
    | some r => exact ih r

/-- The counter accumulator has one code path: the mode changes nothing,
whatever the storage and the values are. -/
theorem counter_cycle_mode {α β : Type} [Zero α] [One α] [Add α] (values : List β)
    (storage : List α) :
    (accumulator_counter.make_accumulator false).cycle values storage =
      (accumulator_counter.make_accumulator true).cycle values storage := by
  unfold acc_counter_impl.cycle
  have h : acc_counter_impl.initialize (accumulator_counter.make_accumulator false) storage =
      acc_counter_impl.initialize (accumulator_counter.make_accumulator true) storage := rfl
  rw [h]
  cases acc_counter_impl.initialize (accumulator_counter.make_accumulator true) storage with
  | none => rfl
  | some r =>
    rw [Option.some_bind, Option.some_bind]
    show (acc_counter_impl.accumulate_all { is_vectorial := false } values r).bind _ =
      (acc_counter_impl.accumulate_all { is_vectorial := true } values r).bind _
    rw [counter_accumulate_all_mode]
    rfl

theorem first_cycle_state_short {α : Type} (acc : acc_first_impl) (v : List α)
    (values : List (List α)) (storage : List α) (h : v.length < storage.length) :
    acc.cycle_state (v :: values) storage = none := by
  unfold acc_first_impl.cycle_state
  have h2 : acc_first_impl.initialize acc storage =
      some ({ is_vectorial := acc.is_vectorial, m_first := true }, storage) := rfl
  have h3 : acc_first_impl.accumulate
      { is_vectorial := acc.is_vectorial, m_first := true } v storage = none := by
    unfold acc_first_impl.accumulate
    simp only [if_true]
    rw [storage_loop_eq_none _ v storage h]
    rfl
  have h4 : acc_first_impl.accumulate_all (v :: values)
      (({ is_vectorial := acc.is_vectorial, m_first := true } : acc_first_impl), storage) =
      none := by
    show (acc_first_impl.accumulate { is_vectorial := acc.is_vectorial, m_first := true } v
      storage).bind (acc_first_impl.accumulate_all values) = none
    rw [h3]
    rfl
  rw [h2, Option.some_bind, h4]
  rfl

/-- The first accumulator has one code path: the mode changes nothing,
whatever the storage and the values are. -/
theorem first_cycle_mode {α : Type} (m_first : Bool) (values : List (List α))
    (storage : List α) :
    (accumulator_first.make_accumulator false m_first).cycle values storage =
      (accumulator_first.make_accumulator true m_first).cycle values storage := by
  cases values with
  | nil => rfl
  | cons v t =>
    unfold acc_first_impl.cycle
    rcases Nat.lt_or_ge v.length storage.length with h | h
    · rw [first_cycle_state_short _ v t storage h, first_cycle_state_short _ v t storage h]
    · rw [first_cycle_state_cons _ v t storage h, first_cycle_state_cons _ v t storage h]
      rfl

theorem last_accumulate_all_cell_mode {α : Type} (vs : List α) (x : α) :
    acc_last_impl.accumulate_all { is_vectorial := false } (scalar_values vs) [x] =
      acc_last_impl.accumulate_all { is_vectorial := true } (scalar_values vs) [x] := by
  induction vs generalizing x with
  | nil => rfl
  | cons v t ih =>
    show (acc_last_impl.accumulate { is_vectorial := false } [v] [x]).bind _ =
      (acc_last_impl.accumulate { is_vectorial := true } [v] [x]).bind _
    have h1 : acc_last_impl.accumulate { is_vectorial := false } [v] [x] = some [v] := rfl
    have h2 : acc_last_impl.accumulate { is_vectorial := true } [v] [x] = some [v] := rfl
    rw [h1, h2, Option.some_bind, Option.some_bind]
    exact ih v

theorem last_cycle_cell_mode {α : Type} (vs : List α) (x : α) :
    (accumulator_last.make_accumulator false).cycle (scalar_values vs) [x] =
      (accumulator_last.make_accumulator true).cycle (scalar_values vs) [x] := by
  unfold acc_last_impl.cycle
  have h1 : ∀ b : Bool, acc_last_impl.initialize (accumulator_last.make_accumulator b) [x] =
      some [x] := fun _ => rfl
  rw [h1 false, h1 true, Option.some_bind, Option.some_bind]
  show (acc_last_impl.accumulate_all { is_vectorial := false } (scalar_values vs) [x]).bind _ =
    (acc_last_impl.accumulate_all { is_vectorial := true } (scalar_values vs) [x]).bind _
  rw [last_accumulate_all_cell_mode]
  rfl

/-- C26: the scalar and the vector code paths agree on a single cell. For
each of the eight strategies, for a storage of one cell and every finite
sequence of values of one cell, the accumulator made with `vectorial = false`
and the one made with `vectorial = true` leave the same storage content (or
both no result) after the same `initialize`, `accumulate*`, `finalize`
sequence. -/
theorem scalar_and_vectorial_agree_on_cell (α : Type) [AddMonoid α] [One α] [Mul α]
    [LT α] [DecidableRel (fun (a b : α) => a < b)] [Top α] [Bot α] [counter_div α]
    (vs : List α) (x : α) (m_first : Bool) :
    (accumulator_sum.make_accumulator false).cycle (scalar_values vs) [x] =
        (accumulator_sum.make_accumulator true).cycle (scalar_values vs) [x] ∧
      (accumulator_min.make_accumulator false).cycle (scalar_values vs) [x] =
        (accumulator_min.make_accumulator true).cycle (scalar_values vs) [x] ∧
      (accumulator_max.make_accumulator false).cycle (scalar_values vs) [x] =
        (accumulator_max.make_accumulator true).cycle (scalar_values vs) [x] ∧
      (accumulator_prod.make_accumulator false).cycle (scalar_values vs) [x] =
        (accumulator_prod.make_accumulator true).cycle (scalar_values vs) [x] ∧
      (accumulator_mean.make_accumulator false).cycle (scalar_values vs) [x] =
        (accumulator_mean.make_accumulator true).cycle (scalar_values vs) [x] ∧
      (accumulator_counter.make_accumulator false).cycle (scalar_values vs) [x] =
        (accumulator_counter.make_accumulator true).cycle (scalar_values vs) [x] ∧
      (accumulator_first.make_accumulator false m_first).cycle (scalar_values vs) [x] =
        (accumulator_first.make_accumulator true m_first).cycle (scalar_values vs) [x] ∧
      (accumulator_last.make_accumulator false).cycle (scalar_values vs) [x] =
        (accumulator_last.make_accumulator true).cycle (scalar_values vs) [x] :=
  ⟨marginal_cycle_cell_mode _ _ vs x, marginal_cycle_cell_mode _ _ vs x,
    marginal_cycle_cell_mode _ _ vs x, marginal_cycle_cell_mode _ _ vs x,
    mean_cycle_cell_mode vs x, counter_cycle_mode _ _, first_cycle_mode m_first _ _,
    last_cycle_cell_mode vs x⟩

/-! ### The cells that the counter leaves alone -/

/-- C30: the counter accumulator writes a single cell. Bound in either mode
to a buffer `x :: rest`, each of `initialize`, `accumulate` and `finalize`,
and so a whole cycle, changes at most the cell of position 0: the cells
`rest` of the positions 1 and above keep the values they had. -/
theorem counter_writes_first_cell (α β : Type) [AddMonoidWithOne α] (vectorial : Bool)
    (x : α) (rest : List α) (value : β) (values : List β) :
    acc_counter_impl.initialize (accumulator_counter.make_accumulator vectorial)
        (x :: rest) = some ((0 : α) :: rest) ∧
      (accumulator_counter.make_accumulator vectorial).accumulate value (x :: rest) =
        some ((x + 1) :: rest) ∧
      (accumulator_counter.make_accumulator vectorial).finalize (x :: rest) =
        some (x :: rest) ∧
      (accumulator_counter.make_accumulator vectorial).cycle values (x :: rest) =
        some ((values.length : α) :: rest) ∧
      (accumulator_counter.make_accumulator vectorial).cycle [[2, 3], [4, (5 : Int)]]
        [(7 : Int), 8, 9] = some [2, 8, 9] := by
  refine ⟨rfl, rfl, rfl, counter_cycle_eq _ values x rest, ?_⟩
  rw [counter_cycle_eq]
  rfl


/-! ### The order of accumulation -/

theorem storage_loop_comm {α : Type} (f : α → α → α)
    (hf : ∀ a b c, f a (f b c) = f b (f a c)) (x y s : List α) :
    (storage_loop f x s).bind (storage_loop f y) =
      (storage_loop f y s).bind (storage_loop f x) := by
  induction s generalizing x y with
  | nil => cases x <;> cases y <;> rfl
  | cons c t ih =>
    cases x with
    | nil =>
      cases y with
      | nil => rfl
      | cons b ys =>
        show none = ((storage_loop f ys t).map (fun r => f b c :: r)).bind (storage_loop f [])
        cases storage_loop f ys t <;> rfl
    | cons a xs =>
      cases y with
      | nil =>
        show ((storage_loop f xs t).map (fun r => f a c :: r)).bind (storage_loop f []) = none
        cases storage_loop f xs t <;> rfl
      | cons b ys =>
        have h := ih xs ys
        show ((storage_loop f xs t).map (fun r => f a c :: r)).bind (storage_loop f (b :: ys)) =
          ((storage_loop f ys t).map (fun r => f b c :: r)).bind (storage_loop f (a :: xs))
        cases h1 : storage_loop f xs t with
        | none =>
          rw [h1] at h
          cases h2 : storage_loop f ys t with
          | none => rfl
          | some r2 =>
            rw [h2] at h
            simp only [Option.none_bind, Option.some_bind] at h
            simp only [Option.map_none', Option.none_bind, Option.map_some', Option.some_bind,
              storage_loop, ← h]
        | some r1 =>
          rw [h1] at h
          cases h2 : storage_loop f ys t with
          | none =>
            rw [h2] at h
            simp only [Option.none_bind, Option.some_bind] at h
            simp only [Option.map_none', Option.none_bind, Option.map_some', Option.some_bind,
              storage_loop, h]
          | some r2 =>
            rw [h2] at h
            simp only [Option.some_bind] at h
            simp only [Option.map_some', Option.some_bind, storage_loop, h, hf a b c]

theorem marginal_accumulate_comm {α : Type} (acc : acc_marginal_impl α)
    (hf : ∀ a b c, acc.m_reducer a (acc.m_reducer b c) = acc.m_reducer b (acc.m_reducer a c))
    (x y s : List α) :
    (acc.accumulate x s).bind (acc.accumulate y) =
      (acc.accumulate y s).bind (acc.accumulate x) := by
  cases hv : acc.is_vectorial with
  | true =>
    have h1 : ∀ v r, acc.accumulate v r = storage_loop acc.m_reducer v r := by
      intro v r
      unfold acc_marginal_impl.accumulate
      rw [hv]; rfl
    have h2 : acc.accumulate x = storage_loop acc.m_reducer x := funext (h1 x)
    have h3 : acc.accumulate y = storage_loop acc.m_reducer y := funext (h1 y)
    rw [h2, h3]
    exact storage_loop_comm acc.m_reducer hf x y s
  | false =>
    have h1 : ∀ (v r : List α), acc.accumulate v r =
        match v, r with
        | a :: _, c :: rest => some (acc.m_reducer a c :: rest)
        | _, _ => none := by
      intro v r
      unfold acc_marginal_impl.accumulate
      rw [hv]; rfl
    cases x with
    | nil =>
      cases y with
      | nil => rfl
      | cons b ys =>
        cases s with
        | nil => simp [h1]
        | cons c t => simp [h1]
    | cons a xs =>
      cases y with
      | nil =>
        cases s with
        | nil => simp [h1]
        | cons c t => simp [h1]
      | cons b ys =>
        cases s with
        | nil => simp [h1]
        | cons c t => simp [h1, hf a b c]

theorem marginal_accumulate_all_perm {α : Type} (acc : acc_marginal_impl α)
    (hf : ∀ a b c, acc.m_reducer a (acc.m_reducer b c) = acc.m_reducer b (acc.m_reducer a c))
    (values values2 : List (List α)) (h : values.Perm values2) (storage : List α) :
    acc.accumulate_all values storage = acc.accumulate_all values2 storage := by
  induction h generalizing storage with
  | nil => rfl
  | cons v _ ih =>
    simp only [acc_marginal_impl.accumulate_all]
    cases acc.accumulate v storage with
    | none => rfl
    | some r => exact ih r
  | swap x y l =>
    simp only [acc_marginal_impl.accumulate_all]
    have h := marginal_accumulate_comm acc hf y x storage
    rw [← Option.bind_assoc, ← Option.bind_assoc, h]
  | trans _ _ ih1 ih2 => rw [ih1, ih2]

/-- A cycle of a marginal accumulator whose reducer is left-commutative does
not depend on the order of the values, whatever the mode, the storage and the
values are. -/
theorem marginal_cycle_perm {α : Type} (acc : acc_marginal_impl α)
    (hf : ∀ a b c, acc.m_reducer a (acc.m_reducer b c) = acc.m_reducer b (acc.m_reducer a c))
    (values values2 : List (List α)) (h : values.Perm values2) (storage : List α) :
    acc.cycle values storage = acc.cycle values2 storage := by
  unfold acc_marginal_impl.cycle
  cases acc_marginal_impl.initialize acc storage with
  | none => rfl
  | some r =>
    rw [Option.some_bind, Option.some_bind, marginal_accumulate_all_perm acc hf _ _ h]


theorem mean_accumulate_eq_marginal {α : Type} [Zero α] [Add α] (acc : acc_mean_impl)
    (v s : List α) :
    acc.accumulate v s =
      Option.map (fun r => ({ acc with m_counter := acc.m_counter + 1 }, r))
        (acc_marginal_impl.accumulate
          (⟨acc.is_vectorial, 0, fun v s => s + v⟩ : acc_marginal_impl α) v s) := by
  unfold acc_mean_impl.accumulate acc_marginal_impl.accumulate
  simp only []
  cases acc.is_vectorial with
  | true => rfl
  | false =>
    simp only [Bool.false_eq_true, if_false]
    cases v with
    | nil => rfl
    | cons a xs =>
      cases s with
      | nil => rfl
      | cons c t => rfl

theorem mean_accumulate_all_eq_marginal {α : Type} [Zero α] [Add α] (vectorial : Bool)
    (c : Nat) (values : List (List α)) (s : List α) :
    acc_mean_impl.accumulate_all values
        (({ is_vectorial := vectorial, m_counter := c } : acc_mean_impl), s) =
      Option.map
        (fun r => (({ is_vectorial := vectorial, m_counter := c + values.length } :
          acc_mean_impl), r))
        (acc_marginal_impl.accumulate_all
          (⟨vectorial, 0, fun v s => s + v⟩ : acc_marginal_impl α) values s) := by
  induction values generalizing c s with
  | nil => rfl
  | cons v t ih =>
    simp only [acc_mean_impl.accumulate_all, acc_marginal_impl.accumulate_all,
      mean_accumulate_eq_marginal]
    cases acc_marginal_impl.accumulate
        (⟨vectorial, 0, fun v s => s + v⟩ : acc_marginal_impl α) v s with
    | none => rfl
    | some r =>
      simp only [Option.map_some', Option.some_bind]
      rw [ih]
      simp only [List.length_cons]
      have hc : c + 1 + t.length = c + (t.length + 1) := by omega
      rw [hc]

/-- A cycle of a mean accumulator does not depend on the order of the values,
whatever the mode, the counter, the storage and the values are. -/
theorem mean_cycle_perm {α : Type} [AddCommMonoid α] [counter_div α] (acc : acc_mean_impl)
    (values values2 : List (List α)) (h : values.Perm values2) (storage : List α) :
    acc.cycle values storage = acc.cycle values2 storage := by
  unfold acc_mean_impl.cycle
  cases h1 : acc_mean_impl.initialize acc storage with
  | none => rfl
  | some st =>
    rw [Option.some_bind, Option.some_bind]
    have hst : st = (({ is_vectorial := st.1.is_vectorial, m_counter := st.1.m_counter } :
        acc_mean_impl), st.2) := rfl
    rw [hst, mean_accumulate_all_eq_marginal, mean_accumulate_all_eq_marginal,
      marginal_accumulate_all_perm _ (fun a b c => add_right_comm c b a) _ _ h, h.length_eq]

/-- A cycle of a counter accumulator depends on the values through their
number only. -/
theorem counter_cycle_length {α β : Type} [AddMonoidWithOne α] (acc : acc_counter_impl)
    (values values2 : List β) (h : values.length = values2.length) (storage : List α) :
    acc.cycle values storage = acc.cycle values2 storage := by
  cases storage with
  | nil => rfl
  | cons x rest => rw [counter_cycle_eq, counter_cycle_eq, h]

theorem std_min_left_comm {α : Type} [LinearOrder α] (a b c : α) :
    std_min a (std_min b c) = std_min b (std_min a c) := by
  simp only [std_min_eq_min]
  exact min_left_comm a b c

theorem std_max_left_comm {α : Type} [LinearOrder α] (a b c : α) :
    std_max a (std_max b c) = std_max b (std_max a c) := by
  simp only [std_max_eq_max]
  exact max_left_comm a b c

/-- C29: for sum and prod (in exact arithmetic), min and max (on a bounded
linear order), counter and mean (with a commutative addition), in either mode
and for any storage and values, the result of `initialize`, `accumulate*`,
`finalize` is the same for a sequence of values and for every permutation of
it; first and last depend on the order, as `[2]`, `[3]` against `[3]`, `[2]`
shows. -/
theorem cycle_independent_of_order (α β γ : Type) [CommSemiring α] [LinearOrder β]
    [BoundedOrder β] [AddCommMonoidWithOne γ] [counter_div γ]
    (vectorial : Bool)
    (values values2 : List (List α)) (storage : List α) (h : values.Perm values2)
    (bvalues bvalues2 : List (List β)) (bstorage : List β) (hb : bvalues.Perm bvalues2)
    (cvalues cvalues2 : List (List γ)) (cstorage : List γ) (hc : cvalues.Perm cvalues2) :
    (accumulator_sum.make_accumulator vectorial).cycle values storage =
        (accumulator_sum.make_accumulator vectorial).cycle values2 storage ∧
      (accumulator_prod.make_accumulator vectorial).cycle values storage =
        (accumulator_prod.make_accumulator vectorial).cycle values2 storage ∧
      (accumulator_min.make_accumulator vectorial).cycle bvalues bstorage =
        (accumulator_min.make_accumulator vectorial).cycle bvalues2 bstorage ∧
      (accumulator_max.make_accumulator vectorial).cycle bvalues bstorage =
        (accumulator_max.make_accumulator vectorial).cycle bvalues2 bstorage ∧
      (accumulator_mean.make_accumulator vectorial).cycle cvalues cstorage =
        (accumulator_mean.make_accumulator vectorial).cycle cvalues2 cstorage ∧
      (accumulator_counter.make_accumulator vectorial).cycle cvalues cstorage =
        (accumulator_counter.make_accumulator vectorial).cycle cvalues2 cstorage ∧
      (accumulator_first.make_accumulator vectorial true).cycle [[2], [(3 : Int)]] [7] ≠
        (accumulator_first.make_accumulator vectorial true).cycle [[3], [(2 : Int)]] [7] ∧
      (accumulator_last.make_accumulator vectorial).cycle [[2], [(3 : Int)]] [7] ≠
        (accumulator_last.make_accumulator vectorial).cycle [[3], [(2 : Int)]] [7] := by
  refine ⟨marginal_cycle_perm _ (fun a b c => add_left_comm a b c) _ _ h storage,
    marginal_cycle_perm _ (fun a b c => mul_left_comm a b c) _ _ h storage,
    marginal_cycle_perm _ (fun a b c => std_min_left_comm a b c) _ _ hb bstorage,
    marginal_cycle_perm _ (fun a b c => std_max_left_comm a b c) _ _ hb bstorage,
    mean_cycle_perm _ _ _ hc cstorage,
    counter_cycle_length _ _ _ hc.length_eq cstorage, ?_, ?_⟩
  · cases vectorial <;> decide
  · cases vectorial <;> decide

/-- Witness of C29: `[2, 3, 4]` and `[4, 2, 3]`. -/
theorem cycle_independent_of_order_witness :
    (scalar_values [2, 3, (4 : Int)]).Perm (scalar_values [4, 2, 3]) ∧
      (scalar_values [2, 3, (4 : Fin 256)]).Perm (scalar_values [4, 2, 3]) ∧
      (scalar_values [2, 3, (4 : Nat)]).Perm (scalar_values [4, 2, 3]) ∧
      (accumulator_sum.make_accumulator false).cycle (scalar_values [2, 3, (4 : Int)]) [7] =
        (accumulator_sum.make_accumulator false).cycle (scalar_values [4, 2, 3]) [7] ∧
      (accumulator_mean.make_accumulator false).cycle (scalar_values [2, 3, (4 : Nat)]) [7] =
        (accumulator_mean.make_accumulator false).cycle (scalar_values [4, 2, 3]) [7] := by
  have h1 : (scalar_values [2, 3, (4 : Int)]).Perm (scalar_values [4, 2, 3]) := by decide
  have h2 : (scalar_values [2, 3, (4 : Fin 256)]).Perm (scalar_values [4, 2, 3]) := by
    decide
  have h3 : (scalar_values [2, 3, (4 : Nat)]).Perm (scalar_values [4, 2, 3]) := by decide
  have h := cycle_independent_of_order Int (Fin 256) Nat false _ _ [7] h1 _ _ [7] h2 _ _ [7]
    h3
  exact ⟨h1, h2, h3, h.1, h.2.2.2.2.1⟩



/-! # Further properties of the contraction -/

/-! ### The orientation of the region edges -/

theorem outer_canonical_ordered {g : ugraph} {labels : List Int} {i : Nat} {st : rag_state}
    (h : Outer g labels i st) {a b id : Nat}
    (hl : st.canonical_edge.lookup (a, b) = some id) :
    a < b ∧ b < st.num_regions ∧ st.canonical_edge.lookup (b, a) = none ∧
      id < num_edges st.rag ∧ edge id st.rag = (a, b) := by
  have h1 := (h.canon a b id).1 hl
  have h2 := h.rag_lt id a b h1
  have h3 := edge_of_getElem? h1
  refine ⟨h2.1, h2.2, ?_, h3.1, h3.2⟩
  cases hr : st.canonical_edge.lookup (b, a) with
  | none => rfl
  | some id2 =>
    have h4 := h.rag_lt id2 b a ((h.canon b a id2).1 hr)
    omega

theorem outer_rag_source_lt_target {g : ugraph} {labels : List Int} {i : Nat}
    {st : rag_state} (h : Outer g labels i st) {id : Nat} (hid : id < num_edges st.rag) :
    source (edge id st.rag) < target (edge id st.rag) ∧
      target (edge id st.rag) < st.num_regions ∧
      st.canonical_edge.lookup (source (edge id st.rag), target (edge id st.rag)) =
        some id := by
  have h1 := getElem?_of_edge hid
  have h2 := h.rag_lt id (edge id st.rag).1 (edge id st.rag).2 h1
  exact ⟨h2.1, h2.2, (h.canon _ _ id).2 h1⟩

/-- C27: for a well-formed graph with valid labels, every edge of the region
graph has a source region id strictly smaller than its target region id and
is the entry of the canonical-edge table under the key `(source, target)`;
and at every stage of the vertex loop a key `(a, b)` of the canonical-edge
table has `a < b`, names the rag edge of endpoints `(a, b)`, and the reversed
pair `(b, a)` is not a key. -/
theorem rag_edge_source_lt_target (g : ugraph) (vertex_labels : List Int)
    (hg : valid_graph g) (hl : vertex_labels.length = num_vertices g) :
    ∃ r, make_region_adjacency_graph g vertex_labels = Except.ok r ∧
      (∀ i, i < num_edges r.rag →
        source (edge i r.rag) < target (edge i r.rag) ∧
        target (edge i r.rag) < num_vertices r.rag ∧
        (run_vertices g vertex_labels (vertex_iterator g)).canonical_edge.lookup
          (source (edge i r.rag), target (edge i r.rag)) = some i) ∧
      ∀ j, j ≤ num_vertices g → ∀ a b id,
        (run_vertices g vertex_labels (List.range j)).canonical_edge.lookup (a, b) =
          some id →
        a < b ∧ b < (run_vertices g vertex_labels (List.range j)).num_regions ∧
          (run_vertices g vertex_labels (List.range j)).canonical_edge.lookup (b, a) =
            none ∧
          id < num_edges (run_vertices g vertex_labels (List.range j)).rag ∧
          edge id (run_vertices g vertex_labels (List.range j)).rag = (a, b) := by
  refine ⟨_, make_region_adjacency_graph_ok hl, ?_, ?_⟩
  · intro i hi
    have h := final_outer hg vertex_labels
    have h1 := outer_rag_source_lt_target h hi
    refine ⟨h1.1, ?_, h1.2.2⟩
    have h2 := h.rag_nv
    unfold num_vertices
    rw [h2]
    exact h1.2.1
  · intro j hj a b id hlook
    exact outer_canonical_ordered (run_vertices_outer hg vertex_labels j hj) hlook

/-- Witness of C27: the graph with a self-loop and parallel edges. -/
theorem rag_edge_source_lt_target_witness :
    valid_graph loop_graph ∧ [1, 2, 1, (2 : Int)].length = num_vertices loop_graph ∧
    ∃ r, make_region_adjacency_graph loop_graph [1, 2, 1, 2] = Except.ok r ∧
      (∀ i, i < num_edges r.rag →
        source (edge i r.rag) < target (edge i r.rag) ∧
        target (edge i r.rag) < num_vertices r.rag ∧
        (run_vertices loop_graph [1, 2, 1, 2] (vertex_iterator loop_graph)).canonical_edge.lookup
          (source (edge i r.rag), target (edge i r.rag)) = some i) ∧
      ∀ j, j ≤ num_vertices loop_graph → ∀ a b id,
        (run_vertices loop_graph [1, 2, 1, 2] (List.range j)).canonical_edge.lookup (a, b) =
          some id →
        a < b ∧ b < (run_vertices loop_graph [1, 2, 1, 2] (List.range j)).num_regions ∧
          (run_vertices loop_graph [1, 2, 1, 2] (List.range j)).canonical_edge.lookup (b, a) =
            none ∧
          id < num_edges (run_vertices loop_graph [1, 2, 1, 2] (List.range j)).rag ∧
          edge id (run_vertices loop_graph [1, 2, 1, 2] (List.range j)).rag = (a, b) :=
  ⟨by decide, by decide,
    rag_edge_source_lt_target loop_graph [1, 2, 1, 2] (by decide) (by decide)⟩

/-! ### Isolated vertices -/

theorem reach_isolated {g : ugraph} {labels : List Int} {u v : Nat}
    (hv : ∀ ei, ei < num_edges g → source (edge ei g) ≠ v ∧ target (edge ei g) ≠ v)
    (h : Relation.ReflTransGen (same_label_step g labels) u v) : u = v := by
  rcases Relation.ReflTransGen.cases_tail h with h1 | ⟨b, _, hb⟩
  · exact h1.symm
  · obtain ⟨ei, hei, he⟩ := hb.1
    have h2 := hv ei hei
    unfold source target at h2
    rcases he with he | he <;> rw [he] at h2 <;> simp at h2

theorem outer_isolated {g : ugraph} (hg : valid_graph g) {labels : List Int}
    {st : rag_state} (h : Outer g labels (num_vertices g) st) {v : Nat}
    (hvn : v < num_vertices g)
    (hv : ∀ ei, ei < num_edges g → source (edge ei g) ≠ v ∧ target (edge ei g) ≠ v) :
    st.vertex_map.getD v 0 < num_vertices st.rag ∧
      (∀ u, u < num_vertices g → st.vertex_map.getD u 0 = st.vertex_map.getD v 0 → u = v) ∧
      ∀ i, i < num_edges st.rag →
        source (edge i st.rag) ≠ st.vertex_map.getD v 0 ∧
        target (edge i st.rag) ≠ st.vertex_map.getD v 0 := by
  have hone : ∀ u, u < num_vertices g →
      st.vertex_map.getD u 0 = st.vertex_map.getD v 0 → u = v := by
    intro u hu he
    exact reach_isolated hv
      (same_label_path_iff_reach.1 ((outer_region_iff h hu hvn).1 he))
  refine ⟨?_, hone, ?_⟩
  · have h1 := h.vm_lt v hvn (h.visited v hvn hvn)
    unfold num_vertices
    rw [h.rag_nv]
    exact h1
  · intro i hi
    have hs := (outer_rag_simple h).1 i hi
    obtain ⟨e, he, hp⟩ := (outer_rag_edge_iff hg h hs.1).1 ⟨i, hi, rfl⟩
    have hlt := edge_endpoints_lt hg he
    have hiso := hv e he
    unfold source target at hp hiso
    rw [Sym2.eq_iff] at hp
    constructor
    · intro hc
      rcases hp with ⟨h1, _⟩ | ⟨_, h2⟩
      · exact hiso.1 (hone _ hlt.1 (h1.trans hc))
      · exact hiso.2 (hone _ hlt.2 (h2.trans hc))
    · intro hc
      rcases hp with ⟨_, h2⟩ | ⟨h1, _⟩
      · exact hiso.2 (hone _ hlt.2 (h2.trans hc))
      · exact hiso.1 (hone _ hlt.1 (h1.trans hc))

/-- C22: for a well-formed graph with valid labels and a vertex `v` with no
incident edge, `v` is mapped to a region of the rag, `v` is the only vertex
mapped to `vertex_map[v]`, and no rag edge has `vertex_map[v]` as an
endpoint. -/
theorem isolated_vertex_own_region (g : ugraph) (vertex_labels : List Int)
    (hg : valid_graph g) (hl : vertex_labels.length = num_vertices g) (v : Nat)
    (hv : v < num_vertices g)
    (hiso : ∀ ei, ei < num_edges g → source (edge ei g) ≠ v ∧ target (edge ei g) ≠ v) :
    ∃ r, make_region_adjacency_graph g vertex_labels = Except.ok r ∧
      r.vertex_map.getD v 0 < num_vertices r.rag ∧
      (∀ u, u < num_vertices g → r.vertex_map.getD u 0 = r.vertex_map.getD v 0 → u = v) ∧
      ∀ i, i < num_edges r.rag →
        source (edge i r.rag) ≠ r.vertex_map.getD v 0 ∧
        target (edge i r.rag) ≠ r.vertex_map.getD v 0 :=
  ⟨_, make_region_adjacency_graph_ok hl,
    outer_isolated hg (final_outer hg vertex_labels) hv hiso⟩

/-- Witness of C22: the isolated vertex 3 of the triangle graph, which has
the label of the vertices 0 and 1. -/
theorem isolated_vertex_own_region_witness :
    valid_graph triangle_graph ∧ [1, 1, 2, (1 : Int)].length = num_vertices triangle_graph ∧
      3 < num_vertices triangle_graph ∧
      (∀ ei, ei < num_edges triangle_graph →
        source (edge ei triangle_graph) ≠ 3 ∧ target (edge ei triangle_graph) ≠ 3) ∧
      ∃ r, make_region_adjacency_graph triangle_graph [1, 1, 2, 1] = Except.ok r ∧
        r.vertex_map.getD 3 0 < num_vertices r.rag ∧
        (∀ u, u < num_vertices triangle_graph →
          r.vertex_map.getD u 0 = r.vertex_map.getD 3 0 → u = 3) ∧
        ∀ i, i < num_edges r.rag →
          source (edge i r.rag) ≠ r.vertex_map.getD 3 0 ∧
          target (edge i r.rag) ≠ r.vertex_map.getD 3 0 :=
  ⟨by decide, by decide, by decide, by decide,
    isolated_vertex_own_region triangle_graph [1, 1, 2, 1] (by decide) (by decide) 3
      (by decide) (by decide)⟩


/-! ### Relabelling -/

theorem getD_map_label (f : Int → Int) (labels : List Int) (x : Nat)
    (hx : x < labels.length) : (labels.map f).getD x 0 = f (labels.getD x 0) := by
  rw [List.getD_eq_getElem _ _ (by rw [List.length_map]; exact hx),
    List.getD_eq_getElem _ _ hx, List.getElem_map]

theorem other_vertex_lt_of_edge {g : ugraph} (hg : valid_graph g) {ei : Nat}
    (h : ei < num_edges g) (v : Nat) : other_vertex (edge ei g) v < num_vertices g := by
  have h1 := edge_endpoints_lt hg h
  unfold other_vertex source target
  split
  · exact h1.2
  · exact h1.1

theorem explore_edge_relabel {g : ugraph} {labels : List Int} {f : Int → Int}
    (hf : Function.Injective f) (hg : valid_graph g)
    (hl : labels.length = num_vertices g) (L : Int) (v : Nat) (st : rag_state) {ei : Nat}
    (hei : ei < num_edges g) :
    explore_edge g (labels.map f) (f L) v st ei = explore_edge g labels L v st ei := by
  have h1 : other_vertex (edge ei g) v < labels.length := by
    rw [hl]; exact other_vertex_lt_of_edge hg hei v
  unfold explore_edge
  simp only []
  rw [getD_map_label f labels _ h1]
  by_cases hc : labels.getD (other_vertex (edge ei g) v) 0 = L
  · rw [if_pos hc, if_pos (congrArg f hc)]
  · rw [if_neg hc, if_neg (fun e => hc (hf e))]

theorem foldl_explore_edge_relabel {g : ugraph} {labels : List Int} {f : Int → Int}
    (hf : Function.Injective f) (hg : valid_graph g)
    (hl : labels.length = num_vertices g) (L : Int) (v : Nat) (l : List Nat)
    (hlist : ∀ ei, ei ∈ l → ei < num_edges g) (st : rag_state) :
    l.foldl (explore_edge g (labels.map f) (f L) v) st =
      l.foldl (explore_edge g labels L v) st := by
  induction l generalizing st with
  | nil => rfl
  | cons a t ih =>
    rw [List.foldl_cons, List.foldl_cons,
      explore_edge_relabel hf hg hl L v st (hlist a (List.mem_cons_self a t))]
    exact ih (fun ei he => hlist ei (List.mem_cons_of_mem a he)) _

theorem explore_loop_relabel {g : ugraph} {labels : List Int} {f : Int → Int}
    (hf : Function.Injective f) (hg : valid_graph g)
    (hl : labels.length = num_vertices g) (L : Int) (fuel : Nat) (st : rag_state) :
    explore_loop g (labels.map f) (f L) fuel st = explore_loop g labels L fuel st := by
  induction fuel generalizing st with
  | zero => rfl
  | succ n ih =>
    unfold explore_loop
    split
    · rfl
    · rename_i v rest _
      rw [foldl_explore_edge_relabel hf hg hl L v _
        (fun ei he => (mem_out_edge_index_iterator.1 he).1)]
      exact ih _

theorem explore_component_relabel {g : ugraph} {labels : List Int} {f : Int → Int}
    (hf : Function.Injective f) (hg : valid_graph g)
    (hl : labels.length = num_vertices g) (st : rag_state) {start : Nat}
    (hs : start < num_vertices g) :
    explore_component g (labels.map f) st start = explore_component g labels st start := by
  unfold explore_component
  simp only []
  rw [getD_map_label f labels start (by rw [hl]; exact hs), explore_loop_relabel hf hg hl]

theorem visit_vertex_relabel {g : ugraph} {labels : List Int} {f : Int → Int}
    (hf : Function.Injective f) (hg : valid_graph g)
    (hl : labels.length = num_vertices g) (st : rag_state) {v : Nat}
    (hv : v < num_vertices g) :
    visit_vertex g (labels.map f) st v = visit_vertex g labels st v := by
  unfold visit_vertex
  rw [explore_component_relabel hf hg hl st hv]

theorem foldl_visit_vertex_relabel {g : ugraph} {labels : List Int} {f : Int → Int}
    (hf : Function.Injective f) (hg : valid_graph g)
    (hl : labels.length = num_vertices g) (vs : List Nat)
    (hvs : ∀ v, v ∈ vs → v < num_vertices g) (st : rag_state) :
    vs.foldl (visit_vertex g (labels.map f)) st = vs.foldl (visit_vertex g labels) st := by
  induction vs generalizing st with
  | nil => rfl
  | cons a t ih =>
    rw [List.foldl_cons, List.foldl_cons,
      visit_vertex_relabel hf hg hl st (hvs a (List.mem_cons_self a t))]
    exact ih (fun v hv => hvs v (List.mem_cons_of_mem a hv)) _

/-- C28: the contraction depends on the labels only through their equality.
For a well-formed graph `g`, labels `L` with one label per vertex and an
injective function `f` on the label values, `make_region_adjacency_graph`
returns on `f ∘ L` the result (rag, vertex_map and edge_map) it returns on
`L`, and it does return one. -/
theorem relabel_injective_same_result (g : ugraph) (vertex_labels : List Int)
    (f : Int → Int) (hf : Function.Injective f) (hg : valid_graph g)
    (hl : vertex_labels.length = num_vertices g) :
    make_region_adjacency_graph g (vertex_labels.map f) =
        make_region_adjacency_graph g vertex_labels ∧
      ∃ r, make_region_adjacency_graph g vertex_labels = Except.ok r := by
  refine ⟨?_, _, make_region_adjacency_graph_ok hl⟩
  rw [make_region_adjacency_graph_ok hl,
    make_region_adjacency_graph_ok (by rw [List.length_map]; exact hl)]
  unfold run_vertices
  rw [foldl_visit_vertex_relabel hf hg hl (vertex_iterator g)
    (fun v hv => by unfold vertex_iterator at hv; exact List.mem_range.1 hv)]

/-- Witness of C28: the labels `1, 2, 1, 2` of the graph with a self-loop and
parallel edges, relabelled by `x ↦ 10 - 3 x`. -/
theorem relabel_injective_same_result_witness :
    Function.Injective (fun x : Int => 10 - 3 * x) ∧ valid_graph loop_graph ∧
      [1, 2, 1, (2 : Int)].length = num_vertices loop_graph ∧
      make_region_adjacency_graph loop_graph ([1, 2, 1, 2].map (fun x : Int => 10 - 3 * x)) =
        make_region_adjacency_graph loop_graph [1, 2, 1, 2] ∧
      ∃ r, make_region_adjacency_graph loop_graph [1, 2, 1, 2] = Except.ok r :=
  have hinj : Function.Injective (fun x : Int => 10 - 3 * x) := by
    intro a b h
    simp only at h
    omega
  ⟨hinj, by decide, by decide,
    relabel_injective_same_result loop_graph [1, 2, 1, 2] _ hinj (by decide) (by decide)⟩


/-! ### The order in which the regions are found -/

theorem explore_edge_fresh (g : ugraph) (labels : List Int) (L : Int) (v : Nat)
    (st : rag_state) (ei x : Nat) :
    (explore_edge g labels L v st ei).vertex_map.getD x 0 = st.vertex_map.getD x 0 ∨
      (st.vertex_map.getD x 0 = invalid_index ∧
        (explore_edge g labels L v st ei).vertex_map.getD x 0 = st.num_regions) := by
  unfold explore_edge
  simp only []
  split
  · split
    · rename_i hu
      show (st.vertex_map.set _ _).getD x 0 = _ ∨ _ ∧ (st.vertex_map.set _ _).getD x 0 = _
      by_cases hx : other_vertex (edge ei g) v = x
      · right
        rw [← hx]
        refine ⟨hu, getD_set_self _ _ _ ?_⟩
        by_contra hlen
        rw [List.getD_eq_default _ _ (Nat.le_of_not_lt hlen)] at hu
        exact absurd hu (by decide)
      · left
        exact getD_set_ne _ _ _ _ hx
    · left; rfl
  · split
    · split <;> (left; rfl)
    · left; rfl

theorem foldl_explore_edge_fresh (g : ugraph) (labels : List Int) (L : Int) (v : Nat)
    (l : List Nat) (st : rag_state) (x : Nat) :
    (l.foldl (explore_edge g labels L v) st).vertex_map.getD x 0 = st.vertex_map.getD x 0 ∨
      (st.vertex_map.getD x 0 = invalid_index ∧
        (l.foldl (explore_edge g labels L v) st).vertex_map.getD x 0 = st.num_regions) := by
  induction l generalizing st with
  | nil => left; rfl
  | cons a t ih =>
    rw [List.foldl_cons]
    rcases ih (explore_edge g labels L v st a) with h1 | ⟨h1, h2⟩
    · rw [h1]; exact explore_edge_fresh g labels L v st a x
    · rw [explore_edge_num_regions] at h2
      rcases explore_edge_fresh g labels L v st a x with h3 | ⟨h3, _⟩
      · right; rw [h3] at h1; exact ⟨h1, h2⟩
      · right; exact ⟨h3, h2⟩

theorem explore_loop_fresh (g : ugraph) (labels : List Int) (L : Int) (fuel : Nat)
    (st : rag_state) (x : Nat) :
    (explore_loop g labels L fuel st).vertex_map.getD x 0 = st.vertex_map.getD x 0 ∨
      (st.vertex_map.getD x 0 = invalid_index ∧
        (explore_loop g labels L fuel st).vertex_map.getD x 0 = st.num_regions) := by
  induction fuel generalizing st with
  | zero => left; rfl
  | succ n ih =>
    unfold explore_loop
    split
    · left; rfl
    · rename_i v rest _
      have hf := foldl_explore_edge_fresh g labels L v (out_edge_index_iterator v g)
        { st with s := rest } x
      have hk := foldl_explore_edge_num_regions g labels L v (out_edge_index_iterator v g)
        { st with s := rest }
      rcases ih ((out_edge_index_iterator v g).foldl (explore_edge g labels L v)
        { st with s := rest }) with h1 | ⟨h1, h2⟩
      · rw [h1]; exact hf
      · rw [hk] at h2
        rcases hf with h3 | ⟨h3, _⟩
        · right; rw [h3] at h1; exact ⟨h1, h2⟩
        · right; exact ⟨h3, h2⟩

theorem explore_component_num_regions (g : ugraph) (labels : List Int) (st : rag_state)
    (start : Nat) :
    (explore_component g labels st start).num_regions = st.num_regions + 1 := by
  unfold explore_component
  simp only []
  rw [explore_loop_num_regions]

theorem explore_component_fresh (g : ugraph) (labels : List Int) (st : rag_state)
    (start x : Nat) (hs : st.vertex_map.getD start 0 = invalid_index) :
    (explore_component g labels st start).vertex_map.getD x 0 = st.vertex_map.getD x 0 ∨
      (st.vertex_map.getD x 0 = invalid_index ∧
        (explore_component g labels st start).vertex_map.getD x 0 = st.num_regions) := by
  have hlen : start < st.vertex_map.length := by
    by_contra hlen
    rw [List.getD_eq_default _ _ (Nat.le_of_not_lt hlen)] at hs
    exact absurd hs (by decide)
  unfold explore_component
  simp only []
  rcases explore_loop_fresh g labels (labels.getD start 0) (num_vertices g)
    { st with
      s := [start]
      vertex_map := st.vertex_map.set start st.num_regions
      rag := add_vertex st.rag } x with h1 | ⟨h1, h2⟩
  · by_cases hx : start = x
    · right
      rw [← hx]
      rw [← hx] at h1
      refine ⟨hs, ?_⟩
      rw [h1]
      exact getD_set_self _ _ _ hlen
    · left
      rw [h1]
      exact getD_set_ne _ _ _ _ hx
  · right
    refine ⟨?_, h2⟩
    by_cases hx : start = x
    · rw [← hx]; exact hs
    · have h3 : (st.vertex_map.set start st.num_regions).getD x 0 = st.vertex_map.getD x 0 :=
        getD_set_ne _ _ _ _ hx
      rw [← h3]; exact h1

theorem explore_component_start (g : ugraph) (labels : List Int) (st : rag_state)
    (start : Nat) (hs : st.vertex_map.getD start 0 = invalid_index)
    (hk : st.num_regions ≠ invalid_index) :
    (explore_component g labels st start).vertex_map.getD start 0 = st.num_regions := by
  have hlen : start < st.vertex_map.length := by
    by_contra hlen
    rw [List.getD_eq_default _ _ (Nat.le_of_not_lt hlen)] at hs
    exact absurd hs (by decide)
  have h1 : (st.vertex_map.set start st.num_regions).getD start 0 = st.num_regions :=
    getD_set_self _ _ _ hlen
  unfold explore_component
  simp only []
  rw [explore_loop_assigned _ _ _ _ _ _ (by show (st.vertex_map.set _ _).getD start 0 ≠ _
                                            rw [h1]; exact hk)]
  exact h1

/-- When the vertices below `i` have been visited, every region has a vertex
below `i`, and before every vertex of a region there is a vertex of each
region of smaller id. -/
theorem run_vertices_discovery {g : ugraph} (hg : valid_graph g) (labels : List Int)
    (i : Nat) (hi : i ≤ num_vertices g) :
    (∀ r, r < (run_vertices g labels (List.range i)).num_regions →
        ∃ u, u < i ∧ (run_vertices g labels (List.range i)).vertex_map.getD u 0 = r) ∧
      ∀ r s w, r < s → s < (run_vertices g labels (List.range i)).num_regions →
        w < num_vertices g →
        (run_vertices g labels (List.range i)).vertex_map.getD w 0 = s →
        ∃ u, u < w ∧ (run_vertices g labels (List.range i)).vertex_map.getD u 0 = r := by
  induction i with
  | zero =>
    have h0 : (run_vertices g labels (List.range 0)).num_regions = 0 := rfl
    rw [h0]
    exact ⟨fun r hr => absurd hr (Nat.not_lt_zero r),
      fun r s w _ hs => absurd hs (Nat.not_lt_zero s)⟩
  | succ n ih =>
    have hn : n < num_vertices g := hi
    have ho := run_vertices_outer hg labels n (Nat.le_of_lt hn)
    obtain ⟨ih1, ih2⟩ := ih (Nat.le_of_lt hn)
    rw [run_vertices_succ]
    generalize run_vertices g labels (List.range n) = st at ho ih1 ih2
    have hkinv : ∀ r, r ≤ st.num_regions → r ≠ invalid_index := by
      intro r hr e
      have h1 := ho.k_le
      have h2 := hg.2.1
      omega
    unfold visit_vertex
    split
    · constructor
      · intro r hr
        obtain ⟨u, hu, hur⟩ := ih1 r hr
        exact ⟨u, Nat.lt_succ_of_lt hu, hur⟩
      · exact ih2
    · rename_i hv
      have hv : st.vertex_map.getD n 0 = invalid_index := by simpa using hv
      have hold : ∀ u, st.vertex_map.getD u 0 ≠ invalid_index →
          (explore_component g labels st n).vertex_map.getD u 0 = st.vertex_map.getD u 0 :=
        fun u hu => explore_component_assigned g labels st n u hv hu
      rw [explore_component_num_regions]
      constructor
      · intro r hr
        rcases Nat.lt_or_eq_of_le (Nat.le_of_lt_succ hr) with h1 | h1
        · obtain ⟨u, hu, hur⟩ := ih1 r h1
          refine ⟨u, Nat.lt_succ_of_lt hu, ?_⟩
          rw [hold u (by rw [hur]; exact hkinv r (Nat.le_of_lt h1))]
          exact hur
        · refine ⟨n, Nat.lt_succ_self n, ?_⟩
          rw [h1]
          exact explore_component_start g labels st n hv (hkinv _ (Nat.le_refl _))
      · intro r s w hrs hs hw hws
        rcases explore_component_fresh g labels st n w hv with h1 | ⟨h1, h2⟩
        · rw [h1] at hws
          by_cases hwa : st.vertex_map.getD w 0 = invalid_index
          · rw [hwa] at hws
            exact absurd hws.symm (hkinv s (Nat.le_of_lt_succ hs))
          · have hsk : s < st.num_regions := by
              rw [← hws]; exact ho.vm_lt w hw hwa
            obtain ⟨u, hu, hur⟩ := ih2 r s w hrs hsk hw hws
            refine ⟨u, hu, ?_⟩
            rw [hold u (by rw [hur]; exact hkinv r (by omega))]
            exact hur
        · have hsk : s = st.num_regions := by rw [← hws, h2]
          have hnw : n ≤ w := by
            by_contra hlt
            exact ho.visited w (Nat.lt_of_not_le hlt) hw h1
          obtain ⟨u, hu, hur⟩ := ih1 r (by omega)
          refine ⟨u, by omega, ?_⟩
          rw [hold u (by rw [hur]; exact hkinv r (by omega))]
          exact hur

theorem exists_isLeast_of_exists (P : Nat → Prop) (h : ∃ v, P v) :
    ∃ a, IsLeast {v | P v} a := by
  classical
  exact ⟨Nat.find h, Nat.find_spec h, fun v hv => Nat.find_min' h hv⟩

/-- C21: region ids are dense from 0 and given in the order in which the
vertex loop finds the regions. For a well-formed graph with valid labels and
at least one vertex, every vertex is mapped to a region of the rag, every
region of the rag has a vertex, vertex 0 is mapped to region 0, and for two
regions `r < s` the smallest vertex mapped to `r` exists and is smaller than
the smallest vertex mapped to `s`. -/
theorem region_ids_in_discovery_order (g : ugraph) (vertex_labels : List Int)
    (hg : valid_graph g) (hl : vertex_labels.length = num_vertices g)
    (hn : 0 < num_vertices g) :
    ∃ r, make_region_adjacency_graph g vertex_labels = Except.ok r ∧
      (∀ v, v < num_vertices g → r.vertex_map.getD v 0 < num_vertices r.rag) ∧
      r.vertex_map.getD 0 0 = 0 ∧
      ∀ a b, a < b → b < num_vertices r.rag →
        ∃ u w, IsLeast {v | v < num_vertices g ∧ r.vertex_map.getD v 0 = a} u ∧
          IsLeast {v | v < num_vertices g ∧ r.vertex_map.getD v 0 = b} w ∧ u < w := by
  refine ⟨_, make_region_adjacency_graph_ok hl, ?_, ?_, ?_⟩
  · intro v hv
    have h := final_outer hg vertex_labels
    unfold num_vertices at *
    rw [h.rag_nv]
    exact h.vm_lt v hv (h.visited v hv hv)
  · have h := final_outer hg vertex_labels
    have hd := (run_vertices_discovery hg vertex_labels (num_vertices g) (Nat.le_refl _)).2
    show (run_vertices g vertex_labels (vertex_iterator g)).vertex_map.getD 0 0 = 0
    unfold vertex_iterator at *
    by_contra hne
    obtain ⟨u, hu, _⟩ := hd 0 _ 0 (Nat.pos_of_ne_zero hne)
      (h.vm_lt 0 hn (h.visited 0 hn hn)) hn rfl
    exact Nat.not_lt_zero u hu
  · intro a b hab hb
    have h := final_outer hg vertex_labels
    have hd := (run_vertices_discovery hg vertex_labels (num_vertices g) (Nat.le_refl _)).2
    show ∃ u w,
      IsLeast {v | v < num_vertices g ∧
        (run_vertices g vertex_labels (vertex_iterator g)).vertex_map.getD v 0 = a} u ∧
      IsLeast {v | v < num_vertices g ∧
        (run_vertices g vertex_labels (vertex_iterator g)).vertex_map.getD v 0 = b} w ∧ u < w
    have hbk : b < (run_vertices g vertex_labels (vertex_iterator g)).num_regions := by
      have h1 := h.rag_nv
      unfold num_vertices at hb
      rw [h1] at hb
      exact hb
    unfold vertex_iterator at *
    obtain ⟨u, hu⟩ := exists_isLeast_of_exists _ (h.onto a (by omega))
    obtain ⟨w, hw⟩ := exists_isLeast_of_exists _ (h.onto b hbk)
    refine ⟨u, w, hu, hw, ?_⟩
    obtain ⟨x, hxw, hxa⟩ := hd a b w hab hbk hw.1.1 hw.1.2
    have hxn : x < num_vertices g := Nat.lt_trans hxw hw.1.1
    have hux : u ≤ x := hu.2 ⟨hxn, hxa⟩
    omega

/-- Witness of C21: the graph with a self-loop and parallel edges, with the
labels 1, 2, 1, 2 (three regions). -/
theorem region_ids_in_discovery_order_witness :
    valid_graph loop_graph ∧ [1, 2, 1, (2 : Int)].length = num_vertices loop_graph ∧
      0 < num_vertices loop_graph ∧
      ∃ r, make_region_adjacency_graph loop_graph [1, 2, 1, 2] = Except.ok r ∧
        (∀ v, v < num_vertices loop_graph → r.vertex_map.getD v 0 < num_vertices r.rag) ∧
        r.vertex_map.getD 0 0 = 0 ∧
        ∀ a b, a < b → b < num_vertices r.rag →
          ∃ u w, IsLeast {v | v < num_vertices loop_graph ∧ r.vertex_map.getD v 0 = a} u ∧
            IsLeast {v | v < num_vertices loop_graph ∧ r.vertex_map.getD v 0 = b} w ∧
            u < w :=
  ⟨by decide, by decide, by decide,
    region_ids_in_discovery_order loop_graph [1, 2, 1, 2] (by decide) (by decide)
      (by decide)⟩


/-! ### The ids of the region edges -/

/-- One pass through the body of the edge loop either leaves the rag and the
edge counter alone, or appends one edge to the rag, maps the input edge to
the former edge count and increments it. -/
theorem explore_edge_rag_step (g : ugraph) (labels : List Int) (L : Int) (v : Nat)
    (st : rag_state) (ei : Nat) :
    ((explore_edge g labels L v st ei).rag = st.rag ∧
        (explore_edge g labels L v st ei).num_edges = st.num_edges) ∨
      ((explore_edge g labels L v st ei).rag.edge_list =
          st.rag.edge_list ++
            [(st.vertex_map.getD (other_vertex (edge ei g) v) 0, st.num_regions)] ∧
        (explore_edge g labels L v st ei).edge_map = st.edge_map.set ei st.num_edges ∧
        (explore_edge g labels L v st ei).num_edges = st.num_edges + 1) := by
  unfold explore_edge
  simp only []
  split
  · split
    · left; exact ⟨rfl, rfl⟩
    · left; exact ⟨rfl, rfl⟩
  · split
    · split
      · right; exact ⟨rfl, rfl, rfl⟩
      · left; exact ⟨rfl, rfl⟩
    · left; exact ⟨rfl, rfl⟩

theorem explore_edge_edges_append (g : ugraph) (labels : List Int) (L : Int) (v : Nat)
    (st : rag_state) (ei : Nat) :
    ∃ t, (explore_edge g labels L v st ei).rag.edge_list = st.rag.edge_list ++ t := by
  rcases explore_edge_rag_step g labels L v st ei with ⟨h, _⟩ | ⟨h, _⟩
  · exact ⟨[], by rw [h, List.append_nil]⟩
  · exact ⟨_, h⟩

theorem foldl_explore_edge_edges_append (g : ugraph) (labels : List Int) (L : Int) (v : Nat)
    (l : List Nat) (st : rag_state) :
    ∃ t, (l.foldl (explore_edge g labels L v) st).rag.edge_list = st.rag.edge_list ++ t := by
  induction l generalizing st with
  | nil => exact ⟨[], (List.append_nil _).symm⟩
  | cons a rest ih =>
    obtain ⟨t1, h1⟩ := explore_edge_edges_append g labels L v st a
    obtain ⟨t2, h2⟩ := ih (explore_edge g labels L v st a)
    exact ⟨t1 ++ t2, by rw [List.foldl_cons, h2, h1, List.append_assoc]⟩

theorem explore_loop_edges_append (g : ugraph) (labels : List Int) (L : Int) (fuel : Nat)
    (st : rag_state) :
    ∃ t, (explore_loop g labels L fuel st).rag.edge_list = st.rag.edge_list ++ t := by
  induction fuel generalizing st with
  | zero => exact ⟨[], (List.append_nil _).symm⟩
  | succ n ih =>
    unfold explore_loop
    split
    · exact ⟨[], (List.append_nil _).symm⟩
    · rename_i v rest _
      obtain ⟨t1, h1⟩ := foldl_explore_edge_edges_append g labels L v
        (out_edge_index_iterator v g) { st with s := rest }
      obtain ⟨t2, h2⟩ := ih ((out_edge_index_iterator v g).foldl
        (explore_edge g labels L v) { st with s := rest })
      exact ⟨t1 ++ t2, by rw [h2, h1, List.append_assoc]⟩

theorem visit_vertex_edges_append (g : ugraph) (labels : List Int) (st : rag_state)
    (v : Nat) :
    ∃ t, (visit_vertex g labels st v).rag.edge_list = st.rag.edge_list ++ t := by
  unfold visit_vertex
  split
  · exact ⟨[], (List.append_nil _).symm⟩
  · unfold explore_component
    simp only []
    exact explore_loop_edges_append g labels _ _ _

theorem run_vertices_edges_append (g : ugraph) (labels : List Int) (i d : Nat) :
    ∃ t, (run_vertices g labels (List.range (i + d))).rag.edge_list =
      (run_vertices g labels (List.range i)).rag.edge_list ++ t := by
  induction d with
  | zero => exact ⟨[], (List.append_nil _).symm⟩
  | succ n ih =>
    obtain ⟨t1, h1⟩ := ih
    obtain ⟨t2, h2⟩ := visit_vertex_edges_append g labels
      (run_vertices g labels (List.range (i + n))) (i + n)
    refine ⟨t1 ++ t2, ?_⟩
    rw [← Nat.add_assoc, run_vertices_succ, h2, h1, List.append_assoc]

/-- An edge mapped at some stage of the vertex loop keeps its id to the
end. -/
theorem run_vertices_edge_map_kept {g : ugraph} (hg : valid_graph g) (labels : List Int)
    (j : Nat) (hj : j ≤ num_vertices g) (e : Nat) (he : e < num_edges g)
    (hm : (run_vertices g labels (List.range j)).edge_map.getD e 0 ≠ invalid_index) :
    (run_vertices g labels (List.range j)).edge_map.getD e 0 <
        (run_vertices g labels (List.range j)).num_edges ∧
      (run_vertices g labels (List.range (num_vertices g))).edge_map.getD e 0 =
        (run_vertices g labels (List.range j)).edge_map.getD e 0 := by
  have hoj := run_vertices_outer hg labels j hj
  have hon := run_vertices_outer hg labels (num_vertices g) (Nat.le_refl _)
  obtain ⟨t, ht⟩ := run_vertices_edges_append g labels j (num_vertices g - j)
  rw [Nat.add_sub_cancel' hj] at ht
  have h1 := run_vertices_assigned g labels j (num_vertices g) (edge e g).1 hj
  have h2 := run_vertices_assigned g labels j (num_vertices g) (edge e g).2 hj
  generalize run_vertices g labels (List.range j) = sj at *
  generalize run_vertices g labels (List.range (num_vertices g)) = sn at *
  obtain ⟨ha, hb, hab, hpair⟩ := hoj.em_sound e he hm
  have h1 := h1 ha
  have h2 := h2 hb
  have hlt := getElem?_some_lt _ _ _ hpair
  refine ⟨by rw [← hoj.rag_ne]; exact hlt, ?_⟩
  have hmn : sn.edge_map.getD e 0 ≠ invalid_index := by
    intro hc
    have h3 := (outer_unmapped_iff hg hon he).1 hc
    unfold source target at h3
    rw [h1, h2] at h3
    exact hab h3
  obtain ⟨_, _, _, hpairn⟩ := hon.em_sound e he hmn
  rw [h1, h2] at hpairn
  have hpair2 := hpair
  rw [← List.getElem?_append_left hlt, ← ht] at hpair2
  have h4 := (hon.canon _ _ _).2 hpairn
  have h5 := (hon.canon _ _ _).2 hpair2
  rw [h4] at h5
  exact Option.some.inj h5

/-- C23: region-edge ids are dense and agree with the size of the returned
graph, and they are given in discovery order. For a well-formed graph with
valid labels: every value of `edge_map` other than `invalid_index` is smaller
than `num_edges(rag)`; every id below `num_edges(rag)` is the image of an
input edge; at every stage of the vertex loop the edge counter is the number
of rag edges, the rag edges of that stage are the first edges of the final
rag, and an input edge mapped at that stage has an id below the counter of
that stage which it keeps to the end; and one pass of the edge loop that adds
a rag edge appends it to the rag and gives it the edge counter as id. -/
theorem edge_ids_dense_in_discovery_order (g : ugraph) (vertex_labels : List Int)
    (hg : valid_graph g) (hl : vertex_labels.length = num_vertices g) :
    ∃ r, make_region_adjacency_graph g vertex_labels = Except.ok r ∧
      (∀ e, e < num_edges g → r.edge_map.getD e 0 ≠ invalid_index →
        r.edge_map.getD e 0 < num_edges r.rag) ∧
      (∀ id, id < num_edges r.rag → ∃ e, e < num_edges g ∧ r.edge_map.getD e 0 = id) ∧
      (∀ j, j ≤ num_vertices g →
        (run_vertices g vertex_labels (List.range j)).num_edges =
          num_edges (run_vertices g vertex_labels (List.range j)).rag ∧
        (∃ t, r.rag.edge_list =
          (run_vertices g vertex_labels (List.range j)).rag.edge_list ++ t) ∧
        ∀ e, e < num_edges g →
          (run_vertices g vertex_labels (List.range j)).edge_map.getD e 0 ≠ invalid_index →
          (run_vertices g vertex_labels (List.range j)).edge_map.getD e 0 <
              (run_vertices g vertex_labels (List.range j)).num_edges ∧
            r.edge_map.getD e 0 =
              (run_vertices g vertex_labels (List.range j)).edge_map.getD e 0) ∧
      ∀ (L : Int) (v : Nat) (st : rag_state) (ei : Nat),
        ((explore_edge g vertex_labels L v st ei).rag = st.rag ∧
            (explore_edge g vertex_labels L v st ei).num_edges = st.num_edges) ∨
          ((explore_edge g vertex_labels L v st ei).rag.edge_list =
              st.rag.edge_list ++
                [(st.vertex_map.getD (other_vertex (edge ei g) v) 0, st.num_regions)] ∧
            (explore_edge g vertex_labels L v st ei).edge_map =
              st.edge_map.set ei st.num_edges ∧
            (explore_edge g vertex_labels L v st ei).num_edges = st.num_edges + 1) := by
  have h := final_outer hg vertex_labels
  refine ⟨_, make_region_adjacency_graph_ok hl,
    fun e he hm => (outer_mapped_edge h he hm).1, ?_, ?_,
    fun L v st ei => explore_edge_rag_step g vertex_labels L v st ei⟩
  · intro id hid
    refine h.em_onto id ?_
    rw [← h.rag_ne]
    exact hid
  · intro j hj
    refine ⟨(run_vertices_outer hg vertex_labels j hj).rag_ne.symm, ?_, ?_⟩
    · obtain ⟨t, ht⟩ := run_vertices_edges_append g vertex_labels j (num_vertices g - j)
      rw [Nat.add_sub_cancel' hj] at ht
      exact ⟨t, ht⟩
    · intro e he hm
      exact run_vertices_edge_map_kept hg vertex_labels j hj e he hm

/-- Witness of C23: the graph with a self-loop and parallel edges. -/
theorem edge_ids_dense_in_discovery_order_witness :
    valid_graph loop_graph ∧ [1, 2, 1, (2 : Int)].length = num_vertices loop_graph ∧
      ∃ r, make_region_adjacency_graph loop_graph [1, 2, 1, 2] = Except.ok r ∧
        (∀ e, e < num_edges loop_graph → r.edge_map.getD e 0 ≠ invalid_index →
          r.edge_map.getD e 0 < num_edges r.rag) ∧
        (∀ id, id < num_edges r.rag →
          ∃ e, e < num_edges loop_graph ∧ r.edge_map.getD e 0 = id) :=
  ⟨by decide, by decide,
    (edge_ids_dense_in_discovery_order loop_graph [1, 2, 1, 2] (by decide) (by decide)).imp
      (fun _ hr => ⟨hr.1, hr.2.1, hr.2.2.1⟩)⟩


/-! ### Termination and the work stack -/

theorem explore_edge_traced_st (g : ugraph) (labels : List Int) (L : Int) (v : Nat)
    (t : traced_state) (ei : Nat) :
    (explore_edge_traced g labels L v t ei).st = explore_edge g labels L v t.st ei := rfl

theorem foldl_explore_edge_traced_st (g : ugraph) (labels : List Int) (L : Int) (v : Nat)
    (l : List Nat) (t : traced_state) :
    (l.foldl (explore_edge_traced g labels L v) t).st =
      l.foldl (explore_edge g labels L v) t.st := by
  induction l generalizing t with
  | nil => rfl
  | cons a rest ih => rw [List.foldl_cons, List.foldl_cons, ih, explore_edge_traced_st]

theorem explore_loop_traced_st (g : ugraph) (labels : List Int) (L : Int) (fuel : Nat)
    (t : traced_state) :
    (explore_loop_traced g labels L fuel t).st = explore_loop g labels L fuel t.st := by
  induction fuel generalizing t with
  | zero => rfl
  | succ n ih =>
    unfold explore_loop_traced explore_loop
    cases hs : t.st.s with
    | nil => rfl
    | cons v rest =>
      simp only []
      rw [ih, foldl_explore_edge_traced_st]

theorem explore_component_traced_st (g : ugraph) (labels : List Int) (t : traced_state)
    (start : Nat) :
    (explore_component_traced g labels t start).st =
      explore_component g labels t.st start := by
  unfold explore_component_traced explore_component
  simp only []
  rw [explore_loop_traced_st]

theorem visit_vertex_traced_st (g : ugraph) (labels : List Int) (t : traced_state)
    (v : Nat) :
    (visit_vertex_traced g labels t v).st = visit_vertex g labels t.st v := by
  unfold visit_vertex_traced visit_vertex
  split
  · rfl
  · exact explore_component_traced_st g labels t v

theorem foldl_visit_vertex_traced_st (g : ugraph) (labels : List Int) (vs : List Nat)
    (t : traced_state) :
    (vs.foldl (visit_vertex_traced g labels) t).st =
      vs.foldl (visit_vertex g labels) t.st := by
  induction vs generalizing t with
  | nil => rfl
  | cons a rest ih => rw [List.foldl_cons, List.foldl_cons, ih, visit_vertex_traced_st]

theorem run_vertices_traced_st (g : ugraph) (labels : List Int) (vs : List Nat) :
    (run_vertices_traced g labels vs).st = run_vertices g labels vs :=
  foldl_visit_vertex_traced_st g labels vs _

theorem run_vertices_traced_succ (g : ugraph) (labels : List Int) (i : Nat) :
    run_vertices_traced g labels (List.range (i + 1)) =
      visit_vertex_traced g labels (run_vertices_traced g labels (List.range i)) i := by
  unfold run_vertices_traced
  rw [List.range_succ, List.foldl_append]
  rfl

theorem lt_length_of_getD_invalid (l : List Nat) (x : Nat)
    (h : l.getD x 0 = invalid_index) : x < l.length := by
  by_contra hlen
  rw [List.getD_eq_default _ _ (Nat.le_of_not_lt hlen)] at h
  exact absurd h (by decide)

/-- Pushing an unassigned vertex `w` while assigning it keeps the record
coherent. -/
theorem stack_log_push {t : traced_state} (h : stack_log t) (w k : Nat)
    (hw : t.st.vertex_map.getD w 0 = invalid_index) (hk : k ≠ invalid_index)
    (t2 : traced_state) (hvm : t2.st.vertex_map = t.st.vertex_map.set w k)
    (hs : t2.st.s = w :: t.st.s) (hpu : t2.pushed = t.pushed ++ [w])
    (hpo : t2.popped = t.popped) : stack_log t2 := by
  have hlen := lt_length_of_getD_invalid _ _ hw
  have hnot : w ∉ t.pushed := fun hm => ((h.mem_iff w).1 hm).2 hw
  constructor
  · rw [hpu]
    exact List.Nodup.append h.nodup (List.nodup_singleton w)
      (by intro x hx hx2; rw [List.mem_singleton] at hx2; rw [hx2] at hx; exact hnot hx)
  · intro x
    rw [hpu, hvm, List.length_set, List.mem_append, List.mem_singleton, h.mem_iff x]
    by_cases hx : x = w
    · rw [hx, getD_set_self _ _ _ hlen]
      exact ⟨fun _ => ⟨hlen, hk⟩, fun _ => Or.inr rfl⟩
    · rw [getD_set_ne _ _ _ _ (Ne.symm hx)]
      exact ⟨fun h1 => h1.resolve_right hx, fun h1 => Or.inl h1⟩
  · rw [hpu, hpo, hs]
    exact (List.perm_append_singleton w t.pushed).trans
      ((List.Perm.cons w h.perm).trans List.perm_middle.symm)

theorem stack_log_congr {t : traced_state} (h : stack_log t) (t2 : traced_state)
    (hvm : t2.st.vertex_map = t.st.vertex_map) (hs : t2.st.s = t.st.s)
    (hpu : t2.pushed = t.pushed) (hpo : t2.popped = t.popped) : stack_log t2 := by
  constructor
  · rw [hpu]; exact h.nodup
  · intro x; rw [hpu, hvm]; exact h.mem_iff x
  · rw [hpu, hpo, hs]; exact h.perm

theorem explore_edge_push (g : ugraph) (labels : List Int) (L : Int) (v : Nat)
    (st : rag_state) (ei : Nat)
    (hl : labels.getD (other_vertex (edge ei g) v) 0 = L)
    (hu : st.vertex_map.getD (other_vertex (edge ei g) v) 0 = invalid_index) :
    (explore_edge g labels L v st ei).vertex_map =
        st.vertex_map.set (other_vertex (edge ei g) v) st.num_regions ∧
      (explore_edge g labels L v st ei).s = other_vertex (edge ei g) v :: st.s := by
  unfold explore_edge
  simp only []
  rw [if_pos hl, if_pos hu]
  exact ⟨rfl, rfl⟩

theorem explore_edge_no_push (g : ugraph) (labels : List Int) (L : Int) (v : Nat)
    (st : rag_state) (ei : Nat)
    (h : ¬ (labels.getD (other_vertex (edge ei g) v) 0 = L ∧
      st.vertex_map.getD (other_vertex (edge ei g) v) 0 = invalid_index)) :
    (explore_edge g labels L v st ei).vertex_map = st.vertex_map ∧
      (explore_edge g labels L v st ei).s = st.s := by
  unfold explore_edge
  simp only []
  split
  · rename_i hl
    split
    · rename_i hu; exact absurd ⟨hl, hu⟩ h
    · exact ⟨rfl, rfl⟩
  · split
    · split <;> exact ⟨rfl, rfl⟩
    · exact ⟨rfl, rfl⟩

/-- What one pass of the edge loop does to the record: it pushes nothing, or
it pushes the other endpoint, which was unassigned and is assigned to the
current region in the same pass. -/
theorem explore_edge_traced_step (g : ugraph) (labels : List Int) (L : Int) (v : Nat)
    (t : traced_state) (ei : Nat) :
    (explore_edge_traced g labels L v t ei).popped = t.popped ∧
      (((explore_edge_traced g labels L v t ei).pushed = t.pushed ∧
          (explore_edge_traced g labels L v t ei).st.s = t.st.s ∧
          (explore_edge_traced g labels L v t ei).st.vertex_map = t.st.vertex_map) ∨
        ((explore_edge_traced g labels L v t ei).pushed =
            t.pushed ++ [other_vertex (edge ei g) v] ∧
          (explore_edge_traced g labels L v t ei).st.s =
            other_vertex (edge ei g) v :: t.st.s ∧
          t.st.vertex_map.getD (other_vertex (edge ei g) v) 0 = invalid_index ∧
          (explore_edge_traced g labels L v t ei).st.vertex_map =
            t.st.vertex_map.set (other_vertex (edge ei g) v) t.st.num_regions)) := by
  refine ⟨rfl, ?_⟩
  by_cases hl : labels.getD (other_vertex (edge ei g) v) 0 = L
  · by_cases hu : t.st.vertex_map.getD (other_vertex (edge ei g) v) 0 = invalid_index
    · right
      have h1 := explore_edge_push g labels L v t.st ei hl hu
      refine ⟨?_, h1.2, hu, h1.1⟩
      unfold explore_edge_traced
      simp only []
      rw [if_pos hl, if_pos hu]
    · left
      have h1 := explore_edge_no_push g labels L v t.st ei (fun hc => hu hc.2)
      refine ⟨?_, h1.2, h1.1⟩
      unfold explore_edge_traced
      simp only []
      rw [if_pos hl, if_neg hu]
  · left
    have h1 := explore_edge_no_push g labels L v t.st ei (fun hc => hl hc.1)
    refine ⟨?_, h1.2, h1.1⟩
    unfold explore_edge_traced
    simp only []
    rw [if_neg hl]

theorem explore_edge_traced_log (g : ugraph) (labels : List Int) (L : Int) (v : Nat)
    (t : traced_state) (ei : Nat) (h : stack_log t)
    (hk : t.st.num_regions ≠ invalid_index) :
    stack_log (explore_edge_traced g labels L v t ei) := by
  obtain ⟨hpo, ⟨hpu, hs, hvm⟩ | ⟨hpu, hs, hu, hvm⟩⟩ :=
    explore_edge_traced_step g labels L v t ei
  · exact stack_log_congr h _ hvm hs hpu hpo
  · exact stack_log_push h _ _ hu hk _ hvm hs hpu hpo

theorem foldl_explore_edge_traced_log (g : ugraph) (labels : List Int) (L : Int) (v : Nat)
    (l : List Nat) (t : traced_state) (h : stack_log t)
    (hk : t.st.num_regions ≠ invalid_index) :
    stack_log (l.foldl (explore_edge_traced g labels L v) t) := by
  induction l generalizing t with
  | nil => exact h
  | cons a rest ih =>
    rw [List.foldl_cons]
    refine ih _ (explore_edge_traced_log g labels L v t a h hk) ?_
    rw [explore_edge_traced_st, explore_edge_num_regions]
    exact hk

theorem explore_loop_traced_log (g : ugraph) (labels : List Int) (L : Int) (fuel : Nat)
    (t : traced_state) (h : stack_log t) (hk : t.st.num_regions ≠ invalid_index) :
    stack_log (explore_loop_traced g labels L fuel t) := by
  induction fuel generalizing t with
  | zero => exact h
  | succ n ih =>
    unfold explore_loop_traced
    cases hs : t.st.s with
    | nil => exact h
    | cons v rest =>
      simp only []
      have h1 : stack_log
          { st := { t.st with s := rest }, pushed := t.pushed, popped := t.popped ++ [v] } := by
        constructor
        · exact h.nodup
        · exact h.mem_iff
        · have h2 := h.perm
          rw [hs] at h2
          show t.pushed.Perm ((t.popped ++ [v]) ++ rest)
          rw [List.append_assoc]
          exact h2
      refine ih _ (foldl_explore_edge_traced_log g labels L v _ _ h1 hk) ?_
      rw [foldl_explore_edge_traced_st, foldl_explore_edge_num_regions]
      exact hk

theorem explore_component_traced_log (g : ugraph) (labels : List Int) (t : traced_state)
    (start : Nat) (h : stack_log t) (hk : t.st.num_regions ≠ invalid_index)
    (hs : t.st.s = []) (hu : t.st.vertex_map.getD start 0 = invalid_index) :
    stack_log (explore_component_traced g labels t start) := by
  unfold explore_component_traced
  simp only []
  have h1 : stack_log
      { st :=
          { t.st with
            s := [start]
            vertex_map := t.st.vertex_map.set start t.st.num_regions
            rag := add_vertex t.st.rag }
        pushed := t.pushed ++ [start]
        popped := t.popped } :=
    stack_log_push h start t.st.num_regions hu hk _ rfl (by rw [hs]) rfl rfl
  have h2 := explore_loop_traced_log g labels (labels.getD start 0) (num_vertices g) _ h1 hk
  exact stack_log_congr h2 _ rfl rfl rfl rfl

theorem run_vertices_traced_log {g : ugraph} (hg : valid_graph g) (labels : List Int)
    (i : Nat) (hi : i ≤ num_vertices g) :
    stack_log (run_vertices_traced g labels (List.range i)) := by
  induction i with
  | zero =>
    constructor
    · exact List.nodup_nil
    · intro x
      show x ∈ [] ↔ x < (List.replicate (num_vertices g) invalid_index).length ∧
        (List.replicate (num_vertices g) invalid_index).getD x 0 ≠ invalid_index
      constructor
      · intro hx; cases hx
      · rintro ⟨h1, h2⟩
        rw [List.length_replicate] at h1
        rw [List.getD_eq_getElem _ _ (by rw [List.length_replicate]; exact h1),
          List.getElem_replicate] at h2
        exact absurd rfl h2
    · exact List.Perm.refl _
  | succ n ih =>
    have hn : n < num_vertices g := hi
    have ho := run_vertices_outer hg labels n (Nat.le_of_lt hn)
    rw [← run_vertices_traced_st] at ho
    have ih := ih (Nat.le_of_lt hn)
    rw [run_vertices_traced_succ]
    generalize run_vertices_traced g labels (List.range n) = t at ho ih
    unfold visit_vertex_traced
    split
    · exact ih
    · rename_i hv
      refine explore_component_traced_log g labels t n ih ?_ ho.stack_nil (by simpa using hv)
      intro e
      have h1 := ho.k_le
      have h2 := hg.2.1
      omega

theorem run_vertices_traced_perm {g : ugraph} (hg : valid_graph g) (labels : List Int) :
    (run_vertices_traced g labels (vertex_iterator g)).pushed.Perm (vertex_iterator g) ∧
      (run_vertices_traced g labels (vertex_iterator g)).popped.Perm (vertex_iterator g) := by
  have hlog := run_vertices_traced_log hg labels (num_vertices g) (Nat.le_refl _)
  have ho := final_outer hg labels
  rw [← run_vertices_traced_st] at ho
  unfold vertex_iterator at *
  generalize run_vertices_traced g labels (List.range (num_vertices g)) = t at ho hlog
  have h1 : t.pushed.Perm (List.range (num_vertices g)) := by
    rw [List.perm_ext_iff_of_nodup hlog.nodup (List.nodup_range _)]
    intro x
    rw [hlog.mem_iff x, ho.vm_len, List.mem_range]
    exact ⟨fun h => h.1, fun h => ⟨h, ho.visited x h h⟩⟩
  refine ⟨h1, ?_⟩
  have h2 := hlog.perm
  rw [ho.stack_nil, List.append_nil] at h2
  exact h2.symm.trans h1


/-- C24: `make_region_adjacency_graph` terminates on every well-formed graph
with valid labels, and each vertex is pushed onto the work stack exactly once
and popped exactly once. The function returns a result; every call of
`explore_component` the vertex loop makes leaves its `while` loop with an
empty stack within `num_vertices(graph)` iterations (more iterations change
nothing); the traced run computes the same state as the run, and its record
of the pushed vertices, as that of the popped ones, is a permutation of the
vertices; at every stage of the vertex loop the pushed vertices are without
repetition and are the assigned vertices; and one pass of the edge loop
pushes nothing or pushes the other endpoint, at the moment its `vertex_map`
entry changes from `invalid_index` to the id of the region. -/
theorem terminates_each_vertex_pushed_once (g : ugraph) (vertex_labels : List Int)
    (hg : valid_graph g) (hl : vertex_labels.length = num_vertices g) :
    (∃ r, make_region_adjacency_graph g vertex_labels = Except.ok r) ∧
      (∀ i, i < num_vertices g →
        (run_vertices g vertex_labels (List.range i)).vertex_map.getD i 0 = invalid_index →
        (explore_component g vertex_labels
            (run_vertices g vertex_labels (List.range i)) i).s = [] ∧
          ∀ k, explore_loop g vertex_labels (vertex_labels.getD i 0) (num_vertices g + k)
              { run_vertices g vertex_labels (List.range i) with
                s := [i]
                vertex_map := (run_vertices g vertex_labels (List.range i)).vertex_map.set i
                  (run_vertices g vertex_labels (List.range i)).num_regions
                rag := add_vertex (run_vertices g vertex_labels (List.range i)).rag } =
            explore_loop g vertex_labels (vertex_labels.getD i 0) (num_vertices g)
              { run_vertices g vertex_labels (List.range i) with
                s := [i]
                vertex_map := (run_vertices g vertex_labels (List.range i)).vertex_map.set i
                  (run_vertices g vertex_labels (List.range i)).num_regions
                rag := add_vertex (run_vertices g vertex_labels (List.range i)).rag }) ∧
      (run_vertices_traced g vertex_labels (vertex_iterator g)).st =
        run_vertices g vertex_labels (vertex_iterator g) ∧
      (run_vertices_traced g vertex_labels (vertex_iterator g)).pushed.Perm
        (vertex_iterator g) ∧
      (run_vertices_traced g vertex_labels (vertex_iterator g)).popped.Perm
        (vertex_iterator g) ∧
      (∀ i, i ≤ num_vertices g →
        (run_vertices_traced g vertex_labels (List.range i)).pushed.Nodup ∧
        ∀ x, x ∈ (run_vertices_traced g vertex_labels (List.range i)).pushed ↔
          x < num_vertices g ∧
            (run_vertices g vertex_labels (List.range i)).vertex_map.getD x 0 ≠
              invalid_index) ∧
      ∀ (L : Int) (v : Nat) (t : traced_state) (ei : Nat),
        (explore_edge_traced g vertex_labels L v t ei).popped = t.popped ∧
          (((explore_edge_traced g vertex_labels L v t ei).pushed = t.pushed ∧
              (explore_edge_traced g vertex_labels L v t ei).st.s = t.st.s ∧
              (explore_edge_traced g vertex_labels L v t ei).st.vertex_map =
                t.st.vertex_map) ∨
            ((explore_edge_traced g vertex_labels L v t ei).pushed =
                t.pushed ++ [other_vertex (edge ei g) v] ∧
              (explore_edge_traced g vertex_labels L v t ei).st.s =
                other_vertex (edge ei g) v :: t.st.s ∧
              t.st.vertex_map.getD (other_vertex (edge ei g) v) 0 = invalid_index ∧
              (explore_edge_traced g vertex_labels L v t ei).st.vertex_map =
                t.st.vertex_map.set (other_vertex (edge ei g) v) t.st.num_regions)) := by
  refine ⟨⟨_, make_region_adjacency_graph_ok hl⟩, ?_, run_vertices_traced_st _ _ _,
    (run_vertices_traced_perm hg vertex_labels).1,
    (run_vertices_traced_perm hg vertex_labels).2, ?_,
    fun L v t ei => explore_edge_traced_step g vertex_labels L v t ei⟩
  · intro i hi hu
    have ho := run_vertices_outer hg vertex_labels i (Nat.le_of_lt hi)
    have h1 := explore_component_stack_empty hg ho hi hu
    refine ⟨h1, fun k => ?_⟩
    exact explore_loop_stable g vertex_labels _ _ k _ h1
  · intro i hi
    have hlog := run_vertices_traced_log hg vertex_labels i hi
    have ho := run_vertices_outer hg vertex_labels i hi
    refine ⟨hlog.nodup, fun x => ?_⟩
    rw [hlog.mem_iff x, run_vertices_traced_st, ho.vm_len]

/-- Witness of C24: the graph with a self-loop and parallel edges. -/
theorem terminates_each_vertex_pushed_once_witness :
    valid_graph loop_graph ∧ [1, 2, 1, (2 : Int)].length = num_vertices loop_graph ∧
      (∃ r, make_region_adjacency_graph loop_graph [1, 2, 1, 2] = Except.ok r) ∧
      (run_vertices_traced loop_graph [1, 2, 1, 2] (vertex_iterator loop_graph)).pushed.Perm
        (vertex_iterator loop_graph) ∧
      (run_vertices_traced loop_graph [1, 2, 1, 2] (vertex_iterator loop_graph)).popped.Perm
        (vertex_iterator loop_graph) :=
  have h := terminates_each_vertex_pushed_once loop_graph [1, 2, 1, 2] (by decide) (by decide)
  ⟨by decide, by decide, h.1, h.2.2.2.1, h.2.2.2.2.1⟩

/-! ### The mean of signed 32-bit cells -/

/-- C25 (the code differs): with `int` cells the division `*s /= m_counter`
by the `std::size_t` counter is unsigned. The mean of `-2, -2, -2` (sum `-6`,
counter `3`) is left as `1431655763`, the low 32 bits of
`(2^64 - 6) / 3`, in both modes, and not as `-2`; a sum that is not negative
is divided as expected (the mean of `2, 3, 4` is `3`). -/
theorem mean_int32_negative_sum_unsigned_division :
    (accumulator_mean.make_accumulator false).cycle
        (scalar_values [(⟨-2⟩ : int32), ⟨-2⟩, ⟨-2⟩]) [⟨7⟩] = some [⟨1431655763⟩] ∧
      (accumulator_mean.make_accumulator true).cycle
        [[(⟨-2⟩ : int32), ⟨-4⟩], [⟨-2⟩, ⟨5⟩], [⟨-2⟩, ⟨5⟩]] [⟨7⟩, ⟨7⟩] =
          some [⟨1431655763⟩, ⟨2⟩] ∧
      (counter_div.div (⟨-6⟩ : int32) 3 : int32) = ⟨1431655763⟩ ∧
      int32.wrap ((-6 : Int) / 3) = ⟨-2⟩ ∧
      (accumulator_mean.make_accumulator false).cycle
        (scalar_values [(⟨2⟩ : int32), ⟨3⟩, ⟨4⟩]) [⟨7⟩] = some [⟨3⟩] := by
  refine ⟨?_, ?_, ?_, ?_, ?_⟩ <;> decide


end hg
